import Mathlib

/-!
# Verification of the C code obfuscator (src/obfuscate.py)

A shallow embedding of the obfuscator's core pipeline: the tokenizer
(`TOKEN_REGEX` + `finditer`), comment stripping, frequency-ranked identifier
renaming, whitespace compression, line flattening, macro injection and
numeric-literal obfuscation, together with proofs of the specification's
testable properties.

Text is modelled as `List Char`.  Python's process-wide randomness is made
explicit: the `random.shuffle` call becomes a function parameter constrained
to be a permutation, `random.choice`/`random.randint` become explicitly
passed selectors.
-/

namespace Obf

abbrev Str := List Char

/-- Token kinds, mirroring the named groups of `TOKEN_REGEX` in
`src/obfuscate.py`.  `err` marks an input character matched by no
alternative: `re.finditer` skips such a character, so `tokenize` filters
these markers out again. -/
inductive Kind where
  | comment | string | charlit | preproc | number | ident | op | punct | ws | err
deriving DecidableEq, Repr

abbrev Tok := Kind × Str

/-! ## Character classes of the regex alternatives -/
def isDigitC (c : Char) : Bool := '0' ≤ c && c ≤ '9'

def isHexC (c : Char) : Bool := isDigitC c || ('a' ≤ c && c ≤ 'f') || ('A' ≤ c && c ≤ 'F')

def isOctC (c : Char) : Bool := '0' ≤ c && c ≤ '7'

def isAlphaC (c : Char) : Bool := ('a' ≤ c && c ≤ 'z') || ('A' ≤ c && c ≤ 'Z')

def isWordC (c : Char) : Bool := isAlphaC c || isDigitC c || c = '_'

def isSpaceC (c : Char) : Bool :=
  c = ' ' || c = '\t' || c = '\n' || c = '\x0d' || c = '\x0c' || c = '\x0b'

/-- Length of the maximal prefix whose characters satisfy `p` (a greedy
`X*` run). -/
def countWhile (p : Char → Bool) : Str → Nat
  | [] => 0
  | c :: cs => if p c then countWhile p cs + 1 else 0

/-! ## The tokenizer alternatives

Each matcher models one alternative of `TOKEN_REGEX`, applied at the current
position; it returns the length of the match, if any.  `TOKEN_REGEX` is
compiled with `re.VERBOSE | re.MULTILINE | re.DOTALL`, so `.` matches a
newline and `^` matches at every line start. -/
/-- Characters consumed by the lazy `.*?\*/` of a block comment, up to and
including the first `*/`.  `prevStar` records whether the previous consumed
character was `*`. -/
def blockClose (prevStar : Bool) : Str → Option Nat
  | [] => none
  | c :: cs =>
    if prevStar && c = '/' then some 1
    else (blockClose (c = '*') cs).map (· + 1)

/-- `/\*.*?\*/|//[^\n]*` -/
def mComment : Str → Option Nat
  | c1 :: c2 :: cs =>
    if c1 = '/' && c2 = '*' then (blockClose false cs).map (· + 2)
    else if c1 = '/' && c2 = '/' then some (2 + countWhile (fun c => c ≠ '\n') cs)
    else none
  | _ => none

/-- Body of a quoted literal `(?:[^q\\]|\\.)*q` after the opening quote `q`,
up to and including the closing quote.  `esc` records that a backslash was
just consumed, in which case any character is consumed (DOTALL is on for
`TOKEN_REGEX`, so even a newline may be escaped). -/
def quoteBody (q : Char) (esc : Bool) : Str → Option Nat
  | [] => none
  | c :: cs =>
    if esc then (quoteBody q false cs).map (· + 1)
    else if c = q then some 1
    else if c = '\\' then (quoteBody q true cs).map (· + 1)
    else (quoteBody q false cs).map (· + 1)

/-- `"(?:[^"\\]|\\.)*"` -/
def mString : Str → Option Nat
  | '"' :: cs => (quoteBody '"' false cs).map (· + 1)
  | _ => none

/-- `'(?:[^'\\]|\\.)*'` -/
def mCharlit : Str → Option Nat
  | '\'' :: cs => (quoteBody '\'' false cs).map (· + 1)
  | _ => none

/-- `^\#[^\n]*` — only matches when the position is a line start. -/
def mPreproc (lineStart : Bool) : Str → Option Nat
  | '#' :: cs => if lineStart then some (1 + countWhile (fun c => c ≠ '\n') cs) else none
  | _ => none

/-- The tail of the decimal alternative after the integer digit run:
`(?:\.\d*)?(?:[eE][+-]?\d+)?`; each group only matches when it can
(the exponent backtracks to empty when no digit follows). -/
def numTail (cs : Str) : Nat :=
  let p := match cs with
    | '.' :: r => (1 + countWhile isDigitC r, r.drop (countWhile isDigitC r))
    | _ => (0, cs)
  let ex := match p.2 with
    | e :: r =>
      if e = 'e' || e = 'E' then
        match r with
        | s :: r2 =>
          if s = '+' || s = '-' then
            if countWhile isDigitC r2 = 0 then 0 else 2 + countWhile isDigitC r2
          else
            if countWhile isDigitC r = 0 then 0 else 1 + countWhile isDigitC r
        | [] => 0
      else 0
    | [] => 0
  p.1 + ex

/-- The first number alternative `0[xX][0-9a-fA-F]+`. -/
def hexAlt : Str → Option Nat
  | '0' :: x :: cs =>
    if (x = 'x' || x = 'X') && (match cs with | c :: _ => isHexC c | [] => false) then
      some (2 + countWhile isHexC cs)
    else none
  | _ => none

/-- The second number alternative `0[0-7]+`. -/
def octAlt : Str → Option Nat
  | '0' :: x :: cs => if isOctC x then some (1 + countWhile isOctC (x :: cs)) else none
  | _ => none

/-- The third number alternative `\d+(?:\.\d*)?(?:[eE][+-]?\d+)?`. -/
def decMatch (cs : Str) : Option Nat :=
  if countWhile isDigitC cs = 0 then none
  else some (countWhile isDigitC cs + numTail (cs.drop (countWhile isDigitC cs)))

/-- `0[xX][0-9a-fA-F]+|0[0-7]+|\d+(?:\.\d*)?(?:[eE][+-]?\d+)?`, alternatives
tried left to right. -/
def mNumber (cs : Str) : Option Nat :=
  match hexAlt cs with
  | some n => some n
  | none =>
    match octAlt cs with
    | some n => some n
    | none => decMatch cs

/-- `[A-Za-z_]\w*` -/
def mIdent : Str → Option Nat
  | c :: cs => if isAlphaC c || c = '_' then some (1 + countWhile isWordC cs) else none
  | [] => none

def opChar (c : Char) : Bool :=
  c = '+' || c = '-' || c = '*' || c = '/' || c = '%' || c = '&' || c = '|' ||
  c = '^' || c = '~' || c = '!' || c = '<' || c = '>' || c = '=' || c = '?' || c = ':'

/-- `<<=|>>=|<<|>>|->|&&|\|\||[+\-*/%&|^~!<>=?:]=?|==|!=|<=|>=|\+\+|--`.
The class alternative precedes `==`, `!=`, `<=`, `>=`, `++` and `--`, so the
last four alternatives can never fire (e.g. `++` is scanned as two `+`
tokens, while `==` is produced by the class alternative's optional `=`). -/
def mOp : Str → Option Nat
  | [] => none
  | c :: rest =>
    if c = '<' && rest.take 2 = ['<', '='] then some 3
    else if c = '>' && rest.take 2 = ['>', '='] then some 3
    else if c = '<' && rest.take 1 = ['<'] then some 2
    else if c = '>' && rest.take 1 = ['>'] then some 2
    else if c = '-' && rest.take 1 = ['>'] then some 2
    else if c = '&' && rest.take 1 = ['&'] then some 2
    else if c = '|' && rest.take 1 = ['|'] then some 2
    else if opChar c then
      if rest.take 1 = ['='] then some 2 else some 1
    else none

def isPunctC (c : Char) : Bool :=
  c = '{' || c = '}' || c = '(' || c = ')' || c = '[' || c = ']' || c = ';' || c = ',' || c = '.'

def mPunct : Str → Option Nat
  | c :: _ => if isPunctC c then some 1 else none
  | [] => none

/-- `\s+` -/
def mWs : Str → Option Nat
  | c :: cs => if isSpaceC c then some (1 + countWhile isSpaceC cs) else none
  | [] => none

/-- One `finditer` attempt: the alternatives of `TOKEN_REGEX` are tried in
their written order at the current position. -/
def matchTok (lineStart : Bool) (cs : Str) : Option (Kind × Nat) :=
  match mComment cs with
  | some n => some (.comment, n)
  | none =>
  match mString cs with
  | some n => some (.string, n)
  | none =>
  match mCharlit cs with
  | some n => some (.charlit, n)
  | none =>
  match mPreproc lineStart cs with
  | some n => some (.preproc, n)
  | none =>
  match mNumber cs with
  | some n => some (.number, n)
  | none =>
  match mIdent cs with
  | some n => some (.ident, n)
  | none =>
  match mOp cs with
  | some n => some (.op, n)
  | none =>
  match mPunct cs with
  | some n => some (.punct, n)
  | none =>
  match mWs cs with
  | some n => some (.ws, n)
  | none => none

/-! ## The scanner -/
/-- Model of `TOKEN_REGEX.finditer`: scan the text from left to right,
producing one token per match.  A character matched by no alternative is
recorded as an `err` token (`finditer` silently skips it).  `lineStart`
tracks the MULTILINE `^` context: true at position 0 and right after a
newline.  The `fuel` argument only serves structural termination; it is
irrelevant as long as it is at least the text length (`scanFuel_irrel`). -/
def scanFuel : Nat → Bool → Str → List Tok
  | 0, _, _ => []
  | _ + 1, _, [] => []
  | fuel + 1, ls, c :: rest =>
    match matchTok ls (c :: rest) with
    | some (k, n) =>
      (k, (c :: rest).take n) ::
        scanFuel fuel (((c :: rest).take n).getLast? = some '\n') ((c :: rest).drop n)
    | none => (.err, [c]) :: scanFuel fuel (c = '\n') rest

def scanAll (lineStart : Bool) (cs : Str) : List Tok :=
  scanFuel cs.length lineStart cs

/-- `tokenize` (src/obfuscate.py line 50): the matches of `finditer`, i.e.
the scan with the skipped characters removed. -/
def tokenize (cs : Str) : List Tok :=
  (scanAll true cs).filter (fun t => t.1 ≠ Kind.err)

/-- `detokenize` (line 53): concatenation of the lexemes. -/
def detokenize (ts : List Tok) : Str := (ts.map (·.2)).flatten

/-- A valid source: every character is inside some match of the tokenizer
(no character is skipped). -/
def ValidSrc (cs : Str) : Prop := ∀ t ∈ scanAll true cs, t.1 ≠ Kind.err

instance : DecidablePred ValidSrc := fun cs =>
  inferInstanceAs (Decidable (∀ t ∈ scanAll true cs, t.1 ≠ Kind.err))

/-! ## Configuration: reserved identifiers and the confusable name list -/
/-- `RESERVED` (lines 13-24): identifiers that must never be renamed. -/
def RESERVED : List Str :=
  (["auto", "break", "case", "char", "const", "continue", "default", "do",
    "double", "else", "enum", "extern", "float", "for", "goto", "if",
    "int", "long", "register", "return", "short", "signed", "sizeof", "static",
    "struct", "switch", "typedef", "union", "unsigned", "void", "volatile", "while",
    "printf", "scanf", "malloc", "free", "strlen", "strcpy", "strcmp", "memcpy",
    "fopen", "fclose", "fread", "fwrite", "exit", "NULL", "stdin", "stdout", "stderr",
    "main"]).map String.data

/-- `CONFUSING` (lines 27-33): the curated visually-confusable names. -/
def CONFUSING : List Str :=
  (["O0", "l1", "Il", "lI", "O0l", "l1I", "I1l", "OO0", "ll1", "Ill", "lll", "III",
    "oO0", "O0o", "_O", "_0", "_l", "_I", "__O", "__0", "__l", "__I", "O_0", "l_1",
    "I_l", "_O0", "_l1", "_Il", "OOO", "lll1", "IlI", "lIl", "IIl", "O0O0", "l1l1",
    "IlIl", "O00O", "l11l", "oOoO", "Oo0O", "oO0o", "lO0l", "IlO0", "OlIl", "lIO0",
    "O0Il", "Il0O", "lO0I"]).map String.data

/-! ## Name generation -/
/-- The mild pool: `list("xyzqwkjvnmftbpdr") + [a+b for a in "xyzqw" for b in
"0123456789"]` (line 60). -/
def mildPool : List Str :=
  "xyzqwkjvnmftbpdr".data.map (fun c => [c]) ++
    "xyzqw".data.flatMap (fun a => "0123456789".data.map (fun b => [a, b]))

/-- The moderate pool: `[p+b for p in ["_","__","___"] for b in
"xyzqwkjvnmftbpdr0123456789"]` (line 62). -/
def moderatePool : List Str :=
  (["_", "__", "___"].map String.data).flatMap
    (fun p => "xyzqwkjvnmftbpdr0123456789".data.map (fun b => p ++ [b]))

/-- The extreme branch's while-loop (lines 64-66): starting from CONFUSING,
append `picks i` — modelling the i-th draw of `random.choice(CONFUSING) +
random.choice(["_", "0", "1"])` — until the pool has `count` entries. -/
def extremePool (count : Nat) (picks : Nat → Str) : List Str :=
  CONFUSING ++ (List.range (count - CONFUSING.length)).map picks

/-- `generate_names` (lines 57-68).  `σ` models `random.shuffle` (callers
constrain it to permute its argument), `picks` the extreme branch's random
draws. -/
def generate_names (count : Nat) (style : Str) (σ : List Str → List Str)
    (picks : Nat → Str) : List Str :=
  let pool :=
    if style = "mild".data then mildPool
    else if style = "moderate".data then moderatePool
    else extremePool count picks
  (σ pool).take count

/-! ## Transformation passes on the token stream -/
/-- `strip_comments` (lines 71-72). -/
def strip_comments (ts : List Tok) : List Tok :=
  ts.filter (fun t => t.1 ≠ Kind.comment)

/-- One `freq[value] = freq.get(value, 0) + 1` step on the ordered
association list that models the OrderedDict `freq`: bump an existing key in
place or append a new key at the end. -/
def bump : List (Str × Nat) → Str → List (Str × Nat)
  | [], x => [(x, 1)]
  | (y, n) :: rest, x => if y = x then (y, n + 1) :: rest else (y, n) :: bump rest x

/-- The renameable identifier occurrences of a token stream, in order:
lexemes of `ident` tokens whose text is not reserved (lines 77-79). -/
def renameables (ts : List Tok) : List Str :=
  ts.filterMap (fun t => if t.1 = Kind.ident ∧ t.2 ∉ RESERVED then some t.2 else none)

/-- The OrderedDict `freq` built by `rename_identifiers`: occurrence counts,
keyed in first-seen order. -/
def tally (ts : List Tok) : List (Str × Nat) :=
  (renameables ts).foldl bump []

/-- Stable insertion of an entry into a descending-by-count list: the
element goes before the first entry whose count is not larger (so among
equal counts, the inserted — originally earlier — element comes first). -/
def insDesc (p : Str × Nat) : List (Str × Nat) → List (Str × Nat)
  | [] => [p]
  | q :: t => if q.2 ≤ p.2 then p :: q :: t else q :: insDesc p t

/-- `sorted(freq.items(), key=lambda x: -x[1])` (line 82): a stable sort,
descending by count with ties kept in first-seen order, modelled by stable
insertion sort (`insDesc` keeps the earlier element first on ties, exactly
as Python's stable sort does). -/
def sortDesc : List (Str × Nat) → List (Str × Nat)
  | [] => []
  | p :: t => insDesc p (sortDesc t)

def sortIdents (ts : List Tok) : List (Str × Nat) :=
  sortDesc (tally ts)

/-- Association-list lookup (a Python dict access, keys unique). -/
def alookup {β : Type} (x : Str) : List (Str × β) → Option β
  | [] => none
  | (k, v) :: t => if k = x then some v else alookup x t

/-- `rename_identifiers` (lines 74-94).  The mapping comprehension reads
`names[i]` for every index of `sorted_idents`; when the generated pool is
shorter than the identifier list this raises IndexError, modelled by
`none`. -/
def rename_identifiers (ts : List Tok) (level : Str) (σ : List Str → List Str)
    (picks : Nat → Str) : Option (List Tok × List (Str × Str)) :=
  let sorted := sortIdents ts
  let names := generate_names sorted.length level σ picks
  if sorted.length ≤ names.length then
    let mapping := (sorted.map (·.1)).zip names
    some (ts.map (fun t =>
      match (if t.1 = Kind.ident then alookup t.2 mapping else none) with
      | some v => (Kind.ident, v)
      | none => t), mapping)
  else none

/-- `compress_whitespace` (lines 96-118): `prev` is the last token already
appended to `result` (Python's `result[-1]`, modelled `none` when `result`
is empty), `nxt` is read from the untransformed input (`tokens[i+1]`,
modelled by the head of the remaining list). -/
def compressAux (level : Str) (prev : Option Tok) : List Tok → List Tok
  | [] => []
  | (k, v) :: rest =>
    if k ≠ Kind.ws then (k, v) :: compressAux level (some (k, v)) rest
    else
      if level = "mild".data ∨ level = "moderate".data then
        (Kind.ws, if '\n' ∈ v then ['\n'] else [' ']) ::
          compressAux level (some (Kind.ws, if '\n' ∈ v then ['\n'] else [' '])) rest
      else
        if rest.head?.map (·.1) = some Kind.preproc ∨ prev.map (·.1) = some Kind.preproc then
          (Kind.ws, ['\n']) :: compressAux level (some (Kind.ws, ['\n'])) rest
        else if (prev.map (·.1) = some Kind.ident ∨ prev.map (·.1) = some Kind.number) ∧
            (rest.head?.map (·.1) = some Kind.ident ∨ rest.head?.map (·.1) = some Kind.number) then
          (Kind.ws, [' ']) :: compressAux level (some (Kind.ws, [' '])) rest
        else compressAux level prev rest

def compress_whitespace (ts : List Tok) (level : Str) : List Tok :=
  compressAux level none ts

/-! ## The reserved-set invariant (C5) -/
/-- The possible extreme-extension draws: `random.choice(CONFUSING) +
random.choice(["_", "0", "1"])`. -/
def extChoices : List Str :=
  CONFUSING.flatMap (fun c => [c ++ ['_'], c ++ ['0'], c ++ ['1']])

/-! ## Frequency ordering of the rename mapping (C4) -/
/-- Occurrences of identifier `x` as an `ident` token in the stream. -/
def occCount (ts : List Tok) (x : Str) : Nat :=
  ts.countP (fun t => decide (t.1 = Kind.ident ∧ t.2 = x))

/-- Index of the first occurrence of identifier `x` in the stream. -/
def firstOcc (ts : List Tok) (x : Str) : Nat :=
  ts.findIdx (fun t => decide (t.1 = Kind.ident ∧ t.2 = x))

/-- Occurrences of `x` in a list of identifiers. -/
def countS (x : Str) : List Str → Nat
  | [] => 0
  | y :: t => (if y = x then 1 else 0) + countS x t

/-- Index of `x` in a list of identifiers. -/
def idxOfS (x : Str) : List Str → Nat
  | [] => 0
  | y :: t => if y = x then 0 else idxOfS x t + 1

/-- The keys a run of `bump`s appends, in first-seen order, skipping keys
already `seen`. -/
def newKeys : List Str → List Str → List Str
  | [], _ => []
  | x :: t, seen => if x ∈ seen then newKeys t seen else x :: newKeys t (seen ++ [x])

/-! ## Text-level helpers: lines, strip, prefixes -/
/-- `str.split("\n")`. -/
def splitLines : Str → List Str
  | [] => [[]]
  | c :: cs =>
    if c = '\n' then [] :: splitLines cs
    else
      match splitLines cs with
      | l :: ls => (c :: l) :: ls
      | [] => [[c]]

/-- `"\n".join(lines)`. -/
def joinLines : List Str → Str
  | [] => []
  | [l] => l
  | l :: ls => l ++ '\n' :: joinLines ls

/-- `str.strip()` (over the ASCII whitespace the pipeline produces). -/
def stripStr (s : Str) : Str :=
  ((s.dropWhile isSpaceC).reverse.dropWhile isSpaceC).reverse

/-- `str.startswith(pre)`. -/
def startsWithS : Str → Str → Bool
  | [], _ => true
  | _ :: _, [] => false
  | p :: ps, c :: cs => p = c && startsWithS ps cs

/-! ## flatten_code -/
/-- The line loop of `flatten_code` (lines 129-142): `buffer` accumulates
joined non-directive lines, flushed before each directive line and at the
end. -/
def flattenLoop : List Str → Str → List Str
  | [], buffer => if buffer ≠ [] then [stripStr buffer] else []
  | line :: rest, buffer =>
    if stripStr line = [] then flattenLoop rest buffer
    else if startsWithS ['#'] (stripStr line) then
      (if buffer ≠ [] then [stripStr buffer] else []) ++
        stripStr line :: flattenLoop rest []
    else flattenLoop rest (buffer ++ ' ' :: stripStr line)

/-- `flatten_code` (lines 120-144): extreme only. -/
def flatten_code (code : Str) (level : Str) : Str :=
  if level ≠ "extreme".data then code
  else joinLines (flattenLoop (splitLines code) [])

/-! ## String-literal splitting for the text passes

`inject_macros` and `obfuscate_numbers` split on
`re.split(r'("(?:[^"\\]|\\.)*")', code)` and rewrite only the even
(non-literal) parts.  These patterns are compiled without DOTALL, so inside
a literal an escape cannot consume a newline. -/
/-- Body of the text passes' string-literal pattern after the opening
quote: length up to and including the closing quote. -/
def litBody : Str → Option Nat
  | [] => none
  | c :: cs =>
    if c = '"' then some 1
    else if c = '\\' then
      match cs with
      | [] => none
      | c2 :: cs2 => if c2 = '\n' then none else (litBody cs2).map (· + 2)
    else (litBody cs).map (· + 1)

/-- The literal match attempted at a position (must start with `"`). -/
def strLitLen : Str → Option Nat
  | '"' :: cs => (litBody cs).map (· + 1)
  | _ => none

/-- The splitting scan: characters accumulate into the current even
segment; at each `"` the literal pattern is tried, and a successful match
becomes an odd segment.  Fuel-driven (irrelevant at `fuel ≥ length`). -/
def splitStrFuel : Nat → Str → Str → List Str
  | 0, cs, acc => [acc.reverse ++ cs]
  | _ + 1, [], acc => [acc.reverse]
  | fuel + 1, c :: cs, acc =>
    match strLitLen (c :: cs) with
    | some n =>
      acc.reverse :: (c :: cs).take n :: splitStrFuel fuel ((c :: cs).drop n) []
    | none => splitStrFuel fuel cs (c :: acc)

def splitStr (s : Str) : List Str := splitStrFuel s.length s []

/-! ## Operator-to-macro substitution (inject_macros) -/
/-- One attempt of `re.sub(r'\b(\w+)\s*OP\s*(\w+)\b', r'NAME(\1,\2)', ...)`
at the current position.  `pw` tells whether the previous character is a
word character (the `\b` look-behind); the trailing `\b` holds
automatically after a maximal `\w+` run.  Returns consumed length and
replacement. -/
def opSubTail (opc : Char) (name : Str) (cs : Str) (k1 ws1 : Nat) : Str → Option (Nat × Str)
  | [] => none
  | c :: rest3 =>
    if c = opc then
      let ws2 := countWhile isSpaceC rest3
      let rest4 := rest3.drop ws2
      let k2 := countWhile isWordC rest4
      if k2 = 0 then none
      else some (k1 + ws1 + 1 + ws2 + k2,
        name ++ '(' :: cs.take k1 ++ ',' :: rest4.take k2 ++ [')'])
    else none

def opSubMatch (opc : Char) (name : Str) (pw : Bool) (cs : Str) : Option (Nat × Str) :=
  if pw then none
  else
    let k1 := countWhile isWordC cs
    if k1 = 0 then none
    else
      let rest1 := cs.drop k1
      let ws1 := countWhile isSpaceC rest1
      let rest2 := rest1.drop ws1
      opSubTail opc name cs k1 ws1 rest2

/-- Generic `re.sub` scan: leftmost matches replaced, scanning resumes
after each match (in the original text), one character is copied when no
match starts here.  `pw` is the word-character look-behind state. -/
def subScan (m : Bool → Str → Option (Nat × Str)) : Nat → Bool → Str → Str
  | 0, _, cs => cs
  | _ + 1, _, [] => []
  | fuel + 1, pw, c :: cs =>
    match m pw (c :: cs) with
    | some (n, rep) =>
      rep ++ subScan m fuel
        (((c :: cs).take n).getLast?.elim false isWordC) ((c :: cs).drop n)
    | none => c :: subScan m fuel (isWordC c) cs

/-- The three ordered substitutions of inject_macros (lines 164-166). -/
def subOps (s : Str) : Str :=
  let s1 := subScan (opSubMatch '+' "_OB_A".data) s.length false s
  let s2 := subScan (opSubMatch '-' "_OB_S".data) s1.length false s1
  subScan (opSubMatch '*' "_OB_M".data) s2.length false s2

/-- Apply `f` to the even-indexed (non-literal) segments. -/
def mapEvens (f : Str → Str) : List Str → List Str
  | [] => []
  | [e] => [f e]
  | e :: lit :: rest => f e :: lit :: mapEvens f rest

/-- The seven macro definitions (lines 151-159). -/
def MACROS : List Str :=
  (["#define _OB_A(a,b) ((a)+(b))",
    "#define _OB_S(a,b) ((a)-(b))",
    "#define _OB_M(a,b) ((a)*(b))",
    "#define _OB_LT(a,b) ((a)<(b))",
    "#define _OB_GT(a,b) ((a)>(b))",
    "#define _OB_EQ(a,b) ((a)==(b))",
    "#define _OB_N(a) (!(a))"]).map String.data

/-- `next((i + 1 for i, l in enumerate(lines) if
l.strip().startswith("#include")), 0)` — one past the FIRST matching line,
0 when none matches (line 171). -/
def insertPos (lines : List Str) : Nat :=
  match lines.findIdx? (fun l => startsWithS "#include".data (stripStr l)) with
  | some i => i + 1
  | none => 0

/-- `inject_macros` (lines 146-175). -/
def inject_macros (code : Str) (level : Str) : Str :=
  if level = "mild".data then code
  else
    let code2 := (mapEvens subOps (splitStr code)).flatten
    let lines := splitLines code2
    let pos := insertPos lines
    joinLines (lines.take pos ++ MACROS ++ lines.drop pos)

/-! ## Numeric obfuscation -/
def digitChar (d : Nat) : Char :=
  if d < 10 then Char.ofNat ('0'.toNat + d) else Char.ofNat ('a'.toNat + (d - 10))

def digitVal (c : Char) : Nat :=
  if '0' ≤ c && c ≤ '9' then c.toNat - '0'.toNat
  else if 'a' ≤ c && c ≤ 'f' then c.toNat - 'a'.toNat + 10
  else if 'A' ≤ c && c ≤ 'F' then c.toNat - 'A'.toNat + 10
  else 0

/-- Base-`b` rendering, most significant digit first (fuel-driven; the fuel
`n` itself always suffices). -/
def natToBaseAux (b : Nat) : Nat → Nat → Str → Str
  | 0, n, acc => digitChar n :: acc
  | fuel + 1, n, acc =>
    if n < b then digitChar n :: acc
    else natToBaseAux b fuel (n / b) (digitChar (n % b) :: acc)

def natToBase (b n : Nat) : Str := natToBaseAux b n n []

/-- Base-`b` value of a digit string. -/
def parseBase (b : Nat) (s : Str) : Nat := s.foldl (fun acc c => acc * b + digitVal c) 0

/-- `str(n)`. -/
def pyDec (n : Nat) : Str := natToBase 10 n

/-- `hex(n)` for a non-negative value: `0x` plus lowercase hex digits. -/
def pyHex (n : Nat) : Str := '0' :: 'x' :: natToBase 16 n

/-- `"0" + oct(n)[2:]`: a C octal literal. -/
def cOct (n : Nat) : Str := '0' :: natToBase 8 n

/-- `int.bit_length()` (fuel-driven; the value itself is enough fuel). -/
def bitLenAux : Nat → Nat → Nat
  | 0, _ => 0
  | fuel + 1, n => if n = 0 then 0 else bitLenAux fuel (n / 2) + 1

def bitLength (n : Nat) : Nat := bitLenAux n n

/-- The candidate list built by `replace` in obfuscate_numbers (lines
182-196) for a matched literal of value `n`; `a` is the summand drawn by
`random.randint(1, n - 1)`. -/
def numChoices (n a : Nat) : List Str :=
  [pyDec n] ++
  (if 0 ≤ n then [pyHex n] else []) ++
  (if 0 < n ∧ n < 256 then [cOct n, ('(' :: "0xFF&".data) ++ pyHex n ++ [')']] else []) ++
  (if 1 < n then [('(' :: pyDec a) ++ '+' :: pyDec (n - a) ++ [')']] else []) ++
  (if 0 < n ∧ n.land (n - 1) = 0 then
    [('(' :: "1<<".data) ++ pyDec (bitLength n - 1) ++ [')']]
   else [])

/-- `random.choice(l)`: some element of the non-empty list, selected by the
run's random draw `i`. -/
def pickFrom (l : List Str) (i : Nat) : Str := l.getD (i % l.length) []

/-- The `re.sub(r'\b(\d+)\b', replace, ...)` scan (line 203).  `idx` counts
the matches so far (so the selectors model one random draw per match);
`aFor idx n` models `random.randint(1, n-1)` and `pkFor idx` the
`random.choice`. -/
def numScan (aFor : Nat → Nat → Nat) (pkFor : Nat → Nat) :
    Nat → Nat → Bool → Str → Str × Nat
  | 0, idx, _, cs => (cs, idx)
  | _ + 1, idx, _, [] => ([], idx)
  | fuel + 1, idx, pw, c :: cs =>
    if pw then
      let r := numScan aFor pkFor fuel idx (isWordC c) cs
      (c :: r.1, r.2)
    else
      let k := countWhile isDigitC (c :: cs)
      if k = 0 then
        let r := numScan aFor pkFor fuel idx (isWordC c) cs
        (c :: r.1, r.2)
      else if (match (c :: cs).drop k with | d :: _ => isWordC d | [] => false) then
        -- trailing \b fails: a word character follows the digit run
        let r := numScan aFor pkFor fuel idx (isWordC c) cs
        (c :: r.1, r.2)
      else
        let n := parseBase 10 ((c :: cs).take k)
        let rep := pickFrom (numChoices n (aFor idx n)) (pkFor idx)
        let r := numScan aFor pkFor fuel (idx + 1) true ((c :: cs).drop k)
        (rep ++ r.1, r.2)

/-- Apply the number substitution to the even segments, threading the
match counter across segments (the random draws are per run). -/
def numSubEvens (aFor : Nat → Nat → Nat) (pkFor : Nat → Nat) :
    Nat → List Str → List Str
  | _, [] => []
  | idx, [e] => [(numScan aFor pkFor e.length idx false e).1]
  | idx, e :: lit :: rest =>
    let r := numScan aFor pkFor e.length idx false e
    r.1 :: lit :: numSubEvens aFor pkFor r.2 rest

/-- `obfuscate_numbers` (lines 177-205): extreme only. -/
def obfuscate_numbers (code : Str) (level : Str) (aFor : Nat → Nat → Nat)
    (pkFor : Nat → Nat) : Str :=
  if level ≠ "extreme".data then code
  else (numSubEvens aFor pkFor 0 (splitStr code)).flatten

/-! ## The whole pipeline -/
/-- `obfuscate` (lines 208-229). -/
def obfuscate (code : Str) (level : Str) (σ : List Str → List Str) (picks : Nat → Str)
    (aFor : Nat → Nat → Nat) (pkFor : Nat → Nat) : Option (Str × List (Str × Str)) :=
  match rename_identifiers (strip_comments (tokenize code)) level σ picks with
  | none => none
  | some (ts, mapping) =>
    let code2 := detokenize (compress_whitespace ts level)
    let code3 := flatten_code code2 level
    let code4 := inject_macros code3 level
    let code5 := obfuscate_numbers code4 level aFor pkFor
    some (code5, mapping)

/-! ## A C-expression evaluator for the emitted candidate forms (C8) -/
/-- Value of a C integer literal: `0x` prefix is hexadecimal, a leading `0`
followed by further digits is octal, otherwise decimal. -/
def cLitVal (s : Str) : Option Nat :=
  match s with
  | [] => none
  | c :: rest =>
    if c = '0' then
      match rest with
      | [] => some 0
      | c2 :: rest2 =>
        if c2 = 'x' then
          if rest2 ≠ [] ∧ rest2.all isHexC then some (parseBase 16 rest2) else none
        else if (c2 :: rest2).all isOctC then some (parseBase 8 (c2 :: rest2))
        else none
    else if (c :: rest).all isDigitC then some (parseBase 10 (c :: rest)) else none

/-- First occurrence of `op` in the text: the pieces before and after. -/
def splitOnOp (op : Str) : Str → Option (Str × Str)
  | [] => none
  | c :: cs =>
    if startsWithS op (c :: cs) then some ([], (c :: cs).drop op.length)
    else
      match splitOnOp op cs with
      | some p => some (c :: p.1, p.2)
      | none => none

/-- C semantics of the obfuscator's candidate expressions: an integer
literal, or a parenthesised binary operation (`<<`, `&` or `+`) on two
literals. -/
def cEval (s : Str) : Option Nat :=
  match s with
  | [] => none
  | c :: rest =>
    if c = '(' then
      if rest.getLast? = some ')' then
        match splitOnOp ['<', '<'] rest.dropLast with
        | some p => do
          let x ← cLitVal p.1
          let y ← cLitVal p.2
          pure (x <<< y)
        | none =>
          match splitOnOp ['&'] rest.dropLast with
          | some p => do
            let x ← cLitVal p.1
            let y ← cLitVal p.2
            pure (x &&& y)
          | none =>
            match splitOnOp ['+'] rest.dropLast with
            | some p => do
              let x ← cLitVal p.1
              let y ← cLitVal p.2
              pure (x + y)
            | none => none
      else none
    else cLitVal (c :: rest)

/-! ### The candidate list matches the specification's list -/
/-- Modelled from the spec (§4.8): the candidate list in the
specification's own words — decimal always; hexadecimal when non-negative;
C octal and the `0xFF`-masked form when in (0,256); an additive
decomposition when the value exceeds 1; a left-shift form when the value is
a power of two. -/
def specNumChoices (n a : Nat) : List Str :=
  [pyDec n] ++
  (if 0 ≤ n then [pyHex n] else []) ++
  (if 0 < n ∧ n < 256 then [cOct n, ('(' :: "0xFF&".data) ++ pyHex n ++ [')']] else []) ++
  (if 1 < n then [('(' :: pyDec a) ++ '+' :: pyDec (n - a) ++ [')']] else []) ++
  (if ∃ k < n + 1, n = 2 ^ k then
    [('(' :: "1<<".data) ++ pyDec (bitLength n - 1) ++ [')']]
   else [])

/-! ## C7: string-literal safety of the text passes -/
def oddSegs : List Str → List Str
  | [] => []
  | [_] => []
  | _ :: l :: rest => l :: oddSegs rest

def evenSegs : List Str → List Str
  | [] => []
  | [e] => [e]
  | e :: _ :: rest => e :: evenSegs rest

def stringSegs (t : Str) : List Str := oddSegs (splitStr t)

def IsLit (s : Str) : Prop := strLitLen s = some s.length

/-- The structural invariant of a quote-split: segments alternate, the odd
ones being exact string-literal matches, starting and ending with an even
segment. -/
inductive AltShape : List Str → Prop
  | last (e : Str) : AltShape [e]
  | step (e l : Str) (rest : List Str) (hl : IsLit l) (hrest : AltShape rest) :
      AltShape (e :: l :: rest)

/-- `AltShape` plus: the even segments carry no quote character. -/
inductive SegsOK : List Str → Prop
  | last (e : Str) (he : '"' ∉ e) : SegsOK [e]
  | step (e l : Str) (rest : List Str) (he : '"' ∉ e) (hl : IsLit l) (hrest : SegsOK rest) :
      SegsOK (e :: l :: rest)

/-! ## C10: the directive-marker line automaton -/
/-- State of a left-to-right scan of the text, per line: at a line start,
inside a line that began with the directive marker, or inside a clean line
in which no marker may appear. -/
inductive HState
  | start
  | clean
  | hash
deriving DecidableEq

def hrank : HState → Nat
  | .clean => 0
  | .start => 1
  | .hash => 2

/-- One scan step; `none` rejects: a `#` inside a clean line. -/
def hstep : HState → Char → Option HState
  | .hash, c => some (if c = '\n' then .start else .hash)
  | .start, c => some (if c = '\n' then .start else if c = '#' then .hash else .clean)
  | .clean, c =>
    if c = '#' then none else some (if c = '\n' then .start else .clean)

def hrun : HState → Str → Option HState
  | s, [] => some s
  | s, c :: cs =>
    match hstep s c with
    | some s2 => hrun s2 cs
    | none => none

/-- The claim's per-line property: the line starts with the marker or is
marker-free. -/
def lineOK (l : Str) : Prop := startsWithS ['#'] l = true ∨ '#' ∉ l

def repState : HState → HState
  | .hash => .hash
  | .start => .clean
  | .clean => .clean

/-- The conditions on a substitution matcher under which the rewritten text
simulates the original in the line automaton. -/
def HMatchOK (m : Bool → Str → Option (Nat × Str)) : Prop :=
  ∀ pw cs n rep, m pw cs = some (n, rep) →
    rep ≠ [] ∧ '#' ∉ rep ∧ '\n' ∉ rep ∧ '#' ∉ cs.take n ∧
    (∃ d, (cs.take n).getLast? = some d ∧ ¬ d = '\n')

/-! ### Positivity of every match -/
theorem blockClose_pos : ∀ (b : Bool) (cs : Str) (n : Nat),
    blockClose b cs = some n → 0 < n := by
  intro b cs
  induction cs generalizing b with
  | nil => intro n h; simp [blockClose] at h
  | cons c t ih =>
    intro n h
    unfold blockClose at h
    split at h
    · rcases h with ⟨rfl⟩; omega
    · rcases Option.map_eq_some'.mp h with ⟨m, _, rfl⟩; omega

theorem mComment_pos (h : mComment cs = some n) : 0 < n := by
  unfold mComment at h
  split at h
  · split at h
    · rcases Option.map_eq_some'.mp h with ⟨m, _, rfl⟩; omega
    · split at h
      · rcases h with ⟨rfl⟩; omega
      · exact absurd h (by simp)
  · exact absurd h (by simp)

theorem quoteBody_pos : ∀ (q : Char) (e : Bool) (cs : Str) (n : Nat),
    quoteBody q e cs = some n → 0 < n := by
  intro q e cs
  induction cs generalizing e with
  | nil => intro n h; simp [quoteBody] at h
  | cons c t ih =>
    intro n h
    unfold quoteBody at h
    split at h
    · rcases Option.map_eq_some'.mp h with ⟨m, _, rfl⟩; omega
    · split at h
      · rcases h with ⟨rfl⟩; omega
      · split at h
        · rcases Option.map_eq_some'.mp h with ⟨m, _, rfl⟩; omega
        · rcases Option.map_eq_some'.mp h with ⟨m, _, rfl⟩; omega

theorem mString_pos (h : mString cs = some n) : 0 < n := by
  unfold mString at h
  split at h
  · rcases Option.map_eq_some'.mp h with ⟨m, _, rfl⟩; omega
  · exact absurd h (by simp)

theorem mCharlit_pos (h : mCharlit cs = some n) : 0 < n := by
  unfold mCharlit at h
  split at h
  · rcases Option.map_eq_some'.mp h with ⟨m, _, rfl⟩; omega
  · exact absurd h (by simp)

theorem mPreproc_pos (h : mPreproc ls cs = some n) : 0 < n := by
  unfold mPreproc at h
  split at h
  · split at h
    · rcases h with ⟨rfl⟩; omega
    · exact absurd h (by simp)
  · exact absurd h (by simp)

theorem decMatch_pos (h : decMatch cs = some n) : 0 < n := by
  unfold decMatch at h
  split at h
  · exact absurd h (by simp)
  · rcases h with ⟨rfl⟩; omega

theorem hexAlt_pos (h : hexAlt cs = some n) : 0 < n := by
  unfold hexAlt at h
  split at h
  · split at h
    · rcases h with ⟨rfl⟩; omega
    · exact absurd h (by simp)
  · exact absurd h (by simp)

theorem octAlt_pos (h : octAlt cs = some n) : 0 < n := by
  unfold octAlt at h
  split at h
  · split at h
    · rcases h with ⟨rfl⟩; omega
    · exact absurd h (by simp)
  · exact absurd h (by simp)

theorem mNumber_pos (h : mNumber cs = some n) : 0 < n := by
  unfold mNumber at h
  split at h
  · rename_i m hm
    rcases h with ⟨rfl⟩; exact hexAlt_pos hm
  · split at h
    · rename_i m hm
      rcases h with ⟨rfl⟩; exact octAlt_pos hm
    · exact decMatch_pos h

theorem mIdent_pos (h : mIdent cs = some n) : 0 < n := by
  unfold mIdent at h
  split at h
  · split at h
    · rcases h with ⟨rfl⟩; omega
    · exact absurd h (by simp)
  · exact absurd h (by simp)

theorem mOp_pos (h : mOp cs = some n) : 0 < n := by
  unfold mOp at h
  split at h
  · exact absurd h (by simp)
  · split at h
    · rcases h with ⟨rfl⟩; omega
    · split at h
      · rcases h with ⟨rfl⟩; omega
      · split at h
        · rcases h with ⟨rfl⟩; omega
        · split at h
          · rcases h with ⟨rfl⟩; omega
          · split at h
            · rcases h with ⟨rfl⟩; omega
            · split at h
              · rcases h with ⟨rfl⟩; omega
              · split at h
                · rcases h with ⟨rfl⟩; omega
                · split at h
                  · split at h <;> (rcases h with ⟨rfl⟩; omega)
                  · exact absurd h (by simp)

theorem mPunct_pos (h : mPunct cs = some n) : 0 < n := by
  unfold mPunct at h
  split at h
  · split at h
    · rcases h with ⟨rfl⟩; omega
    · exact absurd h (by simp)
  · exact absurd h (by simp)

theorem mWs_pos (h : mWs cs = some n) : 0 < n := by
  unfold mWs at h
  split at h
  · split at h
    · rcases h with ⟨rfl⟩; omega
    · exact absurd h (by simp)
  · exact absurd h (by simp)

theorem matchTok_pos (h : matchTok ls cs = some (k, n)) : 0 < n := by
  unfold matchTok at h
  split at h
  · rename_i m hm; rcases h with ⟨rfl, rfl⟩; exact mComment_pos hm
  · split at h
    · rename_i m hm; rcases h with ⟨rfl, rfl⟩; exact mString_pos hm
    · split at h
      · rename_i m hm; rcases h with ⟨rfl, rfl⟩; exact mCharlit_pos hm
      · split at h
        · rename_i m hm; rcases h with ⟨rfl, rfl⟩; exact mPreproc_pos hm
        · split at h
          · rename_i m hm; rcases h with ⟨rfl, rfl⟩; exact mNumber_pos hm
          · split at h
            · rename_i m hm; rcases h with ⟨rfl, rfl⟩; exact mIdent_pos hm
            · split at h
              · rename_i m hm; rcases h with ⟨rfl, rfl⟩; exact mOp_pos hm
              · split at h
                · rename_i m hm; rcases h with ⟨rfl, rfl⟩; exact mPunct_pos hm
                · split at h
                  · rename_i m hm; rcases h with ⟨rfl, rfl⟩; exact mWs_pos hm
                  · exact absurd h (by simp)

theorem scanFuel_irrel : ∀ (f1 : Nat) (f2 : Nat) (ls : Bool) (cs : Str),
    cs.length ≤ f1 → cs.length ≤ f2 → scanFuel f1 ls cs = scanFuel f2 ls cs := by
  intro f1
  induction f1 with
  | zero =>
    intro f2 ls cs h1 _
    have : cs = [] := List.eq_nil_of_length_eq_zero (Nat.le_zero.mp h1)
    subst this
    cases f2 <;> simp [scanFuel]
  | succ f ih =>
    intro f2 ls cs h1 h2
    cases cs with
    | nil => cases f2 <;> simp [scanFuel]
    | cons c rest =>
      cases f2 with
      | zero => simp at h2
      | succ g =>
        cases hm : matchTok ls (c :: rest) with
        | some kn =>
          obtain ⟨k, n⟩ := kn
          have hn := matchTok_pos hm
          simp only [List.length_cons] at h1 h2
          have hd : ((c :: rest).drop n).length ≤ f := by
            simp only [List.length_drop, List.length_cons]; omega
          have hd2 : ((c :: rest).drop n).length ≤ g := by
            simp only [List.length_drop, List.length_cons]; omega
          simp only [scanFuel, hm]
          rw [ih g _ _ hd hd2]
        | none =>
          simp only [List.length_cons] at h1 h2
          simp only [scanFuel, hm]
          rw [ih g _ rest (by omega) (by omega)]

theorem scanAll_eq_scanFuel (ls : Bool) (cs : Str) (fuel : Nat) (h : cs.length ≤ fuel) :
    scanAll ls cs = scanFuel fuel ls cs :=
  scanFuel_irrel cs.length fuel ls cs (Nat.le_refl _) h

/-- The scan, error markers included, always reproduces the input. -/
theorem detokenize_scanFuel : ∀ (fuel : Nat) (ls : Bool) (cs : Str),
    cs.length ≤ fuel → detokenize (scanFuel fuel ls cs) = cs := by
  intro fuel
  induction fuel with
  | zero =>
    intro ls cs h
    have : cs = [] := List.eq_nil_of_length_eq_zero (Nat.le_zero.mp h)
    subst this
    simp [scanFuel, detokenize]
  | succ f ih =>
    intro ls cs h
    cases cs with
    | nil => simp [scanFuel, detokenize]
    | cons c rest =>
      cases hm : matchTok ls (c :: rest) with
      | some kn =>
        obtain ⟨k, n⟩ := kn
        have hn := matchTok_pos hm
        simp only [List.length_cons] at h
        have hd : ((c :: rest).drop n).length ≤ f := by
          simp only [List.length_drop, List.length_cons]; omega
        simp only [scanFuel, hm, detokenize, List.map_cons, List.flatten_cons]
        have := ih (((c :: rest).take n).getLast? = some '\n') ((c :: rest).drop n) hd
        simp only [detokenize] at this
        rw [this, List.take_append_drop]
      | none =>
        simp only [List.length_cons] at h
        simp only [scanFuel, hm, detokenize, List.map_cons, List.flatten_cons]
        have := ih (c = '\n') rest (by omega)
        simp only [detokenize] at this
        rw [this]
        simp

theorem detokenize_scanAll (ls : Bool) (cs : Str) :
    detokenize (scanAll ls cs) = cs :=
  detokenize_scanFuel cs.length ls cs (Nat.le_refl _)

/-- **C1**.  For every source text in which every byte is matched by some
tokenizer alternative (a valid source), concatenating the lexemes of the
token sequence produced by the tokenizer, in order, reproduces the input
exactly: `detokenize (tokenize s) = s`. -/
theorem tokenize_roundtrip (cs : Str) (h : ValidSrc cs) :
    detokenize (tokenize cs) = cs := by
  have he : tokenize cs = scanAll true cs := by
    apply List.filter_eq_self.mpr
    intro t ht
    simpa using h t ht
  rw [he, detokenize_scanAll]

/-- Witness for C1 at a concrete valid source. -/
theorem tokenize_roundtrip_witness :
    ValidSrc "int main() { return 0; }\n".data ∧
      detokenize (tokenize "int main() { return 0; }\n".data) =
        "int main() { return 0; }\n".data :=
  ⟨by decide, tokenize_roundtrip _ (by decide)⟩

/-! ## Idempotence of the whitespace compressor (C9) -/
theorem compressAux_cons_nonws (level : Str) (prev : Option Tok) (k : Kind) (v : Str)
    (rest : List Tok) (h : k ≠ Kind.ws) :
    compressAux level prev ((k, v) :: rest) =
      (k, v) :: compressAux level (some (k, v)) rest := by
  simp [compressAux, h]

theorem compressAux_cons_ws_mild (level : Str) (prev : Option Tok) (v : Str)
    (rest : List Tok) (hlv : level = "mild".data ∨ level = "moderate".data) :
    compressAux level prev ((Kind.ws, v) :: rest) =
      (Kind.ws, if '\n' ∈ v then ['\n'] else [' ']) ::
        compressAux level (some (Kind.ws, if '\n' ∈ v then ['\n'] else [' '])) rest := by
  simp [compressAux, hlv]

theorem compressAux_cons_ws_ext_nl (level : Str) (prev : Option Tok) (v : Str)
    (rest : List Tok) (hlv : ¬(level = "mild".data ∨ level = "moderate".data))
    (hc : rest.head?.map (·.1) = some Kind.preproc ∨ prev.map (·.1) = some Kind.preproc) :
    compressAux level prev ((Kind.ws, v) :: rest) =
      (Kind.ws, ['\n']) :: compressAux level (some (Kind.ws, ['\n'])) rest := by
  simp only [compressAux]
  rw [if_neg (fun h => h rfl), if_neg hlv, if_pos hc]

theorem compressAux_cons_ws_ext_sp (level : Str) (prev : Option Tok) (v : Str)
    (rest : List Tok) (hlv : ¬(level = "mild".data ∨ level = "moderate".data))
    (hc : ¬(rest.head?.map (·.1) = some Kind.preproc ∨ prev.map (·.1) = some Kind.preproc))
    (hc2 : (prev.map (·.1) = some Kind.ident ∨ prev.map (·.1) = some Kind.number) ∧
      (rest.head?.map (·.1) = some Kind.ident ∨ rest.head?.map (·.1) = some Kind.number)) :
    compressAux level prev ((Kind.ws, v) :: rest) =
      (Kind.ws, [' ']) :: compressAux level (some (Kind.ws, [' '])) rest := by
  simp only [compressAux]
  rw [if_neg (fun h => h rfl), if_neg hlv, if_neg hc, if_pos hc2]

theorem compressAux_cons_ws_ext_drop (level : Str) (prev : Option Tok) (v : Str)
    (rest : List Tok) (hlv : ¬(level = "mild".data ∨ level = "moderate".data))
    (hc : ¬(rest.head?.map (·.1) = some Kind.preproc ∨ prev.map (·.1) = some Kind.preproc))
    (hc2 : ¬((prev.map (·.1) = some Kind.ident ∨ prev.map (·.1) = some Kind.number) ∧
      (rest.head?.map (·.1) = some Kind.ident ∨ rest.head?.map (·.1) = some Kind.number))) :
    compressAux level prev ((Kind.ws, v) :: rest) = compressAux level prev rest := by
  simp only [compressAux]
  rw [if_neg (fun h => h rfl), if_neg hlv, if_neg hc, if_neg hc2]

theorem compressAux_idem (level : Str) : ∀ (ts : List Tok) (prev : Option Tok),
    compressAux level prev (compressAux level prev ts) = compressAux level prev ts := by
  intro ts
  induction ts with
  | nil => intro prev; simp [compressAux]
  | cons t rest ih =>
    intro prev
    obtain ⟨k, v⟩ := t
    by_cases hk : k = Kind.ws
    · subst hk
      by_cases hlv : level = "mild".data ∨ level = "moderate".data
      · rw [compressAux_cons_ws_mild level prev v rest hlv]
        rw [compressAux_cons_ws_mild level prev _ _ hlv]
        have hw : (if '\n' ∈ (if '\n' ∈ v then (['\n'] : Str) else [' ']) then (['\n'] : Str)
            else [' ']) = (if '\n' ∈ v then (['\n'] : Str) else [' ']) := by
          by_cases hnl : '\n' ∈ v <;> simp [hnl]
        rw [hw, ih]
      · by_cases hc : rest.head?.map (·.1) = some Kind.preproc ∨
            prev.map (·.1) = some Kind.preproc
        · rw [compressAux_cons_ws_ext_nl level prev v rest hlv hc]
          rcases hc with hc | hc
          · -- the next input token is a preproc token; it is emitted unchanged
            obtain ⟨t, rest2, rfl⟩ : ∃ t rest2, rest = t :: rest2 := by
              cases rest with
              | nil => simp at hc
              | cons a b => exact ⟨a, b, rfl⟩
            obtain ⟨k2, w⟩ := t
            have hk2 : k2 = Kind.preproc := by simpa using hc
            subst hk2
            rw [compressAux_cons_nonws level (some (Kind.ws, ['\n'])) Kind.preproc w rest2
              (by decide)]
            rw [compressAux_cons_ws_ext_nl level prev ['\n']
              ((Kind.preproc, w) :: compressAux level (some (Kind.preproc, w)) rest2) hlv
              (Or.inl rfl)]
            rw [compressAux_cons_nonws level (some (Kind.ws, ['\n'])) Kind.preproc w
              (compressAux level (some (Kind.preproc, w)) rest2) (by decide)]
            have h1 := ih (some (Kind.preproc, w))
            rw [compressAux_cons_nonws level (some (Kind.preproc, w)) Kind.preproc w rest2
              (by decide)] at h1
            rw [compressAux_cons_nonws level (some (Kind.preproc, w)) Kind.preproc w
              (compressAux level (some (Kind.preproc, w)) rest2) (by decide)] at h1
            rw [(List.cons_eq_cons.mp h1).2]
          · rw [compressAux_cons_ws_ext_nl level prev ['\n'] _ hlv (Or.inr hc)]
            rw [ih]
        · by_cases hc2 : (prev.map (·.1) = some Kind.ident ∨ prev.map (·.1) = some Kind.number) ∧
              (rest.head?.map (·.1) = some Kind.ident ∨ rest.head?.map (·.1) = some Kind.number)
          · rw [compressAux_cons_ws_ext_sp level prev v rest hlv hc hc2]
            obtain ⟨t, rest2, rfl⟩ : ∃ t rest2, rest = t :: rest2 := by
              rcases hc2.2 with h | h <;>
                (cases rest with
                 | nil => simp at h
                 | cons a b => exact ⟨a, b, rfl⟩)
            obtain ⟨k2, w⟩ := t
            have hk2 : k2 = Kind.ident ∨ k2 = Kind.number := by
              rcases hc2.2 with h | h
              · exact Or.inl (by simpa using h)
              · exact Or.inr (by simpa using h)
            have hk2ws : k2 ≠ Kind.ws := by rcases hk2 with rfl | rfl <;> decide
            have hk2pp : k2 ≠ Kind.preproc := by rcases hk2 with rfl | rfl <;> decide
            rw [compressAux_cons_nonws level (some (Kind.ws, [' '])) k2 w rest2 hk2ws]
            rw [compressAux_cons_ws_ext_sp level prev [' ']
              ((k2, w) :: compressAux level (some (k2, w)) rest2) hlv
              (by
                simp only [List.head?_cons, Option.map_some']
                rintro (h | h)
                · exact hk2pp (by simpa using h)
                · rcases hc2.1 with h1 | h1 <;> simp_all)
              (by
                refine ⟨hc2.1, ?_⟩
                simp only [List.head?_cons, Option.map_some']
                rcases hk2 with rfl | rfl
                · exact Or.inl rfl
                · exact Or.inr rfl)]
            rw [compressAux_cons_nonws level (some (Kind.ws, [' '])) k2 w
              (compressAux level (some (k2, w)) rest2) hk2ws]
            have h1 := ih (some (k2, w))
            rw [compressAux_cons_nonws level (some (k2, w)) k2 w rest2 hk2ws] at h1
            rw [compressAux_cons_nonws level (some (k2, w)) k2 w
              (compressAux level (some (k2, w)) rest2) hk2ws] at h1
            rw [(List.cons_eq_cons.mp h1).2]
          · rw [compressAux_cons_ws_ext_drop level prev v rest hlv hc hc2]
            rw [ih]
    · rw [compressAux_cons_nonws level prev k v rest hk]
      rw [compressAux_cons_nonws level prev k v _ hk]
      rw [ih]

/-- **C9**.  For every token stream and every tier, running the whitespace
compressor a second time, at the same tier, on its own output yields that
output unchanged. -/
theorem compress_whitespace_idem (ts : List Tok) (level : Str) :
    compress_whitespace (compress_whitespace ts level) level =
      compress_whitespace ts level :=
  compressAux_idem level ts none

/-! ## The stable sort: permutation, sortedness, stability -/
theorem insDesc_perm (p : Str × Nat) : ∀ l, (insDesc p l).Perm (p :: l) := by
  intro l
  induction l with
  | nil => simp [insDesc]
  | cons q t ih =>
    simp only [insDesc]
    split
    · exact List.Perm.refl _
    · exact (List.Perm.cons q ih).trans (List.Perm.swap p q t)

theorem sortDesc_perm : ∀ l, (sortDesc l).Perm l := by
  intro l
  induction l with
  | nil => simp [sortDesc]
  | cons p t ih =>
    exact (insDesc_perm p (sortDesc t)).trans (List.Perm.cons p ih)

theorem mem_insDesc {x p : Str × Nat} {l : List (Str × Nat)} :
    x ∈ insDesc p l ↔ x = p ∨ x ∈ l := by
  rw [(insDesc_perm p l).mem_iff]; simp

theorem mem_sortDesc {x : Str × Nat} {l : List (Str × Nat)} :
    x ∈ sortDesc l ↔ x ∈ l := (sortDesc_perm l).mem_iff

theorem insDesc_sorted (p : Str × Nat) (l : List (Str × Nat))
    (h : l.Pairwise (fun a b => b.2 ≤ a.2)) :
    (insDesc p l).Pairwise (fun a b => b.2 ≤ a.2) := by
  induction l with
  | nil => simp [insDesc]
  | cons q t ih =>
    rcases List.pairwise_cons.mp h with ⟨hq, ht⟩
    simp only [insDesc]
    split
    · rename_i hle
      refine List.pairwise_cons.mpr ⟨?_, h⟩
      intro b hb
      rcases List.mem_cons.mp hb with rfl | hbt
      · exact hle
      · exact le_trans (hq b hbt) hle
    · rename_i hgt
      push_neg at hgt
      refine List.pairwise_cons.mpr ⟨?_, ih ht⟩
      intro b hb
      rcases mem_insDesc.mp hb with rfl | hbt
      · exact le_of_lt hgt
      · exact hq b hbt

theorem sortDesc_sorted : ∀ l, (sortDesc l).Pairwise (fun a b => b.2 ≤ a.2) := by
  intro l
  induction l with
  | nil => simp [sortDesc]
  | cons p t ih => exact insDesc_sorted p (sortDesc t) ih

theorem sublist_insDesc (p : Str × Nat) : ∀ l : List (Str × Nat), l.Sublist (insDesc p l) := by
  intro l
  induction l with
  | nil => simp [insDesc]
  | cons q t ih =>
    simp only [insDesc]
    split
    · exact List.sublist_cons_self p (q :: t)
    · exact List.Sublist.cons₂ q ih

theorem stable_pair_insDesc (a b : Str × Nat) (hab : b.2 ≤ a.2) :
    ∀ m, b ∈ m → [a, b].Sublist (insDesc a m) := by
  intro m
  induction m with
  | nil => intro h; simp at h
  | cons q t ih =>
    intro hb
    simp only [insDesc]
    split
    · exact List.Sublist.cons₂ a (List.singleton_sublist.mpr hb)
    · rename_i hgt
      push_neg at hgt
      rcases List.mem_cons.mp hb with rfl | hbt
      · exact absurd hab (by omega)
      · exact List.Sublist.cons q (ih hbt)

/-- Stability of the sort: a pair already in descending-count order keeps
its relative order (this is Python's stable-sort guarantee). -/
theorem stable_pair_sortDesc (a b : Str × Nat) (hab : b.2 ≤ a.2) :
    ∀ l, [a, b].Sublist l → [a, b].Sublist (sortDesc l) := by
  intro l
  induction l with
  | nil => intro h; simp at h
  | cons x t ih =>
    intro h
    cases h with
    | cons =>
      rename_i h2
      exact (ih h2).trans (sublist_insDesc x (sortDesc t))
    | cons₂ =>
      rename_i h2
      have hbt : b ∈ sortDesc t := mem_sortDesc.mpr (List.singleton_sublist.mp h2)
      exact stable_pair_insDesc a b hab (sortDesc t) hbt

/-! ## Name pool sizes and pool exhaustion (C3) -/
theorem mildPool_length : mildPool.length = 66 := by decide

theorem moderatePool_length : moderatePool.length = 78 := by decide

theorem CONFUSING_length : CONFUSING.length = 48 := by decide

theorem extremePool_le_length (count : Nat) (picks : Nat → Str) :
    count ≤ (extremePool count picks).length := by
  simp only [extremePool, List.length_append, List.length_map, List.length_range,
    CONFUSING_length]
  omega

/-- Success of `rename_identifiers` is exactly the question whether the
generated pool covers every distinct renameable identifier. -/
theorem rename_isSome_iff (ts : List Tok) (level : Str) (σ : List Str → List Str)
    (picks : Nat → Str) :
    (rename_identifiers ts level σ picks).isSome = true ↔
      (sortIdents ts).length ≤
        (generate_names (sortIdents ts).length level σ picks).length := by
  simp only [rename_identifiers]
  split
  · rename_i hc; simp [hc]
  · rename_i hc; simp [hc]

theorem generate_names_mild_length (L : Nat) (σ : List Str → List Str) (picks : Nat → Str)
    (hσ : ∀ l : List Str, (σ l).Perm l) :
    (generate_names L "mild".data σ picks).length = min L 66 := by
  have h : generate_names L "mild".data σ picks = (σ mildPool).take L := rfl
  rw [h, List.length_take, (hσ mildPool).length_eq, mildPool_length]

theorem generate_names_moderate_length (L : Nat) (σ : List Str → List Str) (picks : Nat → Str)
    (hσ : ∀ l : List Str, (σ l).Perm l) :
    (generate_names L "moderate".data σ picks).length = min L 78 := by
  have h : generate_names L "moderate".data σ picks = (σ moderatePool).take L := rfl
  rw [h, List.length_take, (hσ moderatePool).length_eq, moderatePool_length]

theorem generate_names_extreme_length (L : Nat) (σ : List Str → List Str) (picks : Nat → Str)
    (hσ : ∀ l : List Str, (σ l).Perm l) :
    (generate_names L "extreme".data σ picks).length = L := by
  have h : generate_names L "extreme".data σ picks = (σ (extremePool L picks)).take L := rfl
  rw [h, List.length_take, (hσ (extremePool L picks)).length_eq]
  have := extremePool_le_length L picks
  omega

/-- **C3 (amended)**.  At tier 3 (extreme) the pool is mechanically extended
until it covers every distinct renameable identifier, so renaming never
fails; at tiers 1 and 2 the pool is a fixed finite list (66 resp. 78 names)
and renaming succeeds precisely when the number of distinct renameable
identifiers does not exceed it. -/
theorem rename_pool_extension (ts : List Tok) (σ : List Str → List Str) (picks : Nat → Str)
    (hσ : ∀ l : List Str, (σ l).Perm l) :
    (rename_identifiers ts "extreme".data σ picks).isSome = true ∧
    ((rename_identifiers ts "mild".data σ picks).isSome = true ↔
      (sortIdents ts).length ≤ 66) ∧
    ((rename_identifiers ts "moderate".data σ picks).isSome = true ↔
      (sortIdents ts).length ≤ 78) := by
  refine ⟨?_, ?_, ?_⟩
  · rw [rename_isSome_iff, generate_names_extreme_length _ _ _ hσ]
  · rw [rename_isSome_iff, generate_names_mild_length _ _ _ hσ]
    omega
  · rw [rename_isSome_iff, generate_names_moderate_length _ _ _ hσ]
    omega

/-- Witness for C3 (amended) at the empty stream with the identity shuffle. -/
theorem rename_pool_extension_witness :
    (rename_identifiers [] "extreme".data id (fun _ => [])).isSome = true ∧
    ((rename_identifiers [] "mild".data id (fun _ => [])).isSome = true ↔
      (sortIdents []).length ≤ 66) ∧
    ((rename_identifiers [] "moderate".data id (fun _ => [])).isSome = true ↔
      (sortIdents []).length ≤ 78) :=
  rename_pool_extension [] id (fun _ => []) (fun l => List.Perm.refl l)

/-- **C3 (counterexample)**.  With 67 distinct renameable identifiers at
tier 1 (mild), the pool holds only its 66 fixed names, the mapping
comprehension indexes past its end (IndexError, modelled by `none`): the
claim that renaming never fails, with no hard upper bound at every tier, is
false. -/
theorem rename_mild_exhaustion_cx :
    rename_identifiers
      ((List.range 67).map (fun i => (Kind.ident, List.replicate (i + 1) 'a')))
      "mild".data id (fun _ => []) = none := by decide

theorem mildPool_not_reserved : ∀ x ∈ mildPool, x ∉ RESERVED := by decide

set_option maxRecDepth 4000 in
theorem moderatePool_not_reserved : ∀ x ∈ moderatePool, x ∉ RESERVED := by decide

theorem confusing_not_reserved : ∀ x ∈ CONFUSING, x ∉ RESERVED := by decide

set_option maxRecDepth 8000 in
theorem extChoices_not_reserved : ∀ x ∈ extChoices, x ∉ RESERVED := by decide

theorem mem_bump (p : Str × Nat) :
    ∀ (l : List (Str × Nat)) (x : Str), p ∈ bump l x → p ∈ l ∨ p.1 = x := by
  intro l
  induction l with
  | nil =>
    intro x h
    simp only [bump, List.mem_singleton] at h
    subst h
    exact Or.inr rfl
  | cons q t ih =>
    intro x h
    obtain ⟨y, n⟩ := q
    simp only [bump] at h
    split at h
    · rcases List.mem_cons.mp h with rfl | hm
      · rename_i hyx
        exact Or.inr hyx
      · exact Or.inl (List.mem_cons_of_mem _ hm)
    · rcases List.mem_cons.mp h with rfl | hm
      · exact Or.inl (List.mem_cons_self _ _)
      · rcases ih x hm with h2 | h2
        · exact Or.inl (List.mem_cons_of_mem _ h2)
        · exact Or.inr h2

theorem mem_foldl_bump :
    ∀ (l : List Str) (acc : List (Str × Nat)) (p : Str × Nat),
      p ∈ l.foldl bump acc → p ∈ acc ∨ p.1 ∈ l := by
  intro l
  induction l with
  | nil => intro acc p h; exact Or.inl h
  | cons x t ih =>
    intro acc p h
    rcases ih (bump acc x) p h with h1 | h1
    · rcases mem_bump p acc x h1 with h2 | h2
      · exact Or.inl h2
      · exact Or.inr (h2 ▸ List.mem_cons_self _ _)
    · exact Or.inr (List.mem_cons_of_mem _ h1)

theorem renameables_not_reserved (ts : List Tok) (x : Str)
    (h : x ∈ renameables ts) : x ∉ RESERVED := by
  simp only [renameables, List.mem_filterMap] at h
  obtain ⟨t, _, ht⟩ := h
  split at ht
  · rename_i hcond
    cases ht
    exact hcond.2
  · exact absurd ht (by simp)

theorem tally_keys_not_reserved (ts : List Tok) (p : Str × Nat)
    (h : p ∈ tally ts) : p.1 ∉ RESERVED := by
  rcases mem_foldl_bump (renameables ts) [] p h with h1 | h1
  · simp at h1
  · exact renameables_not_reserved ts p.1 h1

theorem generate_names_not_reserved (count : Nat) (style : Str) (σ : List Str → List Str)
    (picks : Nat → Str) (hσ : ∀ l : List Str, (σ l).Perm l)
    (hp : ∀ i, picks i ∈ extChoices) :
    ∀ x ∈ generate_names count style σ picks, x ∉ RESERVED := by
  intro x hx
  simp only [generate_names] at hx
  have hx2 := (hσ _).mem_iff.mp (List.mem_of_mem_take hx)
  by_cases h1 : style = "mild".data
  · rw [if_pos h1] at hx2
    exact mildPool_not_reserved x hx2
  · rw [if_neg h1] at hx2
    by_cases h2 : style = "moderate".data
    · rw [if_pos h2] at hx2
      exact moderatePool_not_reserved x hx2
    · rw [if_neg h2] at hx2
      rcases List.mem_append.mp hx2 with h3 | h3
      · exact confusing_not_reserved x h3
      · obtain ⟨i, _, rfl⟩ := List.mem_map.mp h3
        exact extChoices_not_reserved _ (hp i)

/-- **C5**.  For every run at every tier, no key of the produced
RenameMapping is reserved, and no generated name in its values is
reserved. -/
theorem reserved_invariant (ts : List Tok) (level : Str) (σ : List Str → List Str)
    (picks : Nat → Str) (hσ : ∀ l : List Str, (σ l).Perm l)
    (hp : ∀ i, picks i ∈ extChoices) (out : List Tok × List (Str × Str))
    (h : rename_identifiers ts level σ picks = some out) :
    ∀ p ∈ out.2, p.1 ∉ RESERVED ∧ p.2 ∉ RESERVED := by
  intro p hm
  obtain ⟨a, b⟩ := p
  simp only [rename_identifiers] at h
  split at h
  · cases h
    have hz := List.of_mem_zip hm
    constructor
    · obtain ⟨q, hq, hq1⟩ := List.mem_map.mp hz.1
      have hqt : q ∈ tally ts := mem_sortDesc.mp hq
      exact hq1 ▸ tally_keys_not_reserved ts q hqt
    · exact generate_names_not_reserved _ level σ picks hσ hp b hz.2
  · exact absurd h (by simp)

/-- Witness for C5 at a concrete run: at tier 1 with the identity shuffle,
`foo` is renamed to `x`; neither side is reserved. -/
theorem reserved_invariant_witness :
    ("foo".data, "x".data).1 ∉ RESERVED ∧ ("foo".data, "x".data).2 ∉ RESERVED :=
  reserved_invariant [(Kind.ident, "foo".data)] "mild".data id (fun _ => "O0_".data)
    (fun l => List.Perm.refl l) (fun _ => (by decide : "O0_".data ∈ extChoices))
    ([(Kind.ident, "x".data)], [("foo".data, "x".data)]) (by decide)
    ("foo".data, "x".data) (by decide)

theorem idxOfS_cons_self {x : Str} {t : List Str} : idxOfS x (x :: t) = 0 := by
  simp [idxOfS]

theorem idxOfS_cons_ne {x y : Str} {t : List Str} (h : y ≠ x) :
    idxOfS x (y :: t) = idxOfS x t + 1 := by
  simp [idxOfS, h]

theorem alookup_bump (x y : Str) : ∀ l : List (Str × Nat),
    alookup x (bump l y) =
      if x = y then some ((alookup x l).getD 0 + 1) else alookup x l := by
  intro l
  induction l with
  | nil =>
    by_cases h : x = y
    · subst h; simp [bump, alookup]
    · simp [bump, alookup, h, Ne.symm h]
  | cons q t ih =>
    obtain ⟨k, v⟩ := q
    by_cases hk : k = y
    · subst hk
      by_cases hx : x = k
      · subst hx; simp [bump, alookup]
      · simp [bump, alookup, hx, Ne.symm hx]
    · by_cases hx : x = k
      · subst hx
        have hxy : ¬(x = y) := hk
        simp [bump, alookup, hk, hxy]
      · simp [bump, alookup, Ne.symm hx, hk, ih]

theorem bump_keys (y : Str) : ∀ l : List (Str × Nat),
    (bump l y).map Prod.fst =
      if y ∈ l.map Prod.fst then l.map Prod.fst else l.map Prod.fst ++ [y] := by
  intro l
  induction l with
  | nil => simp [bump]
  | cons q t ih =>
    obtain ⟨k, v⟩ := q
    by_cases hk : k = y
    · subst hk
      simp [bump, List.mem_cons]
    · by_cases hy : y ∈ t.map Prod.fst
      · have hmem : y ∈ ((k, v) :: t).map Prod.fst := by
          simp only [List.map_cons, List.mem_cons]
          exact Or.inr hy
        simp [bump, hk, ih, hy, hmem]
      · have hmem : ¬(y ∈ ((k, v) :: t).map Prod.fst) := by
          simp only [List.map_cons, List.mem_cons]
          rintro (h | h)
          · exact hk h.symm
          · exact hy h
        simp [bump, hk, Ne.symm hk, ih, hy, hmem]

theorem foldl_bump_getD (x : Str) : ∀ (l : List Str) (acc : List (Str × Nat)),
    (alookup x (l.foldl bump acc)).getD 0 = (alookup x acc).getD 0 + countS x l := by
  intro l
  induction l with
  | nil => intro acc; simp [countS]
  | cons y t ih =>
    intro acc
    simp only [List.foldl_cons, countS]
    rw [ih (bump acc y), alookup_bump]
    by_cases h : x = y
    · rw [if_pos h, if_pos (h ▸ rfl)]
      simp
      omega
    · rw [if_neg h, if_neg (fun he => h he.symm)]
      omega

theorem mem_keys_foldl_bump (x : Str) : ∀ (l : List Str) (acc : List (Str × Nat)),
    x ∈ (l.foldl bump acc).map Prod.fst ↔ x ∈ acc.map Prod.fst ∨ x ∈ l := by
  intro l
  induction l with
  | nil => intro acc; simp
  | cons y t ih =>
    intro acc
    simp only [List.foldl_cons]
    rw [ih (bump acc y), bump_keys]
    by_cases h : y ∈ acc.map Prod.fst
    · rw [if_pos h]
      simp only [List.mem_cons]
      constructor
      · tauto
      · rintro (h1 | rfl | h1) <;> tauto
    · rw [if_neg h]
      simp only [List.mem_append, List.mem_singleton, List.mem_cons]
      tauto

theorem keys_nodup_foldl_bump : ∀ (l : List Str) (acc : List (Str × Nat)),
    (acc.map Prod.fst).Nodup → ((l.foldl bump acc).map Prod.fst).Nodup := by
  intro l
  induction l with
  | nil => intro acc h; exact h
  | cons y t ih =>
    intro acc h
    simp only [List.foldl_cons]
    refine ih (bump acc y) ?_
    rw [bump_keys]
    by_cases hy : y ∈ acc.map Prod.fst
    · rw [if_pos hy]; exact h
    · rw [if_neg hy]
      refine List.Nodup.append h (List.nodup_singleton y) ?_
      intro a ha hay
      rw [List.mem_singleton] at hay
      subst hay
      exact hy ha

theorem keys_foldl_bump : ∀ (l : List Str) (acc : List (Str × Nat)),
    (l.foldl bump acc).map Prod.fst = acc.map Prod.fst ++ newKeys l (acc.map Prod.fst) := by
  intro l
  induction l with
  | nil => intro acc; simp [newKeys]
  | cons y t ih =>
    intro acc
    simp only [List.foldl_cons, newKeys]
    rw [ih (bump acc y), bump_keys]
    by_cases h : y ∈ acc.map Prod.fst
    · rw [if_pos h, if_pos h]
    · rw [if_neg h, if_neg h, List.append_assoc]
      simp

theorem mem_newKeys (x : Str) : ∀ (l : List Str) (seen : List Str),
    x ∈ newKeys l seen ↔ x ∈ l ∧ x ∉ seen := by
  intro l
  induction l with
  | nil => intro seen; simp [newKeys]
  | cons y t ih =>
    intro seen
    rw [newKeys]
    by_cases h : y ∈ seen
    · rw [if_pos h, ih]
      simp only [List.mem_cons]
      constructor
      · rintro ⟨h1, h2⟩
        exact ⟨Or.inr h1, h2⟩
      · rintro ⟨h1 | h1, h2⟩
        · subst h1; exact absurd h h2
        · exact ⟨h1, h2⟩
    · rw [if_neg h]
      simp only [List.mem_cons, ih, List.mem_append, List.mem_singleton]
      by_cases hxy : x = y
      · subst hxy
        simp [h]
      · constructor
        · rintro (h1 | ⟨h1, h2⟩)
          · exact absurd h1 hxy
          · exact ⟨Or.inr h1, fun hs => h2 (Or.inl hs)⟩
        · rintro ⟨h1 | h1, h2⟩
          · exact absurd h1 hxy
          · refine Or.inr ⟨h1, ?_⟩
            rintro (hs | hs | hs)
            · exact h2 hs
            · exact hxy hs
            · simp at hs

theorem newKeys_order (A B : Str) (hne : A ≠ B) : ∀ (l : List Str) (seen : List Str),
    A ∈ l → B ∈ l → A ∉ seen → B ∉ seen → idxOfS A l < idxOfS B l →
    idxOfS A (newKeys l seen) < idxOfS B (newKeys l seen) := by
  intro l
  induction l with
  | nil => intro seen hA; simp at hA
  | cons y t ih =>
    intro seen hA hB hAs hBs hidx
    by_cases hyA : y = A
    · subst hyA
      rw [newKeys, if_neg hAs, idxOfS_cons_self, idxOfS_cons_ne hne]
      omega
    · by_cases hyB : y = B
      · subst hyB
        rw [idxOfS_cons_ne hyA, idxOfS_cons_self] at hidx
        omega
      · have hAt : A ∈ t := by
          rcases List.mem_cons.mp hA with rfl | h
          · exact absurd rfl hyA
          · exact h
        have hBt : B ∈ t := by
          rcases List.mem_cons.mp hB with rfl | h
          · exact absurd rfl hyB
          · exact h
        rw [idxOfS_cons_ne hyA, idxOfS_cons_ne hyB] at hidx
        rw [newKeys]
        by_cases hs : y ∈ seen
        · rw [if_pos hs]
          exact ih seen hAt hBt hAs hBs (by omega)
        · rw [if_neg hs]
          rw [idxOfS_cons_ne hyA, idxOfS_cons_ne hyB]
          have hA2 : A ∉ seen ++ [y] := by
            simp only [List.mem_append, List.mem_singleton]
            rintro (h | h)
            · exact hAs h
            · exact hyA h.symm
          have hB2 : B ∉ seen ++ [y] := by
            simp only [List.mem_append, List.mem_singleton]
            rintro (h | h)
            · exact hBs h
            · exact hyB h.symm
          have := ih (seen ++ [y]) hAt hBt hA2 hB2 (by omega)
          omega

/-- Order of first occurrences in the token stream carries over to the
filtered identifier-occurrence list. -/
theorem renameables_order (A B : Str) (hne : A ≠ B) : ∀ ts : List Tok,
    A ∈ renameables ts → B ∈ renameables ts →
    firstOcc ts A < firstOcc ts B →
    idxOfS A (renameables ts) < idxOfS B (renameables ts) := by
  intro ts
  induction ts with
  | nil => intro hA; simp [renameables] at hA
  | cons t rest ih =>
    intro hA hB hf
    by_cases hiA : t.1 = Kind.ident ∧ t.2 = A
    · have hP : (t.1 = Kind.ident ∧ t.2 ∉ RESERVED) := by
        refine ⟨hiA.1, ?_⟩
        rw [hiA.2]
        exact renameables_not_reserved _ _ hA
      have : renameables (t :: rest) = A :: renameables rest := by
        simp only [renameables, List.filterMap_cons, if_pos hP]
        rw [hiA.2]
      rw [this, idxOfS_cons_self, idxOfS_cons_ne hne]
      omega
    · by_cases hiB : t.1 = Kind.ident ∧ t.2 = B
      · exfalso
        have : firstOcc (t :: rest) B = 0 := by
          simp [firstOcc, List.findIdx_cons, hiB.1, hiB.2]
        omega
      · have hbA : (decide (t.1 = Kind.ident) && decide (t.2 = A)) = false := by
          by_cases h1 : t.1 = Kind.ident
          · by_cases h2 : t.2 = A
            · exact absurd ⟨h1, h2⟩ hiA
            · simp [h2]
          · simp [h1]
        have hbB : (decide (t.1 = Kind.ident) && decide (t.2 = B)) = false := by
          by_cases h1 : t.1 = Kind.ident
          · by_cases h2 : t.2 = B
            · exact absurd ⟨h1, h2⟩ hiB
            · simp [h2]
          · simp [h1]
        have hfA : firstOcc (t :: rest) A = firstOcc rest A + 1 := by
          simp [firstOcc, List.findIdx_cons, hbA]
        have hfB : firstOcc (t :: rest) B = firstOcc rest B + 1 := by
          simp [firstOcc, List.findIdx_cons, hbB]
        by_cases hP : t.1 = Kind.ident ∧ t.2 ∉ RESERVED
        · have hstep : renameables (t :: rest) = t.2 :: renameables rest := by
            simp only [renameables, List.filterMap_cons, if_pos hP]
          have h2A : t.2 ≠ A := fun h => hiA ⟨hP.1, h⟩
          have h2B : t.2 ≠ B := fun h => hiB ⟨hP.1, h⟩
          rw [hstep] at hA hB ⊢
          rw [idxOfS_cons_ne h2A, idxOfS_cons_ne h2B]
          have hA' : A ∈ renameables rest := by
            rcases List.mem_cons.mp hA with rfl | h
            · exact absurd rfl h2A
            · exact h
          have hB' : B ∈ renameables rest := by
            rcases List.mem_cons.mp hB with rfl | h
            · exact absurd rfl h2B
            · exact h
          have := ih hA' hB' (by omega)
          omega
        · have hstep : renameables (t :: rest) = renameables rest := by
            simp only [renameables, List.filterMap_cons, if_neg hP]
          rw [hstep] at hA hB ⊢
          exact ih hA hB (by omega)

/-- In an association list with distinct keys, key-index order yields the
entry pair as an ordered sublist. -/
theorem pair_sublist_of_idx (pA pB : Str × Nat) : ∀ l : List (Str × Nat),
    (l.map Prod.fst).Nodup → pA ∈ l → pB ∈ l →
    idxOfS pA.1 (l.map Prod.fst) < idxOfS pB.1 (l.map Prod.fst) →
    [pA, pB].Sublist l := by
  intro l
  induction l with
  | nil => intro _ hA; simp at hA
  | cons q t ih =>
    intro hnd hA hB hidx
    simp only [List.map_cons] at hidx hnd
    rcases List.nodup_cons.mp hnd with ⟨hq, hndt⟩
    by_cases hqA : q.1 = pA.1
    · have hqA' : q = pA := by
        rcases List.mem_cons.mp hA with h | h
        · exact h.symm
        · exact absurd (hqA ▸ List.mem_map_of_mem Prod.fst h) hq
      subst hqA'
      rw [idxOfS_cons_self] at hidx
      have hBne : q.1 ≠ pB.1 := by
        intro h
        rw [h, idxOfS_cons_self] at hidx
        omega
      have hBt : pB ∈ t := by
        rcases List.mem_cons.mp hB with h | h
        · exact absurd (congrArg Prod.fst h.symm) hBne
        · exact h
      exact List.Sublist.cons₂ q (List.singleton_sublist.mpr hBt)
    · have hqB : q.1 ≠ pB.1 := by
        intro h
        rw [h, idxOfS_cons_self] at hidx
        omega
      have hAt : pA ∈ t := by
        rcases List.mem_cons.mp hA with h | h
        · exact absurd (congrArg Prod.fst h.symm) hqA
        · exact h
      have hBt : pB ∈ t := by
        rcases List.mem_cons.mp hB with h | h
        · exact absurd (congrArg Prod.fst h.symm) hqB
        · exact h
      rw [idxOfS_cons_ne hqA, idxOfS_cons_ne hqB] at hidx
      exact List.Sublist.cons q (ih hndt hAt hBt (by omega))

/-- Conversely, an ordered pair sublist of a distinct-key association list
orders the key indexes. -/
theorem idx_of_pair_sublist (pA pB : Str × Nat) : ∀ l : List (Str × Nat),
    (l.map Prod.fst).Nodup → [pA, pB].Sublist l →
    idxOfS pA.1 (l.map Prod.fst) < idxOfS pB.1 (l.map Prod.fst) := by
  intro l
  induction l with
  | nil => intro _ h; simp at h
  | cons q t ih =>
    intro hnd hsub
    simp only [List.map_cons]
    rw [List.map_cons] at hnd
    rcases List.nodup_cons.mp hnd with ⟨hq, hndt⟩
    cases hsub with
    | cons =>
      rename_i h2
      have hAt : pA ∈ t := h2.subset (by simp)
      have hBt : pB ∈ t := h2.subset (by simp)
      have hqA : q.1 ≠ pA.1 := fun h =>
        hq (h ▸ List.mem_map_of_mem Prod.fst hAt)
      have hqB : q.1 ≠ pB.1 := fun h =>
        hq (h ▸ List.mem_map_of_mem Prod.fst hBt)
      rw [idxOfS_cons_ne hqA, idxOfS_cons_ne hqB]
      have := ih hndt h2
      omega
    | cons₂ =>
      rename_i h2
      have hBt : pB ∈ t := List.singleton_sublist.mp h2
      have hqB : pA.1 ≠ pB.1 := fun h =>
        hq (h ▸ List.mem_map_of_mem Prod.fst hBt)
      rw [idxOfS_cons_self, idxOfS_cons_ne hqB]
      omega

/-- In an association list with distinct keys, lookup of a member's key
returns its value. -/
theorem alookup_of_mem_nodup (p : Str × Nat) : ∀ l : List (Str × Nat),
    (l.map Prod.fst).Nodup → p ∈ l → alookup p.1 l = some p.2 := by
  intro l
  induction l with
  | nil => intro _ h; simp at h
  | cons q t ih =>
    intro hnd hm
    rw [List.map_cons] at hnd
    rcases List.nodup_cons.mp hnd with ⟨hq, hndt⟩
    rcases List.mem_cons.mp hm with rfl | hm2
    · simp [alookup]
    · have : q.1 ≠ p.1 := fun h => hq (h ▸ List.mem_map_of_mem Prod.fst hm2)
      simp only [alookup, if_neg this]
      exact ih hndt hm2

theorem tally_keys_nodup (ts : List Tok) : ((tally ts).map Prod.fst).Nodup :=
  keys_nodup_foldl_bump (renameables ts) [] (by simp)

theorem countS_renameables (ts : List Tok) (x : Str) (hx : x ∉ RESERVED) :
    countS x (renameables ts) = occCount ts x := by
  induction ts with
  | nil => simp [renameables, countS, occCount]
  | cons t rest ih =>
    have hstep : occCount (t :: rest) x =
        occCount rest x + (if t.1 = Kind.ident ∧ t.2 = x then 1 else 0) := by
      simp only [occCount, List.countP_cons]
      by_cases h : t.1 = Kind.ident ∧ t.2 = x
      · simp [h]
      · simp [h]
    by_cases hP : t.1 = Kind.ident ∧ t.2 ∉ RESERVED
    · have hr : renameables (t :: rest) = t.2 :: renameables rest := by
        simp only [renameables, List.filterMap_cons, if_pos hP]
      rw [hr, hstep]
      simp only [countS]
      by_cases hx2 : t.2 = x
      · rw [if_pos hx2, if_pos (⟨hP.1, hx2⟩ : t.1 = Kind.ident ∧ t.2 = x), ih]
        omega
      · rw [if_neg hx2, if_neg (fun h : t.1 = Kind.ident ∧ t.2 = x => hx2 h.2), ih]
        omega
    · have hr : renameables (t :: rest) = renameables rest := by
        simp only [renameables, List.filterMap_cons, if_neg hP]
      rw [hr, hstep]
      have hn : ¬(t.1 = Kind.ident ∧ t.2 = x) := fun h => hP ⟨h.1, h.2 ▸ hx⟩
      rw [if_neg hn, ih]
      omega

/-- Every entry of the frequency table records the identifier's occurrence
count in the stream. -/
theorem tally_entry_count (ts : List Tok) (p : Str × Nat) (hp : p ∈ tally ts) :
    p.2 = occCount ts p.1 := by
  have h1 : alookup p.1 (tally ts) = some p.2 :=
    alookup_of_mem_nodup p (tally ts) (tally_keys_nodup ts) hp
  have h2 := foldl_bump_getD p.1 (renameables ts) []
  simp only [alookup] at h2
  rw [show (renameables ts).foldl bump [] = tally ts from rfl, h1] at h2
  simp only [Option.getD_some, Option.getD_none] at h2
  rw [countS_renameables ts p.1 (tally_keys_not_reserved ts p hp)] at h2
  omega

theorem tally_mem_renameables (ts : List Tok) (p : Str × Nat) (hp : p ∈ tally ts) :
    p.1 ∈ renameables ts := by
  have := (mem_keys_foldl_bump p.1 (renameables ts) []).mp (List.mem_map_of_mem Prod.fst hp)
  simpa using this

/-- In a descending-sorted list, an entry with strictly larger count comes
before one with smaller count. -/
theorem sorted_pair_sublist (pA pB : Str × Nat) (hgt : pB.2 < pA.2) :
    ∀ l : List (Str × Nat), l.Pairwise (fun a b => b.2 ≤ a.2) →
      pA ∈ l → pB ∈ l → [pA, pB].Sublist l := by
  intro l
  induction l with
  | nil => intro _ hA; simp at hA
  | cons q t ih =>
    intro hp hA hB
    rcases List.pairwise_cons.mp hp with ⟨hq, ht⟩
    by_cases hqA : q = pA
    · subst hqA
      have hBt : pB ∈ t := by
        rcases List.mem_cons.mp hB with rfl | h
        · omega
        · exact h
      exact List.Sublist.cons₂ q (List.singleton_sublist.mpr hBt)
    · have hAt : pA ∈ t := by
        rcases List.mem_cons.mp hA with rfl | h
        · exact absurd rfl hqA
        · exact h
      have hBt : pB ∈ t := by
        rcases List.mem_cons.mp hB with rfl | h
        · exfalso
          have := hq pA hAt
          omega
        · exact h
      exact List.Sublist.cons q (ih ht hAt hBt)

/-- **C4**.  In the produced order, identifiers with strictly larger
occurrence counts come first; equal counts are ordered by first occurrence
in the stream; and the RenameMapping's insertion order is exactly this
order (its keys are the sorted identifier list). -/
theorem freq_ordering (ts : List Tok) (A B : Str) (hne : A ≠ B)
    (hA : A ∈ (sortIdents ts).map Prod.fst) (hB : B ∈ (sortIdents ts).map Prod.fst)
    (level : Str) (σ : List Str → List Str) (picks : Nat → Str)
    (out : List Tok × List (Str × Str))
    (hsome : rename_identifiers ts level σ picks = some out) :
    (occCount ts A > occCount ts B →
      idxOfS A ((sortIdents ts).map Prod.fst) < idxOfS B ((sortIdents ts).map Prod.fst)) ∧
    (occCount ts A = occCount ts B → firstOcc ts A < firstOcc ts B →
      idxOfS A ((sortIdents ts).map Prod.fst) < idxOfS B ((sortIdents ts).map Prod.fst)) ∧
    out.2.map Prod.fst = (sortIdents ts).map Prod.fst := by
  obtain ⟨pA, hpA, hpA1⟩ := List.mem_map.mp hA
  obtain ⟨pB, hpB, hpB1⟩ := List.mem_map.mp hB
  have hsn : ((sortIdents ts).map Prod.fst).Nodup := by
    have hperm : (sortIdents ts).Perm (tally ts) := sortDesc_perm (tally ts)
    exact ((hperm.map Prod.fst).nodup_iff).mpr (tally_keys_nodup ts)
  have hvA : pA.2 = occCount ts A :=
    hpA1 ▸ tally_entry_count ts pA (mem_sortDesc.mp hpA)
  have hvB : pB.2 = occCount ts B :=
    hpB1 ▸ tally_entry_count ts pB (mem_sortDesc.mp hpB)
  refine ⟨?_, ?_, ?_⟩
  · intro hgt
    have hsub : [pA, pB].Sublist (sortIdents ts) :=
      sorted_pair_sublist pA pB (by omega) (sortIdents ts)
        (sortDesc_sorted (tally ts)) hpA hpB
    have := idx_of_pair_sublist pA pB (sortIdents ts) hsn hsub
    rw [hpA1, hpB1] at this
    exact this
  · intro heq hfo
    have hsub : [pA, pB].Sublist (tally ts) := by
      apply pair_sublist_of_idx pA pB (tally ts) (tally_keys_nodup ts)
        (mem_sortDesc.mp hpA) (mem_sortDesc.mp hpB)
      rw [show tally ts = (renameables ts).foldl bump [] from rfl,
        keys_foldl_bump (renameables ts) []]
      simp only [List.map_nil, List.nil_append]
      rw [hpA1, hpB1]
      exact newKeys_order A B hne (renameables ts) []
        (hpA1 ▸ tally_mem_renameables ts pA (mem_sortDesc.mp hpA))
        (hpB1 ▸ tally_mem_renameables ts pB (mem_sortDesc.mp hpB))
        (by simp) (by simp)
        (renameables_order A B hne ts
          (hpA1 ▸ tally_mem_renameables ts pA (mem_sortDesc.mp hpA))
          (hpB1 ▸ tally_mem_renameables ts pB (mem_sortDesc.mp hpB)) hfo)
    have hst : [pA, pB].Sublist (sortIdents ts) :=
      stable_pair_sortDesc pA pB (by omega) (tally ts) hsub
    have := idx_of_pair_sublist pA pB (sortIdents ts) hsn hst
    rw [hpA1, hpB1] at this
    exact this
  · simp only [rename_identifiers] at hsome
    split at hsome
    · rename_i hlen
      cases hsome
      simp only
      exact List.map_fst_zip _ _ (by simpa using hlen)
    · exact absurd hsome (by simp)

/-- Witness for C4 at a concrete run: `b` occurs twice, `c` once; `b` gets
position 0 of the consumed pool prefix, `c` position 1, and the mapping's
key order is the sorted order. -/
theorem freq_ordering_witness :
    (occCount [(Kind.ident, "b".data), (Kind.ident, "c".data), (Kind.ident, "b".data)]
        "b".data >
      occCount [(Kind.ident, "b".data), (Kind.ident, "c".data), (Kind.ident, "b".data)]
        "c".data →
      idxOfS "b".data ((sortIdents [(Kind.ident, "b".data), (Kind.ident, "c".data),
          (Kind.ident, "b".data)]).map Prod.fst) <
        idxOfS "c".data ((sortIdents [(Kind.ident, "b".data), (Kind.ident, "c".data),
          (Kind.ident, "b".data)]).map Prod.fst)) ∧
    (occCount [(Kind.ident, "b".data), (Kind.ident, "c".data), (Kind.ident, "b".data)]
        "b".data =
      occCount [(Kind.ident, "b".data), (Kind.ident, "c".data), (Kind.ident, "b".data)]
        "c".data →
      firstOcc [(Kind.ident, "b".data), (Kind.ident, "c".data), (Kind.ident, "b".data)]
          "b".data <
        firstOcc [(Kind.ident, "b".data), (Kind.ident, "c".data), (Kind.ident, "b".data)]
          "c".data →
      idxOfS "b".data ((sortIdents [(Kind.ident, "b".data), (Kind.ident, "c".data),
          (Kind.ident, "b".data)]).map Prod.fst) <
        idxOfS "c".data ((sortIdents [(Kind.ident, "b".data), (Kind.ident, "c".data),
          (Kind.ident, "b".data)]).map Prod.fst)) ∧
    ([(Kind.ident, "x".data), (Kind.ident, "y".data), (Kind.ident, "x".data)],
        [("b".data, "x".data), ("c".data, "y".data)]).2.map Prod.fst =
      (sortIdents [(Kind.ident, "b".data), (Kind.ident, "c".data),
        (Kind.ident, "b".data)]).map Prod.fst :=
  freq_ordering [(Kind.ident, "b".data), (Kind.ident, "c".data), (Kind.ident, "b".data)]
    "b".data "c".data (by decide) (by decide) (by decide) "mild".data id (fun _ => [])
    ([(Kind.ident, "x".data), (Kind.ident, "y".data), (Kind.ident, "x".data)],
      [("b".data, "x".data), ("c".data, "y".data)]) (by decide)

/-! ## Unscannable input is silently dropped (C2) -/
set_option maxRecDepth 8000 in
/-- **C2 (code evaluation)**.  The input `a@b` contains a byte (`@`)
matched by no alternative of TOKEN_REGEX, yet the operation does not fail:
`finditer` skips the byte, `tokenize` silently drops it, and `obfuscate`
returns complete output (`xy` at tier 1 with the identity shuffle) — the
fail-fast behaviour required by the claim is absent from the code. -/
theorem unscannable_silently_dropped :
    (Kind.err, ['@']) ∈ scanAll true "a@b".data ∧
      obfuscate "a@b".data "mild".data id (fun _ => []) (fun _ _ => 1) (fun _ => 0) =
        some ("xy".data, [("a".data, "x".data), ("b".data, "y".data)]) := by
  refine ⟨by decide, by decide⟩

/-! ## The macro block is inserted after the FIRST include (C6) -/
set_option maxRecDepth 8000 in
/-- **C6 (code evaluation)**.  With two `#include` lines, `inject_macros`
inserts the seven-macro block immediately after the first one — between
the two includes — not after the last, contradicting the claim and the
code's own comment (`# Insert macros after last #include`). -/
theorem macros_after_first_include :
    inject_macros "#include <a>\n#include <b>\nx;".data "moderate".data =
      ("#include <a>\n" ++
       "#define _OB_A(a,b) ((a)+(b))\n" ++
       "#define _OB_S(a,b) ((a)-(b))\n" ++
       "#define _OB_M(a,b) ((a)*(b))\n" ++
       "#define _OB_LT(a,b) ((a)<(b))\n" ++
       "#define _OB_GT(a,b) ((a)>(b))\n" ++
       "#define _OB_EQ(a,b) ((a)==(b))\n" ++
       "#define _OB_N(a) (!(a))\n" ++
       "#include <b>\nx;").data := by decide

/-! ## Digit rendering and parsing (for C8) -/
theorem digitVal_digitChar (d : Nat) (h : d < 16) : digitVal (digitChar d) = d := by
  interval_cases d <;> decide

theorem isDigitC_digitChar (d : Nat) (h : d < 10) : isDigitC (digitChar d) = true := by
  interval_cases d <;> decide

theorem isHexC_digitChar (d : Nat) (h : d < 16) : isHexC (digitChar d) = true := by
  interval_cases d <;> decide

theorem isOctC_digitChar (d : Nat) (h : d < 8) : isOctC (digitChar d) = true := by
  interval_cases d <;> decide

theorem digitChar_ne_zeroChar (d : Nat) (h1 : 1 ≤ d) (h16 : d < 16) :
    digitChar d ≠ '0' := by
  interval_cases d <;> decide

theorem digitChar_ne_x (d : Nat) (h16 : d < 16) : digitChar d ≠ 'x' := by
  interval_cases d <;> decide

theorem digitChar_ne_lparen (d : Nat) (h16 : d < 16) : digitChar d ≠ '(' := by
  interval_cases d <;> decide

theorem natToBaseAux_append (b : Nat) : ∀ (fuel n : Nat) (acc : Str),
    natToBaseAux b fuel n acc = natToBaseAux b fuel n [] ++ acc := by
  intro fuel
  induction fuel with
  | zero => intro n acc; simp [natToBaseAux]
  | succ f ih =>
    intro n acc
    simp only [natToBaseAux]
    split
    · simp
    · rw [ih (n / b) [digitChar (n % b)], ih (n / b) (digitChar (n % b) :: acc)]
      simp

theorem natToBaseAux_irrel (b : Nat) (hb : 2 ≤ b) : ∀ (f1 f2 n : Nat),
    n ≤ f1 → n ≤ f2 → natToBaseAux b f1 n [] = natToBaseAux b f2 n [] := by
  intro f1
  induction f1 with
  | zero =>
    intro f2 n h1 _
    have hn : n = 0 := Nat.le_zero.mp h1
    subst hn
    cases f2 with
    | zero => rfl
    | succ g =>
      have h0b : 0 < b := by omega
      simp [natToBaseAux, h0b]
  | succ f ih =>
    intro f2 n h1 h2
    cases f2 with
    | zero =>
      have hn : n = 0 := Nat.le_zero.mp h2
      subst hn
      have h0b : 0 < b := by omega
      simp [natToBaseAux, h0b]
    | succ g =>
      simp only [natToBaseAux]
      split
      · rfl
      · rename_i hge
        push_neg at hge
        have hlt : n / b < n := Nat.div_lt_self (by omega) (by omega)
        rw [natToBaseAux_append b f, natToBaseAux_append b g,
          ih g (n / b) (by omega) (by omega)]

theorem natToBase_of_lt (b n : Nat) (hb : 2 ≤ b) (h : n < b) :
    natToBase b n = [digitChar n] := by
  unfold natToBase
  cases n with
  | zero => rfl
  | succ m => simp [natToBaseAux, h]

theorem natToBase_step (b n : Nat) (hb : 2 ≤ b) (h : b ≤ n) :
    natToBase b n = natToBase b (n / b) ++ [digitChar (n % b)] := by
  unfold natToBase
  obtain ⟨f, rfl⟩ : ∃ f, n = f + 1 := ⟨n - 1, by omega⟩
  simp only [natToBaseAux, if_neg (by omega : ¬(f + 1 < b))]
  rw [natToBaseAux_append b f]
  have hlt : (f + 1) / b < f + 1 := Nat.div_lt_self (by omega) (by omega)
  rw [natToBaseAux_irrel b hb f ((f + 1) / b) ((f + 1) / b) (by omega) (by omega)]

theorem natToBase_ne_nil (b n : Nat) (hb : 2 ≤ b) : natToBase b n ≠ [] := by
  by_cases h : n < b
  · rw [natToBase_of_lt b n hb h]; simp
  · rw [natToBase_step b n hb (by omega)]; simp

theorem natToBase_digits (b : Nat) (hb : 2 ≤ b) : ∀ n, ∀ c ∈ natToBase b n,
    ∃ d, d < b ∧ c = digitChar d := by
  intro n
  induction n using Nat.strong_induction_on with
  | _ n ih =>
    intro c hc
    by_cases h : n < b
    · rw [natToBase_of_lt b n hb h] at hc
      simp only [List.mem_singleton] at hc
      exact ⟨n, h, hc⟩
    · rw [natToBase_step b n hb (by omega)] at hc
      rcases List.mem_append.mp hc with h1 | h1
      · exact ih (n / b) (Nat.div_lt_self (by omega) (by omega)) c h1
      · simp only [List.mem_singleton] at h1
        exact ⟨n % b, Nat.mod_lt n (by omega), h1⟩

theorem natToBase_head (b : Nat) (hb : 2 ≤ b) : ∀ n, 0 < n →
    ∃ d, 1 ≤ d ∧ d < b ∧ (natToBase b n).head? = some (digitChar d) := by
  intro n
  induction n using Nat.strong_induction_on with
  | _ n ih =>
    intro hn
    by_cases h : n < b
    · rw [natToBase_of_lt b n hb h]
      exact ⟨n, hn, h, rfl⟩
    · rw [natToBase_step b n hb (by omega)]
      have hq : 0 < n / b := Nat.div_pos (by omega) (by omega)
      obtain ⟨d, h1, h2, h3⟩ := ih (n / b) (Nat.div_lt_self (by omega) (by omega)) hq
      refine ⟨d, h1, h2, ?_⟩
      rw [List.head?_append_of_ne_nil]
      · exact h3
      · exact natToBase_ne_nil b (n / b) hb

theorem parseBase_append_digit (b : Nat) (l : Str) (d : Char) :
    parseBase b (l ++ [d]) = parseBase b l * b + digitVal d := by
  simp [parseBase, List.foldl_append]

theorem parseBase_natToBase (b : Nat) (hb : 2 ≤ b) (hb16 : b ≤ 16) : ∀ n,
    parseBase b (natToBase b n) = n := by
  intro n
  induction n using Nat.strong_induction_on with
  | _ n ih =>
    by_cases h : n < b
    · rw [natToBase_of_lt b n hb h]
      simp [parseBase, digitVal_digitChar n (by omega)]
    · rw [natToBase_step b n hb (by omega), parseBase_append_digit,
        ih (n / b) (Nat.div_lt_self (by omega) (by omega)),
        digitVal_digitChar (n % b) (by have := Nat.mod_lt n (show 0 < b by omega); omega)]
      rw [Nat.mul_comm]
      exact Nat.div_add_mod n b

/-! ## bit_length and powers of two -/
theorem bitLenAux_irrel : ∀ (f1 f2 n : Nat),
    n ≤ f1 → n ≤ f2 → bitLenAux f1 n = bitLenAux f2 n := by
  intro f1
  induction f1 with
  | zero =>
    intro f2 n h1 _
    have hn : n = 0 := Nat.le_zero.mp h1
    subst hn
    cases f2 <;> simp [bitLenAux]
  | succ f ih =>
    intro f2 n h1 h2
    cases f2 with
    | zero =>
      have hn : n = 0 := Nat.le_zero.mp h2
      subst hn
      simp [bitLenAux]
    | succ g =>
      simp only [bitLenAux]
      split
      · rfl
      · rename_i hne
        have hlt : n / 2 < n := Nat.div_lt_self (by omega) (by omega)
        rw [ih g (n / 2) (by omega) (by omega)]

theorem bitLength_double (m : Nat) (hm : 0 < m) : bitLength (2 * m) = bitLength m + 1 := by
  unfold bitLength
  obtain ⟨f, hf⟩ : ∃ f, 2 * m = f + 1 := ⟨2 * m - 1, by omega⟩
  rw [hf]
  simp only [bitLenAux, if_neg (by omega : ¬(f + 1 = 0))]
  have h1 : (f + 1) / 2 = m := by omega
  rw [h1, bitLenAux_irrel f m m (by omega) (Nat.le_refl m)]

theorem bitLength_one : bitLength 1 = 1 := by decide

theorem bitLength_pos (m : Nat) (hm : 0 < m) : 1 ≤ bitLength m := by
  unfold bitLength
  obtain ⟨f, hf⟩ : ∃ f, m = f + 1 := ⟨m - 1, by omega⟩
  rw [hf]
  simp only [bitLenAux, if_neg (by omega : ¬(f + 1 = 0))]
  omega

/-- A positive value with `n & (n-1) == 0` is the power of two whose
exponent is `bit_length - 1` (the code's shift form is exact). -/
theorem pow2_of_land (n : Nat) (hpos : 0 < n) (hland : n &&& (n - 1) = 0) :
    n = 2 ^ (bitLength n - 1) := by
  induction n using Nat.strong_induction_on with
  | _ n ih =>
    rcases Nat.lt_or_ge n 2 with h2 | h2
    · interval_cases n
      · decide
    · rcases Nat.even_or_odd n with he | ho
      · obtain ⟨m, hm⟩ := he
        have hm2 : n = 2 * m := by omega
        have hmpos : 0 < m := by omega
        have hd : (n &&& (n - 1)) / 2 = m &&& (m - 1) := by
          rw [Nat.and_div_two]
          congr 1
          · omega
          · omega
        have hml : m &&& (m - 1) = 0 := by
          rw [← hd, hland]
        have hmp := ih m (by omega) hmpos hml
        have hbl : bitLength n = bitLength m + 1 := by
          rw [hm2]; exact bitLength_double m hmpos
        have hblm : 1 ≤ bitLength m := bitLength_pos m hmpos
        rw [hbl, hm2, show bitLength m + 1 - 1 = (bitLength m - 1) + 1 by omega]
        nth_rewrite 1 [hmp]
        ring
      · exfalso
        obtain ⟨m, hm⟩ := ho
        have hmpos : 0 < m := by omega
        have hd : (n &&& (n - 1)) / 2 = m &&& m := by
          rw [Nat.and_div_two]
          congr 1
          · omega
          · omega
        rw [hland, Nat.and_self] at hd
        omega

theorem digitChar_ne_lt (d : Nat) (h : d < 16) : digitChar d ≠ '<' := by
  interval_cases d <;> decide

theorem digitChar_ne_amp (d : Nat) (h : d < 16) : digitChar d ≠ '&' := by
  interval_cases d <;> decide

theorem digitChar_ne_plus (d : Nat) (h : d < 16) : digitChar d ≠ '+' := by
  interval_cases d <;> decide

theorem startsWithS_append (op r : Str) : startsWithS op (op ++ r) = true := by
  induction op with
  | nil => rfl
  | cons p ps ih => simp [startsWithS, ih]

theorem startsWithS_cons_ne (p : Char) (ps : Str) (c : Char) (cs : Str) (hpc : ¬ p = c) :
    startsWithS (p :: ps) (c :: cs) = false := by
  simp only [startsWithS]
  rw [decide_eq_false hpc, Bool.false_and]

theorem splitOnOp_none (h : Char) (t : Str) : ∀ s : Str, (∀ c ∈ s, c ≠ h) →
    splitOnOp (h :: t) s = none := by
  intro s
  induction s with
  | nil => intro _; rfl
  | cons c cs ih =>
    intro hs
    have hch : ¬(h = c) := fun he => hs c (List.mem_cons_self c cs) he.symm
    simp only [splitOnOp, startsWithS_cons_ne h t c cs hch, Bool.false_eq_true, if_false]
    rw [ih (fun x hx => hs x (List.mem_cons_of_mem c hx))]

theorem splitOnOp_exact (h : Char) (t : Str) : ∀ (l r : Str), (∀ c ∈ l, c ≠ h) →
    splitOnOp (h :: t) (l ++ (h :: t) ++ r) = some (l, r) := by
  intro l
  induction l with
  | nil =>
    intro r _
    rw [List.nil_append, List.cons_append]
    simp only [splitOnOp]
    rw [if_pos (by rw [← List.cons_append]; exact startsWithS_append (h :: t) r)]
    simp only [List.length_cons, List.drop_succ_cons, List.drop_left]
  | cons c l' ih =>
    intro r hl
    have hch : ¬(h = c) := fun he => hl c (List.mem_cons_self c l') he.symm
    have hrec := ih r (fun x hx => hl x (List.mem_cons_of_mem c hx))
    have hsh : (c :: l') ++ (h :: t) ++ r = c :: (l' ++ (h :: t) ++ r) := by
      simp
    rw [hsh]
    simp only [splitOnOp, startsWithS_cons_ne h t c _ hch, Bool.false_eq_true, if_false]
    rw [hrec]

/-! ### Evaluation of each candidate form -/
theorem cLitVal_pyDec (n : Nat) : cLitVal (pyDec n) = some n := by
  by_cases h : n < 10
  · rw [pyDec, natToBase_of_lt 10 n (by norm_num) h]
    by_cases h0 : n = 0
    · subst h0; decide
    · simp only [cLitVal]
      rw [if_neg (digitChar_ne_zeroChar n (by omega) (by omega)), if_pos]
      · simp [parseBase, digitVal_digitChar n (by omega)]
      · simp [isDigitC_digitChar n (by omega)]
  · obtain ⟨d, hd1, hd2, hd3⟩ := natToBase_head 10 (by norm_num) n (by omega)
    have hne := natToBase_ne_nil 10 n (by norm_num)
    obtain ⟨c, rest, hcr⟩ : ∃ c rest, natToBase 10 n = c :: rest := by
      cases hh : natToBase 10 n with
      | nil => exact absurd hh hne
      | cons a b => exact ⟨a, b, rfl⟩
    have hcd : c = digitChar d := by
      rw [hcr] at hd3; simpa using hd3
    have hall : ((c :: rest).all isDigitC) = true := by
      rw [← hcr, List.all_eq_true]
      intro x hx
      obtain ⟨e, he, rfl⟩ := natToBase_digits 10 (by norm_num) n x hx
      exact isDigitC_digitChar e he
    rw [pyDec, hcr]
    simp only [cLitVal]
    rw [if_neg (by rw [hcd]; exact digitChar_ne_zeroChar d hd1 (by omega)), if_pos hall,
      ← hcr, parseBase_natToBase 10 (by norm_num) (by norm_num) n]

theorem cLitVal_pyHex (n : Nat) : cLitVal (pyHex n) = some n := by
  have hcond : (natToBase 16 n ≠ [] ∧ (natToBase 16 n).all isHexC = true) := by
    refine ⟨natToBase_ne_nil 16 n (by norm_num), ?_⟩
    rw [List.all_eq_true]
    intro x hx
    obtain ⟨e, he, rfl⟩ := natToBase_digits 16 (by norm_num) n x hx
    exact isHexC_digitChar e he
  simp only [pyHex, cLitVal, if_true]
  rw [if_pos hcond, parseBase_natToBase 16 (by norm_num) (by norm_num) n]

theorem cLitVal_cOct (n : Nat) : cLitVal (cOct n) = some n := by
  have hne := natToBase_ne_nil 8 n (by norm_num)
  obtain ⟨c, rest, hcr⟩ : ∃ c rest, natToBase 8 n = c :: rest := by
    cases hh : natToBase 8 n with
    | nil => exact absurd hh hne
    | cons a b => exact ⟨a, b, rfl⟩
  obtain ⟨e, he, hce⟩ : ∃ e, e < 8 ∧ c = digitChar e := by
    have := natToBase_digits 8 (by norm_num) n c (by rw [hcr]; exact List.mem_cons_self c rest)
    obtain ⟨d, hd, hcd⟩ := this
    exact ⟨d, hd, hcd⟩
  have hall : ((c :: rest).all isOctC) = true := by
    rw [← hcr, List.all_eq_true]
    intro x hx
    obtain ⟨d2, hd2, rfl⟩ := natToBase_digits 8 (by norm_num) n x hx
    exact isOctC_digitChar d2 hd2
  simp only [cOct, hcr, cLitVal, if_true]
  rw [if_neg (by rw [hce]; exact digitChar_ne_x e (by omega)), if_pos hall,
    ← hcr, parseBase_natToBase 8 (by norm_num) (by norm_num) n]

theorem natToBase_not_mem (b : Nat) (hb : 2 ≤ b) (hb16 : b ≤ 16) (n : Nat) (ch : Char)
    (hch : ∀ d, d < 16 → digitChar d ≠ ch) : ch ∉ natToBase b n := by
  intro hmem
  obtain ⟨d, hd, he⟩ := natToBase_digits b hb n ch hmem
  exact hch d (by omega) he.symm

theorem cEval_paren (inner : Str) :
    cEval ('(' :: inner ++ [')']) =
      (if (inner ++ [')']).getLast? = some ')' then
        match splitOnOp ['<', '<'] (inner ++ [')']).dropLast with
        | some p => do
          let x ← cLitVal p.1
          let y ← cLitVal p.2
          pure (x <<< y)
        | none =>
          match splitOnOp ['&'] (inner ++ [')']).dropLast with
          | some p => do
            let x ← cLitVal p.1
            let y ← cLitVal p.2
            pure (x &&& y)
          | none =>
            match splitOnOp ['+'] (inner ++ [')']).dropLast with
            | some p => do
              let x ← cLitVal p.1
              let y ← cLitVal p.2
              pure (x + y)
            | none => none
       else none) := by
  simp [cEval]

theorem cEval_mask (n : Nat) (hn : n < 256) :
    cEval (('(' :: "0xFF&".data) ++ pyHex n ++ [')']) = some n := by
  have hstep : ('(' :: "0xFF&".data) ++ pyHex n ++ [')'] =
      '(' :: ("0xFF&".data ++ pyHex n) ++ [')'] := by simp
  rw [hstep, cEval_paren]
  rw [if_pos (by rw [List.getLast?_concat])]
  rw [List.dropLast_concat]
  have hnolt : splitOnOp ['<', '<'] ("0xFF&".data ++ pyHex n) = none := by
    apply splitOnOp_none
    intro ch hc
    rcases List.mem_append.mp hc with h1 | h1
    · exact (show ∀ x ∈ "0xFF&".data, x ≠ '<' from by decide) ch h1
    · simp only [pyHex] at h1
      rcases List.mem_cons.mp h1 with rfl | h1
      · decide
      · rcases List.mem_cons.mp h1 with rfl | h1
        · decide
        · obtain ⟨d, hd, rfl⟩ := natToBase_digits 16 (by norm_num) n ch h1
          exact digitChar_ne_lt d hd
  have hsplit : splitOnOp ['&'] ("0xFF&".data ++ pyHex n) = some ("0xFF".data, pyHex n) := by
    have h5 : "0xFF&".data = "0xFF".data ++ ('&' :: []) := by decide
    rw [show "0xFF&".data ++ pyHex n = "0xFF".data ++ ('&' :: []) ++ pyHex n from by
      rw [h5]]
    exact splitOnOp_exact '&' [] "0xFF".data (pyHex n) (by decide)
  rw [hnolt, hsplit]
  simp only [Option.bind_eq_bind]
  rw [show cLitVal "0xFF".data = some 255 from by decide, cLitVal_pyHex n]
  simp only [Option.some_bind, Option.pure_def]
  congr 1
  rw [Nat.and_comm]
  have h2 := Nat.and_pow_two_sub_one_of_lt_two_pow (x := n) (n := 8) (by simpa using hn)
  simpa using h2

theorem cEval_sum (n a : Nat) (h1 : 1 ≤ a) (h2 : a < n) :
    cEval (('(' :: pyDec a) ++ '+' :: pyDec (n - a) ++ [')']) = some n := by
  have hstep : ('(' :: pyDec a) ++ '+' :: pyDec (n - a) ++ [')'] =
      '(' :: (pyDec a ++ '+' :: pyDec (n - a)) ++ [')'] := by simp
  rw [hstep, cEval_paren]
  rw [if_pos (by rw [List.getLast?_concat])]
  rw [List.dropLast_concat]
  have hdigA : ∀ ch ∈ pyDec a, ∃ d, d < 10 ∧ ch = digitChar d := fun ch hc =>
    natToBase_digits 10 (by norm_num) a ch hc
  have hdigB : ∀ ch ∈ pyDec (n - a), ∃ d, d < 10 ∧ ch = digitChar d := fun ch hc =>
    natToBase_digits 10 (by norm_num) (n - a) ch hc
  have hnolt : splitOnOp ['<', '<'] (pyDec a ++ '+' :: pyDec (n - a)) = none := by
    apply splitOnOp_none
    intro ch hc
    rcases List.mem_append.mp hc with hA | hA
    · obtain ⟨d, hd, rfl⟩ := hdigA ch hA
      exact digitChar_ne_lt d (by omega)
    · rcases List.mem_cons.mp hA with rfl | hA
      · decide
      · obtain ⟨d, hd, rfl⟩ := hdigB ch hA
        exact digitChar_ne_lt d (by omega)
  have hnoamp : splitOnOp ['&'] (pyDec a ++ '+' :: pyDec (n - a)) = none := by
    apply splitOnOp_none
    intro ch hc
    rcases List.mem_append.mp hc with hA | hA
    · obtain ⟨d, hd, rfl⟩ := hdigA ch hA
      exact digitChar_ne_amp d (by omega)
    · rcases List.mem_cons.mp hA with rfl | hA
      · decide
      · obtain ⟨d, hd, rfl⟩ := hdigB ch hA
        exact digitChar_ne_amp d (by omega)
  have hsplit : splitOnOp ['+'] (pyDec a ++ '+' :: pyDec (n - a)) =
      some (pyDec a, pyDec (n - a)) := by
    have hsh : pyDec a ++ '+' :: pyDec (n - a) = pyDec a ++ ('+' :: []) ++ pyDec (n - a) := by
      simp
    rw [hsh]
    apply splitOnOp_exact
    intro ch hc
    obtain ⟨d, hd, rfl⟩ := hdigA ch hc
    exact digitChar_ne_plus d (by omega)
  rw [hnolt, hnoamp, hsplit]
  simp only [Option.bind_eq_bind]
  rw [cLitVal_pyDec a, cLitVal_pyDec (n - a)]
  simp only [Option.some_bind, Option.pure_def]
  congr 1
  omega

theorem cEval_shift (n : Nat) (hpos : 0 < n) (hland : n &&& (n - 1) = 0) :
    cEval (('(' :: "1<<".data) ++ pyDec (bitLength n - 1) ++ [')']) = some n := by
  have hstep : ('(' :: "1<<".data) ++ pyDec (bitLength n - 1) ++ [')'] =
      '(' :: ("1<<".data ++ pyDec (bitLength n - 1)) ++ [')'] := by simp
  rw [hstep, cEval_paren]
  rw [if_pos (by rw [List.getLast?_concat])]
  rw [List.dropLast_concat]
  have hsplit : splitOnOp ['<', '<'] ("1<<".data ++ pyDec (bitLength n - 1)) =
      some (['1'], pyDec (bitLength n - 1)) := by
    have hsh : "1<<".data ++ pyDec (bitLength n - 1) =
        ['1'] ++ ('<' :: ['<']) ++ pyDec (bitLength n - 1) := by simp
    rw [hsh]
    exact splitOnOp_exact '<' ['<'] ['1'] _ (by decide)
  rw [hsplit]
  simp only [Option.bind_eq_bind]
  rw [show cLitVal ['1'] = some 1 from by decide, cLitVal_pyDec (bitLength n - 1)]
  simp only [Option.some_bind, Option.pure_def]
  congr 1
  rw [Nat.shiftLeft_eq, one_mul]
  exact (pow2_of_land n hpos hland).symm

theorem cEval_lit_form (s : Str) (c : Char) (rest : Str) (hs : s = c :: rest)
    (hc : c ≠ '(') : cEval s = cLitVal s := by
  subst hs
  simp only [cEval]
  rw [if_neg hc]

theorem cEval_pyDec (n : Nat) : cEval (pyDec n) = some n := by
  have hne := natToBase_ne_nil 10 n (by norm_num)
  obtain ⟨c, rest, hcr⟩ : ∃ c rest, pyDec n = c :: rest := by
    cases hh : natToBase 10 n with
    | nil => exact absurd hh hne
    | cons a b => exact ⟨a, b, hh⟩
  have hcmem : c ∈ natToBase 10 n := by
    rw [show natToBase 10 n = pyDec n from rfl, hcr]
    exact List.mem_cons_self c rest
  obtain ⟨d, hd, rfl⟩ := natToBase_digits 10 (by norm_num) n c hcmem
  rw [cEval_lit_form (pyDec n) _ rest hcr (digitChar_ne_lparen d (by omega))]
  exact cLitVal_pyDec n

theorem cEval_pyHex (n : Nat) : cEval (pyHex n) = some n := by
  rw [cEval_lit_form (pyHex n) '0' ('x' :: natToBase 16 n) rfl (by decide)]
  exact cLitVal_pyHex n

theorem cEval_cOct (n : Nat) : cEval (cOct n) = some n := by
  rw [cEval_lit_form (cOct n) '0' (natToBase 8 n) rfl (by decide)]
  exact cLitVal_cOct n

theorem pow2_cond_iff (n : Nat) :
    (0 < n ∧ n &&& (n - 1) = 0) ↔ (∃ k < n + 1, n = 2 ^ k) := by
  constructor
  · rintro ⟨hpos, hland⟩
    refine ⟨bitLength n - 1, ?_, pow2_of_land n hpos hland⟩
    have hk := Nat.lt_two_pow (bitLength n - 1)
    have := pow2_of_land n hpos hland
    omega
  · rintro ⟨k, hk, rfl⟩
    refine ⟨Nat.pos_pow_of_pos k (by norm_num), ?_⟩
    have := Nat.and_pow_two_sub_one_eq_mod (2 ^ k) k
    rw [Nat.mod_self] at this
    exact this

theorem numChoices_eq_spec (n a : Nat) : numChoices n a = specNumChoices n a := by
  unfold numChoices specNumChoices
  congr 1
  exact if_congr (pow2_cond_iff n) rfl rfl

theorem pickFrom_mem (l : List Str) (hl : l ≠ []) (i : Nat) : pickFrom l i ∈ l := by
  unfold pickFrom
  have hlen : 0 < l.length := List.length_pos.mpr hl
  have hmod : i % l.length < l.length := Nat.mod_lt i hlen
  rw [List.getD_eq_getElem l [] hmod]
  exact List.getElem_mem hmod

/-- **C8**.  At tier 3 the replacement for an integer literal of value `n`
is drawn from exactly the specification's candidate list (the code's list
equals the spec's list, and `random.choice` picks a member of it), and
every candidate evaluates, as a C expression, to the original value `n`. -/
theorem numeric_candidates (n a i : Nat) (ha : 1 < n → 1 ≤ a ∧ a < n)
    (c : Str) (hc : c ∈ numChoices n a) :
    numChoices n a = specNumChoices n a ∧
    pickFrom (numChoices n a) i ∈ numChoices n a ∧
    cEval c = some n := by
  refine ⟨numChoices_eq_spec n a, pickFrom_mem _ (by simp [numChoices]) i, ?_⟩
  simp only [numChoices, List.mem_append] at hc
  rcases hc with ((((hc | hc) | hc) | hc) | hc)
  · rw [List.mem_singleton] at hc
    subst hc
    exact cEval_pyDec n
  · rw [if_pos (Nat.zero_le n), List.mem_singleton] at hc
    subst hc
    exact cEval_pyHex n
  · by_cases hcond : 0 < n ∧ n < 256
    · rw [if_pos hcond] at hc
      rcases List.mem_cons.mp hc with rfl | hc
      · exact cEval_cOct n
      · rw [List.mem_singleton] at hc
        subst hc
        exact cEval_mask n hcond.2
    · rw [if_neg hcond] at hc
      exact absurd hc (List.not_mem_nil c)
  · by_cases hcond : 1 < n
    · rw [if_pos hcond] at hc
      rw [List.mem_singleton] at hc
      subst hc
      exact cEval_sum n a (ha hcond).1 (ha hcond).2
    · rw [if_neg hcond] at hc
      exact absurd hc (List.not_mem_nil c)
  · by_cases hcond : 0 < n ∧ n.land (n - 1) = 0
    · rw [if_pos hcond] at hc
      rw [List.mem_singleton] at hc
      subst hc
      exact cEval_shift n hcond.1 hcond.2
    · rw [if_neg hcond] at hc
      exact absurd hc (List.not_mem_nil c)

/-- Witness for C8 at `n = 8`, `a = 3`, draw 5, candidate `(1<<3)`. -/
theorem numeric_candidates_witness :
    numChoices 8 3 = specNumChoices 8 3 ∧
    pickFrom (numChoices 8 3) 5 ∈ numChoices 8 3 ∧
    cEval "(1<<3)".data = some 8 :=
  numeric_candidates 8 3 5 (by decide) "(1<<3)".data (by decide)

theorem litBody_nil : litBody [] = none := rfl

theorem litBody_quote (cs : Str) : litBody ('"' :: cs) = some 1 := by
  cases cs <;> rfl

theorem litBody_other (c : Char) (cs : Str) (hq : ¬ c = '"') (hb : ¬ c = '\\') :
    litBody (c :: cs) = (litBody cs).map (· + 1) := by
  cases cs with
  | nil => simp only [litBody, if_neg hq, if_neg hb]
  | cons c2 cs2 => simp only [litBody, if_neg hq, if_neg hb]

theorem litBody_esc (c2 : Char) (cs2 : Str) :
    litBody ('\\' :: c2 :: cs2) =
      if c2 = '\n' then none else (litBody cs2).map (· + 2) := by
  simp only [litBody, reduceIte]
  rw [if_neg (by decide : ¬ ('\\' : Char) = '"')]

theorem litBody_esc_nil : litBody ['\\'] = none := by rfl

theorem strLitLen_ne_quote (c : Char) (cs : Str) (hc : c ≠ '"') :
    strLitLen (c :: cs) = none := by
  unfold strLitLen
  split
  · rename_i h
    injection h with h1 h2
    exact absurd h1 hc
  · rfl

theorem strLitLen_quote (cs : Str) :
    strLitLen ('"' :: cs) = (litBody cs).map (· + 1) := rfl

theorem litBody_prefix : ∀ (k : Nat) (cs : Str), cs.length ≤ k → ∀ m, litBody cs = some m →
    m ≤ cs.length ∧ litBody (cs.take m) = some m := by
  intro k
  induction k with
  | zero =>
    intro cs hk m h
    have : cs = [] := List.length_eq_zero.mp (Nat.le_zero.mp hk)
    subst this
    exact absurd h (by simp [litBody_nil])
  | succ k ih =>
    intro cs hk m h
    match cs with
    | [] => exact absurd h (by simp [litBody_nil])
    | c :: cs' =>
      by_cases hq : c = '"'
      · subst hq
        rw [litBody_quote] at h
        injection h with h
        subst h
        exact ⟨by simp only [List.length_cons]; omega, by simp [litBody_quote]⟩
      · by_cases hb : c = '\\'
        · subst hb
          match cs' with
          | [] => rw [litBody_esc_nil] at h; exact absurd h (by simp)
          | c2 :: cs2 =>
            rw [litBody_esc] at h
            by_cases hn : c2 = '\n'
            · rw [if_pos hn] at h
              exact absurd h (by simp)
            · rw [if_neg hn] at h
              match hm2 : litBody cs2 with
              | none => rw [hm2] at h; exact absurd h (by simp)
              | some m2 =>
                rw [hm2] at h
                simp only [Option.map_some'] at h
                have hlen : cs2.length ≤ k := by
                  simp only [List.length_cons] at hk
                  omega
                obtain ⟨hle, hpre⟩ := ih cs2 hlen m2 hm2
                injection h with h
                refine ⟨by simp only [List.length_cons]; omega, ?_⟩
                rw [← h]
                show litBody ('\\' :: c2 :: cs2.take m2) = some (m2 + 2)
                rw [litBody_esc, if_neg hn, hpre, Option.map_some']
        · rw [litBody_other c cs' hq hb] at h
          match hm1 : litBody cs' with
          | none => rw [hm1] at h; exact absurd h (by simp)
          | some m1 =>
            rw [hm1] at h
            simp only [Option.map_some'] at h
            have hlen : cs'.length ≤ k := by
              simp only [List.length_cons] at hk
              omega
            obtain ⟨hle, hpre⟩ := ih cs' hlen m1 hm1
            injection h with h
            refine ⟨by simp only [List.length_cons]; omega, ?_⟩
            rw [← h]
            show litBody (c :: cs'.take m1) = some (m1 + 1)
            rw [litBody_other c _ hq hb, hpre, Option.map_some']

theorem litBody_extend : ∀ (k : Nat) (cs : Str), cs.length ≤ k → ∀ m t, litBody cs = some m →
    litBody (cs ++ t) = some m := by
  intro k
  induction k with
  | zero =>
    intro cs hk m t h
    have : cs = [] := List.length_eq_zero.mp (Nat.le_zero.mp hk)
    subst this
    exact absurd h (by simp [litBody_nil])
  | succ k ih =>
    intro cs hk m t h
    match cs with
    | [] => exact absurd h (by simp [litBody_nil])
    | c :: cs' =>
      by_cases hq : c = '"'
      · subst hq
        rw [litBody_quote] at h
        show litBody ('"' :: (cs' ++ t)) = some m
        rw [litBody_quote]
        exact h
      · by_cases hb : c = '\\'
        · subst hb
          match cs' with
          | [] => rw [litBody_esc_nil] at h; exact absurd h (by simp)
          | c2 :: cs2 =>
            rw [litBody_esc] at h
            by_cases hn : c2 = '\n'
            · rw [if_pos hn] at h
              exact absurd h (by simp)
            · rw [if_neg hn] at h
              match hm2 : litBody cs2 with
              | none => rw [hm2] at h; exact absurd h (by simp)
              | some m2 =>
                rw [hm2] at h
                have hlen : cs2.length ≤ k := by
                  simp only [List.length_cons] at hk
                  omega
                show litBody ('\\' :: c2 :: (cs2 ++ t)) = some m
                rw [litBody_esc, if_neg hn, ih cs2 hlen m2 t hm2]
                simpa using h
        · rw [litBody_other c cs' hq hb] at h
          match hm1 : litBody cs' with
          | none => rw [hm1] at h; exact absurd h (by simp)
          | some m1 =>
            rw [hm1] at h
            have hlen : cs'.length ≤ k := by
              simp only [List.length_cons] at hk
              omega
            show litBody (c :: (cs' ++ t)) = some m
            rw [litBody_other c _ hq hb, ih cs' hlen m1 t hm1]
            simpa using h

theorem strLitLen_shape (s : Str) (n : Nat) (h : strLitLen s = some n) :
    ∃ cs m, s = '"' :: cs ∧ litBody cs = some m ∧ n = m + 1 := by
  match s with
  | [] => exact absurd h (by simp [strLitLen])
  | c :: cs =>
    by_cases hq : c = '"'
    · subst hq
      rw [strLitLen_quote] at h
      match hm : litBody cs with
      | none => rw [hm] at h; exact absurd h (by simp)
      | some m =>
        rw [hm] at h
        simp only [Option.map_some'] at h
        injection h with h
        exact ⟨cs, m, rfl, hm, h.symm⟩
    · rw [strLitLen_ne_quote c cs hq] at h
      exact absurd h (by simp)

theorem strLitLen_prefix (s : Str) (n : Nat) (h : strLitLen s = some n) :
    1 ≤ n ∧ n ≤ s.length ∧ IsLit (s.take n) := by
  obtain ⟨cs, m, rfl, hm, rfl⟩ := strLitLen_shape s n h
  obtain ⟨hle, hpre⟩ := litBody_prefix cs.length cs le_rfl m hm
  refine ⟨by omega, by simp only [List.length_cons]; omega, ?_⟩
  show strLitLen ('"' :: cs.take m) = some ('"' :: cs.take m).length
  rw [strLitLen_quote, hpre]
  simp [List.length_take, Nat.min_eq_left hle]

theorem isLit_extend (l : Str) (hl : IsLit l) (t : Str) :
    strLitLen (l ++ t) = some l.length := by
  obtain ⟨cs, m, hs, hm, hlen⟩ := strLitLen_shape l l.length hl
  subst hs
  have hext := litBody_extend cs.length cs le_rfl m t hm
  show strLitLen ('"' :: (cs ++ t)) = some ('"' :: cs).length
  rw [strLitLen_quote, hext]
  simp only [Option.map_some', List.length_cons]
  congr 1
  simp only [List.length_cons] at hlen
  omega

theorem isLit_ne_nil (l : Str) (hl : IsLit l) : l ≠ [] := by
  obtain ⟨cs, m, hshape, _, _⟩ := strLitLen_shape l l.length hl
  rw [hshape]
  exact List.cons_ne_nil _ _

theorem isLit_has_quote (l : Str) (hl : IsLit l) : '"' ∈ l := by
  obtain ⟨cs, m, hshape, _, _⟩ := strLitLen_shape l l.length hl
  rw [hshape]
  exact List.mem_cons_self _ _

/-- Consuming a quote-free prefix only grows the accumulator. -/
theorem splitStrFuel_pre : ∀ (e : Str), '"' ∉ e → ∀ (cs acc : Str) (f : Nat),
    splitStrFuel (e.length + f) (e ++ cs) acc = splitStrFuel f cs (e.reverse ++ acc) := by
  intro e
  induction e with
  | nil => intro _ cs acc f; simp
  | cons c e' ih =>
    intro he cs acc f
    have hc : c ≠ '"' := fun h => he (h ▸ List.mem_cons_self c e')
    have he' : '"' ∉ e' := fun h => he (List.mem_cons_of_mem c h)
    show splitStrFuel (e'.length + 1 + f) (c :: (e' ++ cs)) acc = _
    rw [show e'.length + 1 + f = (e'.length + f) + 1 from by omega]
    simp only [splitStrFuel, strLitLen_ne_quote c (e' ++ cs) hc]
    rw [ih he' cs (c :: acc) f]
    simp

/-- One literal step of the splitting scan. -/
theorem splitStrFuel_lit (l : Str) (hl : IsLit l) (cs acc : Str) (f : Nat) :
    splitStrFuel (f + 1) (l ++ cs) acc = acc.reverse :: l :: splitStrFuel f cs [] := by
  obtain ⟨b, m, hs, hm, hlen⟩ := strLitLen_shape l l.length hl
  have hext := isLit_extend l hl cs
  subst hs
  show splitStrFuel (f + 1) ('"' :: (b ++ cs)) acc = _
  have hext' : strLitLen ('"' :: (b ++ cs)) = some ('"' :: b).length := hext
  simp only [splitStrFuel, hext']
  rw [show List.take ('"' :: b).length ('"' :: (b ++ cs)) = '"' :: b from by simp]
  rw [show List.drop ('"' :: b).length ('"' :: (b ++ cs)) = cs from by simp]

/-- Fuel irrelevance above the remaining length. -/
theorem splitStrFuel_irrel : ∀ (f1 : Nat) (cs : Str) (f2 : Nat) (acc : Str),
    cs.length ≤ f1 → cs.length ≤ f2 →
    splitStrFuel f1 cs acc = splitStrFuel f2 cs acc := by
  intro f1
  induction f1 with
  | zero =>
    intro cs f2 acc h1 h2
    have : cs = [] := List.length_eq_zero.mp (Nat.le_zero.mp h1)
    subst this
    match f2 with
    | 0 => rfl
    | f2 + 1 => simp [splitStrFuel]
  | succ f1 ih =>
    intro cs f2 acc h1 h2
    match cs with
    | [] =>
      match f2 with
      | 0 => simp [splitStrFuel]
      | f2 + 1 => rfl
    | c :: cs' =>
      match f2 with
      | 0 => exact absurd h2 (by simp)
      | f2 + 1 =>
        match hm : strLitLen (c :: cs') with
        | some n =>
          obtain ⟨h1n, h2n, _⟩ := strLitLen_prefix _ n hm
          simp only [splitStrFuel, hm]
          have hlen : ((c :: cs').drop n).length ≤ f1 := by
            simp only [List.length_drop, List.length_cons] at *
            omega
          have hlen2 : ((c :: cs').drop n).length ≤ f2 := by
            simp only [List.length_drop, List.length_cons] at *
            omega
          rw [ih ((c :: cs').drop n) f2 [] hlen hlen2]
        | none =>
          simp only [splitStrFuel, hm]
          have hlen : cs'.length ≤ f1 := by
            simp only [List.length_cons] at h1
            omega
          have hlen2 : cs'.length ≤ f2 := by
            simp only [List.length_cons] at h2
            omega
          exact ih cs' f2 (c :: acc) hlen hlen2

/-- A quote-free text splits into a single segment. -/
theorem splitStrFuel_quoteFree (e : Str) (he : '"' ∉ e) (acc : Str) (f : Nat)
    (hf : e.length ≤ f) : splitStrFuel f e acc = [acc.reverse ++ e] := by
  have h0 := splitStrFuel_pre e he [] acc (f - e.length)
  rw [List.append_nil] at h0
  rw [splitStrFuel_irrel f e (e.length + (f - e.length)) acc hf (by omega), h0]
  match hd : f - e.length with
  | 0 => simp [splitStrFuel]
  | d + 1 => simp [splitStrFuel]

theorem splitStr_quoteFree (e : Str) (he : '"' ∉ e) : splitStr e = [e] := by
  unfold splitStr
  rw [splitStrFuel_quoteFree e he [] e.length le_rfl]
  simp

theorem splitStrFuel_shape : ∀ (f : Nat) (cs acc : Str), AltShape (splitStrFuel f cs acc) := by
  intro f
  induction f with
  | zero => intro cs acc; exact AltShape.last _
  | succ f ih =>
    intro cs acc
    match cs with
    | [] => exact AltShape.last _
    | c :: cs' =>
      match hm : strLitLen (c :: cs') with
      | some n =>
        simp only [splitStrFuel, hm]
        obtain ⟨h1, h2, h3⟩ := strLitLen_prefix _ n hm
        exact AltShape.step _ _ _ h3 (ih _ _)
      | none =>
        simp only [splitStrFuel, hm]
        exact ih cs' (c :: acc)

theorem altShape_splitStr (s : Str) : AltShape (splitStr s) :=
  splitStrFuel_shape s.length s []

theorem segsOK_of_altShape : ∀ segs : List Str, AltShape segs →
    (∀ e ∈ evenSegs segs, '"' ∉ e) → SegsOK segs := by
  intro segs h
  induction h with
  | last e =>
    intro hev
    exact SegsOK.last e (hev e (by simp [evenSegs]))
  | step e l rest hl hrest ih =>
    intro hev
    have hev' : ∀ x ∈ evenSegs rest, '"' ∉ x := by
      intro x hx
      exact hev x (by simp only [evenSegs]; exact List.mem_cons_of_mem e hx)
    exact SegsOK.step e l rest (hev e (by simp only [evenSegs]; exact List.mem_cons_self _ _))
      hl (ih hev')

theorem segsOK_splitStr (s : Str) (hev : ∀ e ∈ evenSegs (splitStr s), '"' ∉ e) :
    SegsOK (splitStr s) :=
  segsOK_of_altShape (splitStr s) (altShape_splitStr s) hev

theorem isLit_length_pos (l : Str) (hl : IsLit l) : 0 < l.length :=
  List.length_pos.mpr (isLit_ne_nil l hl)

/-- A well-formed segment list is recovered exactly by the splitting scan of
its concatenation. -/
theorem splitStrFuel_of_segsOK : ∀ segs : List Str, SegsOK segs → ∀ f : Nat,
    segs.flatten.length ≤ f → splitStrFuel f segs.flatten [] = segs := by
  intro segs h
  induction h with
  | last e he =>
    intro f hf
    simp only [List.flatten_cons, List.flatten_nil, List.append_nil] at hf ⊢
    rw [splitStrFuel_quoteFree e he [] f hf]
    simp
  | step e l rest he hl hrest ih =>
    intro f hf
    simp only [List.flatten_cons] at hf ⊢
    have hlen : e.length + (l.length + rest.flatten.length) ≤ f := by
      simpa using hf
    have hlpos := isLit_length_pos l hl
    rw [splitStrFuel_irrel f _ (e.length + (f - e.length)) []
      (by simpa using hlen) (by omega)]
    rw [splitStrFuel_pre e he _ [] (f - e.length)]
    rw [List.append_nil]
    have hf2 : f - e.length = (f - e.length - 1) + 1 := by omega
    rw [hf2, splitStrFuel_lit l hl _ e.reverse _]
    rw [List.reverse_reverse]
    rw [ih (f - e.length - 1) (by simp only [List.length_append] at *; omega)]

theorem splitStr_of_segsOK (segs : List Str) (h : SegsOK segs) :
    splitStr segs.flatten = segs :=
  splitStrFuel_of_segsOK segs h segs.flatten.length le_rfl

theorem stringSegs_of_segsOK (segs : List Str) (h : SegsOK segs) :
    stringSegs segs.flatten = oddSegs segs := by
  unfold stringSegs
  rw [splitStr_of_segsOK segs h]

/-- Splitting walks over an even-then-literal prefix. -/
theorem splitStr_cons (e l X : Str) (he : '"' ∉ e) (hl : IsLit l) :
    splitStr (e ++ l ++ X) = e :: l :: splitStr X := by
  unfold splitStr
  have hlpos := isLit_length_pos l hl
  have hflat : (e ++ l ++ X).length = e.length + (l.length + X.length) := by simp
  rw [splitStrFuel_irrel (e ++ l ++ X).length _ (e.length + (l.length + X.length)) []
    le_rfl (by omega)]
  rw [List.append_assoc]
  rw [splitStrFuel_pre e he _ [] (l.length + X.length)]
  rw [List.append_nil]
  have h2 : l.length + X.length = (l.length + X.length - 1) + 1 := by omega
  rw [h2, splitStrFuel_lit l hl _ e.reverse _]
  rw [List.reverse_reverse]
  rw [splitStrFuel_irrel (l.length + X.length - 1) X X.length [] (by omega) le_rfl]

theorem stringSegs_cons (e l X : Str) (he : '"' ∉ e) (hl : IsLit l) :
    stringSegs (e ++ l ++ X) = l :: stringSegs X := by
  unfold stringSegs
  rw [splitStr_cons e l X he hl]
  rfl

theorem stringSegs_quoteFree (e : Str) (he : '"' ∉ e) : stringSegs e = [] := by
  unfold stringSegs
  rw [splitStr_quoteFree e he]
  rfl

/-- Appending quote-free text after a well-formed segment list leaves the
literal segments unchanged. -/
theorem stringSegs_append (segs : List Str) (h : SegsOK segs) (q : Str) (hq : '"' ∉ q) :
    stringSegs (segs.flatten ++ q) = oddSegs segs := by
  induction h with
  | last e he =>
    simp only [List.flatten_cons, List.flatten_nil, List.append_nil]
    rw [stringSegs_quoteFree (e ++ q) (by
      intro hmem
      rcases List.mem_append.mp hmem with h1 | h1
      · exact he h1
      · exact hq h1)]
    rfl
  | step e l rest he hl hrest ih =>
    simp only [List.flatten_cons]
    rw [show e ++ (l ++ rest.flatten) ++ q = e ++ l ++ (rest.flatten ++ q) from by simp]
    rw [stringSegs_cons _ _ _ he hl, ih]
    rfl

theorem getLast?_mem_list (l : List Char) (c : Char) (h : l.getLast? = some c) : c ∈ l := by
  obtain ⟨hne, heq⟩ := List.mem_getLast?_eq_getLast (Option.mem_def.mpr h)
  rw [heq]
  exact List.getLast_mem hne

/-- Inserting quote-free text at a line boundary (a position just after a
newline, or the very start) leaves the literal segments unchanged, provided
every literal is newline-free. -/
theorem stringSegs_insert : ∀ segs : List Str, SegsOK segs →
    (∀ l ∈ oddSegs segs, '\n' ∉ l) → ∀ q : Str, '"' ∉ q →
    ∀ p b : Str, segs.flatten = p ++ b → (p = [] ∨ p.getLast? = some '\n') →
    stringSegs (p ++ q ++ b) = oddSegs segs := by
  intro segs h
  induction h with
  | last e he =>
    intro _ q hq p b hflat _
    simp only [List.flatten_cons, List.flatten_nil, List.append_nil] at hflat
    have hp : '"' ∉ p := fun hm => he (hflat ▸ List.mem_append_left b hm)
    have hb : '"' ∉ b := fun hm => he (hflat ▸ List.mem_append_right p hm)
    rw [stringSegs_quoteFree (p ++ q ++ b) (by
      intro hmem
      rcases List.mem_append.mp hmem with h1 | h1
      · rcases List.mem_append.mp h1 with h2 | h2
        · exact hp h2
        · exact hq h2
      · exact hb h1)]
    rfl
  | step e l rest he hl hrest ih =>
    intro hO q hq p b hflat hpos
    have hOl : '\n' ∉ l := hO l (by simp only [oddSegs]; exact List.mem_cons_self _ _)
    have hOrest : ∀ x ∈ oddSegs rest, '\n' ∉ x := by
      intro x hx
      exact hO x (by simp only [oddSegs]; exact List.mem_cons_of_mem l hx)
    simp only [List.flatten_cons] at hflat
    rcases List.append_eq_append_iff.mp hflat with ⟨w, hpw, hwb⟩ | ⟨w, hew, hbw⟩
    · -- p = e ++ w, and l ++ rest.flatten = w ++ b
      rcases List.append_eq_append_iff.mp hwb with ⟨v, hwv, hvb⟩ | ⟨v, hlv, hbv⟩
      · -- w = l ++ v, rest.flatten = v ++ b : the cut lies beyond the literal
        subst hwv
        subst hpw
        have hv : v ≠ [] := by
          intro hv0
          subst hv0
          rcases hpos with hp0 | hplast
          · exact isLit_ne_nil l hl (List.append_eq_nil.mp
              ((List.append_eq_nil.mp hp0).2)).1
          · rw [List.append_nil] at hplast
            rw [List.getLast?_append_of_ne_nil e (isLit_ne_nil l hl)] at hplast
            exact hOl (getLast?_mem_list _ _ hplast)
        have hvlast : v.getLast? = some '\n' := by
          rcases hpos with hp0 | hplast
          · exact absurd hp0 (by simp [hv])
          · rw [List.getLast?_append_of_ne_nil e (show l ++ v ≠ [] by simp [hv]),
              List.getLast?_append_of_ne_nil l hv] at hplast
            exact hplast
        have hrec := ih hOrest q hq v b hvb (Or.inr hvlast)
        rw [show e ++ (l ++ v) ++ q ++ b = e ++ l ++ (v ++ q ++ b) from by simp]
        rw [stringSegs_cons _ _ _ he hl, hrec]
        rfl
      · -- l = w ++ v, b = v ++ rest.flatten : the cut is at or inside the literal
        subst hbv
        subst hlv
        subst hpw
        by_cases hw : w = []
        · -- the cut sits exactly at the literal's opening quote
          subst hw
          rw [show (e ++ []) ++ q ++ (v ++ List.flatten rest) =
            (e ++ q) ++ v ++ List.flatten rest from by simp]
          rw [stringSegs_cons (e ++ q) v rest.flatten (by
            intro hmem
            rcases List.mem_append.mp hmem with h1 | h1
            · exact he h1
            · exact hq h1) hl]
          rw [stringSegs_of_segsOK rest hrest]
          simp [oddSegs]
        · -- the cut would fall strictly inside the literal: impossible
          exfalso
          rcases hpos with hp0 | hplast
          · exact hw (List.append_eq_nil.mp hp0).2
          · rw [List.getLast?_append_of_ne_nil e hw] at hplast
            exact hOl (List.mem_append_left v (getLast?_mem_list _ _ hplast))
    · -- e = p ++ w, b = w ++ (l ++ rest.flatten) : the cut is inside the even segment
      subst hew
      subst hbw
      rw [show p ++ q ++ (w ++ (l ++ List.flatten rest)) =
        (p ++ q ++ w) ++ l ++ List.flatten rest from by simp]
      rw [stringSegs_cons (p ++ q ++ w) l rest.flatten (by
        intro hmem
        rcases List.mem_append.mp hmem with h1 | h1
        · rcases List.mem_append.mp h1 with h2 | h2
          · exact he (List.mem_append_left w h2)
          · exact hq h2
        · exact he (List.mem_append_right p h1)) hl]
      rw [stringSegs_of_segsOK rest hrest]
      rfl

/-! ### Lines: split and join are inverse, join distributes over append -/
theorem splitLines_ne_nil (s : Str) : splitLines s ≠ [] := by
  match s with
  | [] => simp [splitLines]
  | c :: cs =>
    by_cases hc : c = '\n'
    · simp [splitLines, hc]
    · simp only [splitLines, if_neg hc]
      match h : splitLines cs with
      | [] => simp
      | l :: ls => simp

theorem joinLines_append : ∀ (A B : List Str), A ≠ [] → B ≠ [] →
    joinLines (A ++ B) = joinLines A ++ '\n' :: joinLines B := by
  intro A
  induction A with
  | nil => intro B hA _; exact absurd rfl hA
  | cons a A' ih =>
    intro B hA hB
    match A' with
    | [] =>
      match B with
      | [] => exact absurd rfl hB
      | b :: B' => simp [joinLines]
    | a2 :: A2 =>
      have h1 : joinLines ((a :: a2 :: A2) ++ B) =
          a ++ '\n' :: joinLines ((a2 :: A2) ++ B) := by
        simp only [List.cons_append]
        rfl
      rw [h1, ih B (by simp) hB]
      simp [joinLines]

theorem splitLines_newline (cs : Str) : splitLines ('\n' :: cs) = [] :: splitLines cs := by
  simp [splitLines]

theorem splitLines_other (c : Char) (cs : Str) (hc : ¬ c = '\n') :
    splitLines (c :: cs) =
      (match splitLines cs with
      | l :: ls => (c :: l) :: ls
      | [] => [[c]]) := by
  simp only [splitLines, if_neg hc]

theorem joinLines_splitLines : ∀ s : Str, joinLines (splitLines s) = s := by
  intro s
  induction s with
  | nil => rfl
  | cons c cs ih =>
    by_cases hc : c = '\n'
    · subst hc
      rw [splitLines_newline]
      match h : splitLines cs with
      | [] => exact absurd h (splitLines_ne_nil cs)
      | l :: ls =>
        rw [show joinLines ([] :: l :: ls) = [] ++ '\n' :: joinLines (l :: ls) from rfl]
        rw [← h, ih]
        rfl
    · rw [splitLines_other c cs hc]
      match h : splitLines cs with
      | [] => exact absurd h (splitLines_ne_nil cs)
      | l :: ls =>
        rw [h] at ih
        match ls with
        | [] =>
          show c :: l = c :: cs
          rw [show joinLines [l] = l from rfl] at ih
          rw [ih]
        | l2 :: ls2 =>
          show (c :: l) ++ '\n' :: joinLines (l2 :: ls2) = c :: cs
          rw [show joinLines (l :: l2 :: ls2) = l ++ '\n' :: joinLines (l2 :: ls2) from rfl]
            at ih
          rw [← ih]
          rfl

/-! ### The operator substitutions keep quote-free text quote-free -/
theorem opSubMatch_rep (opc : Char) (name : Str) (pw : Bool) (cs : Str) (n : Nat) (rep : Str)
    (h : opSubMatch opc name pw cs = some (n, rep)) :
    ∃ (k1 : Nat) (rest4 : Str) (k2 : Nat),
      rep = name ++ '(' :: cs.take k1 ++ ',' :: rest4.take k2 ++ [')'] ∧
      (∀ x ∈ rest4, x ∈ cs) := by
  simp only [opSubMatch] at h
  by_cases hpw : pw
  · rw [if_pos hpw] at h
    exact absurd h (by simp)
  · rw [if_neg hpw] at h
    by_cases hk1 : countWhile isWordC cs = 0
    · rw [if_pos hk1] at h
      exact absurd h (by simp)
    · rw [if_neg hk1] at h
      cases hr2 : (cs.drop (countWhile isWordC cs)).drop
          (countWhile isSpaceC (cs.drop (countWhile isWordC cs))) with
      | nil =>
        rw [hr2] at h
        exact absurd h (by simp [opSubTail])
      | cons c rest3 =>
        rw [hr2] at h
        simp only [opSubTail] at h
        by_cases hc : c = opc
        · rw [if_pos hc] at h
          by_cases hk2 : countWhile isWordC (rest3.drop (countWhile isSpaceC rest3)) = 0
          · rw [if_pos hk2] at h
            exact absurd h (by simp)
          · rw [if_neg hk2] at h
            rw [Option.some.injEq, Prod.mk.injEq] at h
            refine ⟨countWhile isWordC cs,
              rest3.drop (countWhile isSpaceC rest3),
              countWhile isWordC (rest3.drop (countWhile isSpaceC rest3)),
              h.2.symm, ?_⟩
            intro x hx
            have hx3 : x ∈ rest3 := List.mem_of_mem_drop hx
            have hx2 : x ∈ c :: rest3 := List.mem_cons_of_mem c hx3
            rw [← hr2] at hx2
            exact List.mem_of_mem_drop (List.mem_of_mem_drop hx2)
        · rw [if_neg hc] at h
          exact absurd h (by simp)

theorem subScan_quoteFree (m : Bool → Str → Option (Nat × Str))
    (hm : ∀ pw cs n rep, '"' ∉ cs → m pw cs = some (n, rep) → '"' ∉ rep) :
    ∀ (f : Nat) (pw : Bool) (cs : Str), '"' ∉ cs → '"' ∉ subScan m f pw cs := by
  intro f
  induction f with
  | zero => intro pw cs hcs; exact hcs
  | succ f ih =>
    intro pw cs hcs
    match cs with
    | [] => simp [subScan]
    | c :: cs' =>
      match hmm : m pw (c :: cs') with
      | some (n, rep) =>
        simp only [subScan, hmm]
        intro hmem
        rcases List.mem_append.mp hmem with h1 | h1
        · exact hm pw (c :: cs') n rep hcs hmm h1
        · exact ih _ _ (fun hx => hcs (List.mem_of_mem_drop hx)) h1
      | none =>
        simp only [subScan, hmm]
        intro hmem
        rcases List.mem_cons.mp hmem with h1 | h1
        · exact hcs (h1 ▸ List.mem_cons_self c cs')
        · exact ih _ _ (fun hx => hcs (List.mem_cons_of_mem c hx)) h1

theorem opSubMatch_quoteFree (opc : Char) (name : Str) (hname : '"' ∉ name) :
    ∀ (pw : Bool) (cs : Str) (n : Nat) (rep : Str), '"' ∉ cs →
    opSubMatch opc name pw cs = some (n, rep) → '"' ∉ rep := by
  intro pw cs n rep hcs h
  obtain ⟨k1, rest4, k2, hrep, hrest4⟩ := opSubMatch_rep opc name pw cs n rep h
  subst hrep
  have hnotin : ∀ (A B : Str), '"' ∉ A → '"' ∉ B → '"' ∉ A ++ B := by
    intro A B hA hB hm
    rcases List.mem_append.mp hm with h1 | h1
    · exact hA h1
    · exact hB h1
  have hcons : ∀ (c : Char) (B : Str), ¬ c = '"' → '"' ∉ B → '"' ∉ c :: B := by
    intro c B hc hB hm
    rcases List.mem_cons.mp hm with h1 | h1
    · exact hc h1.symm
    · exact hB h1
  exact hnotin _ _
    (hnotin _ _
      (hnotin _ _ hname
        (hcons _ _ (by decide) (fun hx => hcs (List.mem_of_mem_take hx))))
      (hcons _ _ (by decide) (fun hx => hcs (hrest4 _ (List.mem_of_mem_take hx)))))
    (hcons _ _ (by decide) (List.not_mem_nil _))

theorem subOps_quoteFree (e : Str) (he : '"' ∉ e) : '"' ∉ subOps e := by
  unfold subOps
  apply subScan_quoteFree _ (opSubMatch_quoteFree '*' "_OB_M".data (by decide))
  apply subScan_quoteFree _ (opSubMatch_quoteFree '-' "_OB_S".data (by decide))
  exact subScan_quoteFree _ (opSubMatch_quoteFree '+' "_OB_A".data (by decide)) _ _ _ he

/-! ### Even-segment rewriting preserves the alternation invariant -/
theorem segsOK_mapEvens (f : Str → Str) (hf : ∀ e, '"' ∉ e → '"' ∉ f e) :
    ∀ segs, SegsOK segs →
    SegsOK (mapEvens f segs) ∧ oddSegs (mapEvens f segs) = oddSegs segs := by
  intro segs h
  induction h with
  | last e he => exact ⟨SegsOK.last (f e) (hf e he), rfl⟩
  | step e l rest he hl hrest ih =>
    refine ⟨SegsOK.step _ _ _ (hf e he) hl ih.1, ?_⟩
    show l :: oddSegs (mapEvens f rest) = l :: oddSegs rest
    rw [ih.2]

/-! ### Quote-freeness of the numeric replacement expressions -/
theorem not_mem_append_of (c : Char) (A B : Str) (hA : c ∉ A) (hB : c ∉ B) :
    c ∉ A ++ B := by
  intro hm
  rcases List.mem_append.mp hm with h1 | h1
  · exact hA h1
  · exact hB h1

theorem not_mem_cons_of (c a : Char) (B : Str) (hc : ¬ a = c) (hB : c ∉ B) :
    c ∉ a :: B := by
  intro hm
  rcases List.mem_cons.mp hm with h1 | h1
  · exact hc h1.symm
  · exact hB h1

theorem digitChar_ne_quote (d : Nat) (h : d < 16) : digitChar d ≠ '"' := by
  interval_cases d <;> decide

theorem natToBase_quoteFree (b n : Nat) (hb : 2 ≤ b) (hb16 : b ≤ 16) :
    '"' ∉ natToBase b n := by
  intro hm
  obtain ⟨d, hd, he⟩ := natToBase_digits b hb n '"' hm
  exact digitChar_ne_quote d (by omega) he.symm

theorem numChoices_quoteFree (n a : Nat) (c : Str) (hc : c ∈ numChoices n a) : '"' ∉ c := by
  have h10 : '"' ∉ natToBase 10 n := natToBase_quoteFree 10 n (by norm_num) (by norm_num)
  have h16 : '"' ∉ natToBase 16 n := natToBase_quoteFree 16 n (by norm_num) (by norm_num)
  have h8 : '"' ∉ natToBase 8 n := natToBase_quoteFree 8 n (by norm_num) (by norm_num)
  have h10a : '"' ∉ natToBase 10 a := natToBase_quoteFree 10 a (by norm_num) (by norm_num)
  have h10s : '"' ∉ natToBase 10 (n - a) :=
    natToBase_quoteFree 10 (n - a) (by norm_num) (by norm_num)
  have h10b : '"' ∉ natToBase 10 (bitLength n - 1) :=
    natToBase_quoteFree 10 (bitLength n - 1) (by norm_num) (by norm_num)
  simp only [numChoices, List.mem_append] at hc
  rcases hc with ((((hc | hc) | hc) | hc) | hc)
  · rw [List.mem_singleton] at hc
    subst hc
    exact h10
  · rw [if_pos (Nat.zero_le n), List.mem_singleton] at hc
    subst hc
    exact not_mem_cons_of _ _ _ (by decide) (not_mem_cons_of _ _ _ (by decide) h16)
  · by_cases hcond : 0 < n ∧ n < 256
    · rw [if_pos hcond] at hc
      rcases List.mem_cons.mp hc with rfl | hc
      · exact not_mem_cons_of _ _ _ (by decide) h8
      · rw [List.mem_singleton] at hc
        subst hc
        refine not_mem_append_of _ _ _ (not_mem_append_of _ _ _ ?_ ?_) ?_
        · exact not_mem_cons_of _ _ _ (by decide) (by decide)
        · exact not_mem_cons_of _ _ _ (by decide) (not_mem_cons_of _ _ _ (by decide) h16)
        · exact not_mem_cons_of _ _ _ (by decide) (List.not_mem_nil _)
    · rw [if_neg hcond] at hc
      exact absurd hc (List.not_mem_nil c)
  · by_cases hcond : 1 < n
    · rw [if_pos hcond, List.mem_singleton] at hc
      subst hc
      refine not_mem_append_of _ _ _ (not_mem_append_of _ _ _ ?_ ?_) ?_
      · exact not_mem_cons_of _ _ _ (by decide) h10a
      · exact not_mem_cons_of _ _ _ (by decide) h10s
      · exact not_mem_cons_of _ _ _ (by decide) (List.not_mem_nil _)
    · rw [if_neg hcond] at hc
      exact absurd hc (List.not_mem_nil c)
  · by_cases hcond : 0 < n ∧ n.land (n - 1) = 0
    · rw [if_pos hcond, List.mem_singleton] at hc
      subst hc
      refine not_mem_append_of _ _ _ (not_mem_append_of _ _ _ ?_ ?_) ?_
      · exact not_mem_cons_of _ _ _ (by decide) (by decide)
      · exact h10b
      · exact not_mem_cons_of _ _ _ (by decide) (List.not_mem_nil _)
    · rw [if_neg hcond] at hc
      exact absurd hc (List.not_mem_nil c)

theorem pickFrom_numChoices_quoteFree (n a i : Nat) :
    '"' ∉ pickFrom (numChoices n a) i :=
  numChoices_quoteFree n a _ (pickFrom_mem _ (by simp [numChoices]) i)

theorem numScan_quoteFree (aFor : Nat → Nat → Nat) (pkFor : Nat → Nat) :
    ∀ (f idx : Nat) (pw : Bool) (cs : Str), '"' ∉ cs →
    '"' ∉ (numScan aFor pkFor f idx pw cs).1 := by
  intro f
  induction f with
  | zero => intro idx pw cs h; exact h
  | succ f ih =>
    intro idx pw cs h
    match cs with
    | [] => simp [numScan]
    | c :: cs' =>
      have hc : ¬ c = '"' := fun hcc => h (hcc ▸ List.mem_cons_self c cs')
      have h' : '"' ∉ cs' := fun hm => h (List.mem_cons_of_mem c hm)
      by_cases hpw : pw
      · simp only [numScan, if_pos hpw]
        exact not_mem_cons_of _ _ _ hc (ih idx (isWordC c) cs' h')
      · simp only [numScan, if_neg hpw]
        by_cases hk : countWhile isDigitC (c :: cs') = 0
        · rw [if_pos hk]
          exact not_mem_cons_of _ _ _ hc (ih idx (isWordC c) cs' h')
        · rw [if_neg hk]
          by_cases hw : (match (c :: cs').drop (countWhile isDigitC (c :: cs')) with
            | d :: _ => isWordC d
            | [] => false) = true
          · rw [if_pos hw]
            exact not_mem_cons_of _ _ _ hc (ih idx (isWordC c) cs' h')
          · rw [if_neg hw]
            refine not_mem_append_of _ _ _ (pickFrom_numChoices_quoteFree _ _ _) ?_
            exact ih (idx + 1) true _ (fun hm => h (List.mem_of_mem_drop hm))

theorem segsOK_numSubEvens (aFor : Nat → Nat → Nat) (pkFor : Nat → Nat) :
    ∀ segs, SegsOK segs → ∀ idx,
    SegsOK (numSubEvens aFor pkFor idx segs) ∧
    oddSegs (numSubEvens aFor pkFor idx segs) = oddSegs segs := by
  intro segs h
  induction h with
  | last e he =>
    intro idx
    exact ⟨SegsOK.last _ (numScan_quoteFree aFor pkFor e.length idx false e he), rfl⟩
  | step e l rest he hl hrest ih =>
    intro idx
    refine ⟨SegsOK.step _ _ _ (numScan_quoteFree aFor pkFor e.length idx false e he) hl
      (ih _).1, ?_⟩
    show l :: oddSegs (numSubEvens aFor pkFor _ rest) = l :: oddSegs rest
    rw [(ih _).2]

/-! ### The two text passes preserve the string-literal segments -/
theorem obfuscate_numbers_stringSegs (code level : Str) (aFor : Nat → Nat → Nat)
    (pkFor : Nat → Nat) (hE : ∀ e ∈ evenSegs (splitStr code), '"' ∉ e) :
    stringSegs (obfuscate_numbers code level aFor pkFor) = stringSegs code := by
  unfold obfuscate_numbers
  by_cases hlev : level ≠ "extreme".data
  · rw [if_pos hlev]
  · rw [if_neg hlev]
    have hOK := segsOK_splitStr code hE
    obtain ⟨hOK2, hodd2⟩ := segsOK_numSubEvens aFor pkFor (splitStr code) hOK 0
    rw [stringSegs_of_segsOK _ hOK2, hodd2]
    rfl

theorem inject_macros_eq (code level : Str) (h : ¬ level = "mild".data) :
    inject_macros code level =
      joinLines ((splitLines (mapEvens subOps (splitStr code)).flatten).take
          (insertPos (splitLines (mapEvens subOps (splitStr code)).flatten)) ++ MACROS ++
        (splitLines (mapEvens subOps (splitStr code)).flatten).drop
          (insertPos (splitLines (mapEvens subOps (splitStr code)).flatten))) := by
  unfold inject_macros
  rw [if_neg h]

theorem inject_macros_stringSegs (code level : Str)
    (hE : ∀ e ∈ evenSegs (splitStr code), '"' ∉ e)
    (hO : ∀ l ∈ oddSegs (splitStr code), '\n' ∉ l) :
    stringSegs (inject_macros code level) = stringSegs code := by
  by_cases hlev : level = "mild".data
  · unfold inject_macros
    rw [if_pos hlev]
  · rw [inject_macros_eq code level hlev]
    have hOK := segsOK_splitStr code hE
    obtain ⟨hOK2, hodd2⟩ := segsOK_mapEvens subOps subOps_quoteFree (splitStr code) hOK
    set segs2 := mapEvens subOps (splitStr code) with hsegs2
    have hO2 : ∀ l ∈ oddSegs segs2, '\n' ∉ l := by
      rw [hodd2]; exact hO
    have hgoal : stringSegs code = oddSegs segs2 := by
      rw [hodd2]; rfl
    rw [hgoal]
    set lines := splitLines segs2.flatten with hlines
    have hjoin : joinLines lines = segs2.flatten := joinLines_splitLines _
    have hlne : lines ≠ [] := splitLines_ne_nil _
    have hMne : MACROS ≠ [] := by simp [MACROS]
    have hjMq : '"' ∉ joinLines MACROS := by decide
    have hqins : '"' ∉ joinLines MACROS ++ ['\n'] :=
      not_mem_append_of _ _ _ hjMq (by decide)
    cases hpos : insertPos lines with
    | zero =>
      rw [List.take_zero, List.drop_zero, List.nil_append]
      rw [joinLines_append MACROS lines hMne hlne, hjoin]
      have := stringSegs_insert segs2 hOK2 hO2 (joinLines MACROS ++ ['\n']) hqins
        [] segs2.flatten (by simp) (Or.inl rfl)
      rw [show joinLines MACROS ++ '\n' :: segs2.flatten =
        [] ++ (joinLines MACROS ++ ['\n']) ++ segs2.flatten from by simp]
      exact this
    | succ pos =>
      by_cases hdrop : lines.drop (pos + 1) = []
      · have htake : lines.take (pos + 1) = lines :=
          List.take_of_length_le (List.drop_eq_nil_iff.mp hdrop)
        rw [hdrop, htake, List.append_nil]
        rw [joinLines_append lines MACROS hlne hMne, hjoin]
        exact stringSegs_append segs2 hOK2 ('\n' :: joinLines MACROS)
          (not_mem_cons_of _ _ _ (by decide) hjMq)
      · have htne : lines.take (pos + 1) ≠ [] := by
          match hln : lines with
          | [] => exact absurd rfl hlne
          | x :: xs => simp
        rw [List.append_assoc, joinLines_append _ _ htne (by
          intro hcon
          exact hMne (List.append_eq_nil.mp hcon).1)]
        rw [joinLines_append MACROS _ hMne hdrop]
        have hcode2 : segs2.flatten =
            (joinLines (lines.take (pos + 1)) ++ ['\n']) ++
              joinLines (lines.drop (pos + 1)) := by
          rw [← hjoin]
          conv_lhs => rw [show lines = lines.take (pos + 1) ++ lines.drop (pos + 1) from
            (List.take_append_drop (pos + 1) lines).symm]
          rw [joinLines_append _ _ htne hdrop]
          simp
        have := stringSegs_insert segs2 hOK2 hO2 (joinLines MACROS ++ ['\n']) hqins
          (joinLines (lines.take (pos + 1)) ++ ['\n']) (joinLines (lines.drop (pos + 1)))
          hcode2 (Or.inr (List.getLast?_concat _))
        rw [show joinLines (lines.take (pos + 1)) ++
            '\n' :: (joinLines MACROS ++ '\n' :: joinLines (lines.drop (pos + 1))) =
            (joinLines (lines.take (pos + 1)) ++ ['\n']) ++ (joinLines MACROS ++ ['\n']) ++
              joinLines (lines.drop (pos + 1)) from by simp]
        exact this

set_option maxRecDepth 8000 in
/-- **C7 (counterexample)**.  A multi-line string literal whose middle line
begins with `#include` is corrupted by the Macro Injector: the insertion
point is computed on lines, the first matching line sits inside the
literal, and the seven-macro block is spliced into the literal's body, so
the list of string-literal segments changes. -/
theorem macro_injection_into_literal_cx :
    stringSegs (inject_macros "\"A\n#include B\nC\"".data "moderate".data) ≠
      stringSegs "\"A\n#include B\nC\"".data := by decide

/-- **C7 (amended)**.  When every even (outside-string) segment of the
quote-split carries no stray quote and every string literal is single-line
(newline-free), both text passes — the Macro Injector (operator rewriting
plus block insertion at a line boundary) and the Numeric Obfuscator —
leave the list of double-quoted string-literal segments unchanged. -/
theorem string_literal_safety (code level : Str) (aFor : Nat → Nat → Nat)
    (pkFor : Nat → Nat)
    (hE : ∀ e ∈ evenSegs (splitStr code), '"' ∉ e)
    (hO : ∀ l ∈ oddSegs (splitStr code), '\n' ∉ l) :
    stringSegs (inject_macros code level) = stringSegs code ∧
    stringSegs (obfuscate_numbers code level aFor pkFor) = stringSegs code :=
  ⟨inject_macros_stringSegs code level hE hO,
   obfuscate_numbers_stringSegs code level aFor pkFor hE⟩

set_option maxRecDepth 8000 in
/-- Witness for the amended C7: the literal `"1 + 2"` survives both tier-3
text passes unchanged. -/
theorem string_literal_safety_witness :
    (∀ e ∈ evenSegs (splitStr "x = \"1 + 2\";".data), '"' ∉ e) ∧
    (∀ l ∈ oddSegs (splitStr "x = \"1 + 2\";".data), '\n' ∉ l) ∧
    (stringSegs (inject_macros "x = \"1 + 2\";".data "extreme".data) =
        stringSegs "x = \"1 + 2\";".data ∧
      stringSegs (obfuscate_numbers "x = \"1 + 2\";".data "extreme".data
          (fun _ _ => 1) (fun _ => 0)) = stringSegs "x = \"1 + 2\";".data) :=
  ⟨by decide, by decide,
    string_literal_safety "x = \"1 + 2\";".data "extreme".data (fun _ _ => 1) (fun _ => 0)
      (by decide) (by decide)⟩

theorem hrun_cons (s : HState) (c : Char) (cs : Str) :
    hrun s (c :: cs) = match hstep s c with
      | some s2 => hrun s2 cs
      | none => none := rfl

theorem hrun_cons_some (s s2 : HState) (c : Char) (cs : Str) (h : hstep s c = some s2) :
    hrun s (c :: cs) = hrun s2 cs := by
  rw [hrun_cons, h]

theorem hrun_cons_none (s : HState) (c : Char) (cs : Str) (h : hstep s c = none) :
    hrun s (c :: cs) = none := by
  rw [hrun_cons, h]

theorem hrun_append (s : HState) (a b : Str) :
    hrun s (a ++ b) = match hrun s a with
      | some s2 => hrun s2 b
      | none => none := by
  induction a generalizing s with
  | nil => rfl
  | cons c a' ih =>
    show hrun s (c :: (a' ++ b)) = _
    match hs : hstep s c with
    | some s2 =>
      rw [hrun_cons_some s s2 c _ hs, hrun_cons_some s s2 c a' hs, ih s2]
    | none =>
      rw [hrun_cons_none s c _ hs, hrun_cons_none s c a' hs]

theorem hrun_append_some (s s2 : HState) (a b : Str) (h : hrun s a = some s2) :
    hrun s (a ++ b) = hrun s2 b := by
  rw [hrun_append, h]

theorem hstep_eq (s : HState) (c : Char) :
    hstep s c = if c = '#' then (match s with
        | .clean => none
        | .start => some .hash
        | .hash => some .hash)
      else some (if c = '\n' then .start else match s with
        | .hash => .hash
        | _ => .clean) := by
  by_cases hh : c = '#' <;> by_cases hn : c = '\n' <;> cases s <;> simp_all [hstep]

theorem hstep_mono (s₁ s₂ : HState) (hle : hrank s₂ ≤ hrank s₁) (c : Char) (s₂' : HState)
    (h : hstep s₂ c = some s₂') :
    ∃ s₁', hstep s₁ c = some s₁' ∧ hrank s₂' ≤ hrank s₁' := by
  rw [hstep_eq] at h ⊢
  by_cases hh : c = '#'
  · rw [if_pos hh] at h ⊢
    cases s₁ <;> cases s₂ <;> simp_all [hrank]
  · rw [if_neg hh] at h ⊢
    injection h with h
    subst h
    by_cases hn : c = '\n'
    · simp only [if_pos hn]
      exact ⟨.start, rfl, le_rfl⟩
    · simp only [if_neg hn]
      cases s₁ <;> cases s₂ <;>
        first
        | exact absurd hle (of_decide_eq_false rfl)
        | exact ⟨_, rfl, of_decide_eq_true rfl⟩

theorem hrun_mono : ∀ (t : Str) (s₁ s₂ : HState), hrank s₂ ≤ hrank s₁ →
    ∀ s₂', hrun s₂ t = some s₂' →
    ∃ s₁', hrun s₁ t = some s₁' ∧ hrank s₂' ≤ hrank s₁' := by
  intro t
  induction t with
  | nil =>
    intro s₁ s₂ hle s₂' h
    injection h with h
    exact ⟨s₁, rfl, h ▸ hle⟩
  | cons c t' ih =>
    intro s₁ s₂ hle s₂' h
    match hs : hstep s₂ c with
    | none =>
      rw [hrun_cons_none s₂ c t' hs] at h
      exact absurd h (by simp)
    | some s₂m =>
      rw [hrun_cons_some s₂ s₂m c t' hs] at h
      obtain ⟨s₁m, hs1, hlem⟩ := hstep_mono s₁ s₂ hle c s₂m hs
      obtain ⟨s₁', h1, h2⟩ := ih s₁m s₂m hlem s₂' h
      exact ⟨s₁', by rw [hrun_cons_some s₁ s₁m c t' hs1, h1], h2⟩

theorem hstep_ne_hash (s : HState) (c : Char) (s' : HState) (hs : ¬ s = .hash)
    (hc : ¬ c = '#') (h : hstep s c = some s') : ¬ s' = .hash := by
  rw [hstep_eq, if_neg hc] at h
  injection h with h
  subst h
  by_cases hn : c = '\n'
  · rw [if_pos hn]
    simp
  · rw [if_neg hn]
    cases s
    · simp
    · simp
    · exact absurd rfl hs

theorem hrun_ne_hash : ∀ (t : Str) (s s' : HState), '#' ∉ t → ¬ s = .hash →
    hrun s t = some s' → ¬ s' = .hash := by
  intro t
  induction t with
  | nil =>
    intro s s' _ hs h
    injection h with h
    exact h ▸ hs
  | cons c t' ih =>
    intro s s' ht hs h
    have hc : ¬ c = '#' := fun he => ht (he ▸ List.mem_cons_self c t')
    match hm : hstep s c with
    | none =>
      rw [hrun_cons_none s c t' hm] at h
      exact absurd h (by simp)
    | some sm =>
      rw [hrun_cons_some s sm c t' hm] at h
      exact ih sm s' (fun hx => ht (List.mem_cons_of_mem c hx))
        (hstep_ne_hash s c sm hs hc hm) h

theorem hstep_ne_start (s : HState) (c : Char) (s' : HState) (hc : ¬ c = '\n')
    (h : hstep s c = some s') : ¬ s' = .start := by
  rw [hstep_eq] at h
  by_cases hh : c = '#'
  · rw [if_pos hh] at h
    cases s
    · injection h with h
      subst h
      simp
    · exact absurd h (by simp)
    · injection h with h
      subst h
      simp
  · rw [if_neg hh, if_neg hc] at h
    injection h with h
    subst h
    cases s <;> simp

theorem hrun_last_ne_start : ∀ (t : Str) (s s' : HState) (d : Char),
    hrun s t = some s' → t.getLast? = some d → ¬ d = '\n' → ¬ s' = .start := by
  intro t
  induction t with
  | nil =>
    intro s s' d _ hlast _
    exact absurd hlast (by simp)
  | cons c t' ih =>
    intro s s' d h hlast hd
    match hm : hstep s c with
    | none =>
      rw [hrun_cons_none s c t' hm] at h
      exact absurd h (by simp)
    | some sm =>
      rw [hrun_cons_some s sm c t' hm] at h
      match t' with
      | [] =>
        injection h with h
        have hcd : c = d := by simpa using hlast
        exact h ▸ hstep_ne_start s c sm (fun hcn => hd (hcd ▸ hcn)) hm
      | e :: t2 =>
        rw [List.getLast?_cons_cons] at hlast
        exact ih sm s' d h hlast hd

theorem repState_idem (s : HState) : repState (repState s) = repState s := by
  cases s <;> rfl

theorem hrun_rep : ∀ (q : Str), '#' ∉ q → '\n' ∉ q → q ≠ [] →
    ∀ s, hrun s q = some (repState s) := by
  intro q
  induction q with
  | nil =>
    intro _ _ h
    exact absurd rfl h
  | cons c q' ih =>
    intro hq hn _ s
    have hch : ¬ c = '#' := fun he => hq (he ▸ List.mem_cons_self c q')
    have hcn : ¬ c = '\n' := fun he => hn (he ▸ List.mem_cons_self c q')
    have hstep1 : hstep s c = some (repState s) := by
      cases s <;> simp [hstep, repState, hch, hcn]
    rw [hrun_cons_some s (repState s) c q' hstep1]
    match q' with
    | [] => rfl
    | d :: q2 =>
      rw [ih (fun hx => hq (List.mem_cons_of_mem c hx))
        (fun hx => hn (List.mem_cons_of_mem c hx)) (by simp) (repState s), repState_idem]

/-! ### Character runs and the reconstruction of the quote-split -/
theorem countWhile_take (p : Char → Bool) : ∀ cs : Str,
    ∀ x ∈ cs.take (countWhile p cs), p x = true := by
  intro cs
  induction cs with
  | nil => intro x hx; simp at hx
  | cons c cs' ih =>
    intro x hx
    by_cases hp : p c
    · rw [show countWhile p (c :: cs') = countWhile p cs' + 1 from by
        simp [countWhile, hp]] at hx
      rw [List.take_succ_cons] at hx
      rcases List.mem_cons.mp hx with rfl | hx
      · exact hp
      · exact ih x hx
    · rw [show countWhile p (c :: cs') = 0 from by simp [countWhile, hp]] at hx
      simp at hx

theorem countWhile_take_ne_nil (p : Char → Bool) (cs : Str) (h : countWhile p cs ≠ 0) :
    cs.take (countWhile p cs) ≠ [] := by
  match cs with
  | [] => simp [countWhile] at h
  | c :: cs' =>
    by_cases hp : p c
    · rw [show countWhile p (c :: cs') = countWhile p cs' + 1 from by simp [countWhile, hp]]
      simp [List.take_succ_cons]
    · rw [show countWhile p (c :: cs') = 0 from by simp [countWhile, hp]] at h
      exact absurd rfl h

theorem splitStrFuel_flatten : ∀ (f : Nat) (cs acc : Str),
    (splitStrFuel f cs acc).flatten = acc.reverse ++ cs := by
  intro f
  induction f with
  | zero => intro cs acc; simp [splitStrFuel]
  | succ f ih =>
    intro cs acc
    match cs with
    | [] => simp [splitStrFuel]
    | c :: cs' =>
      match hm : strLitLen (c :: cs') with
      | some n =>
        simp only [splitStrFuel, hm, List.flatten_cons]
        rw [ih]
        simp [List.take_append_drop]
      | none =>
        simp only [splitStrFuel, hm]
        rw [ih]
        simp

theorem splitStr_flatten (s : Str) : (splitStr s).flatten = s := by
  unfold splitStr
  rw [splitStrFuel_flatten]
  rfl

/-! ### What an operator substitution consumes and emits -/
theorem getLast?_isSome_of_ne_nil : ∀ (l : List Char), l ≠ [] → ∃ d, l.getLast? = some d := by
  intro l
  induction l with
  | nil => intro h; exact absurd rfl h
  | cons c cs ih =>
    intro _
    match cs, ih with
    | [], _ => exact ⟨c, rfl⟩
    | e :: t, ih =>
      obtain ⟨d, hd⟩ := ih (by simp)
      exact ⟨d, by rw [List.getLast?_cons_cons]; exact hd⟩

theorem wordC_ne_hash (x : Char) (h : isWordC x = true) : ¬ x = '#' := by
  intro he
  subst he
  exact absurd h (by decide)

theorem wordC_ne_nl (x : Char) (h : isWordC x = true) : ¬ x = '\n' := by
  intro he
  subst he
  exact absurd h (by decide)

theorem opSubMatch_facts (opc : Char) (name : Str) (pw : Bool) (cs : Str) (n : Nat) (rep : Str)
    (h : opSubMatch opc name pw cs = some (n, rep)) :
    ∃ (w1 w2 : Str),
      rep = name ++ '(' :: w1 ++ ',' :: w2 ++ [')'] ∧
      (∀ x ∈ w1, isWordC x = true) ∧ (∀ x ∈ w2, isWordC x = true) ∧ w2 ≠ [] ∧
      (∀ x ∈ cs.take n, isWordC x = true ∨ isSpaceC x = true ∨ x = opc) ∧
      (∃ d, (cs.take n).getLast? = some d ∧ isWordC d = true) := by
  simp only [opSubMatch] at h
  by_cases hpw : pw
  · rw [if_pos hpw] at h
    exact absurd h (by simp)
  · rw [if_neg hpw] at h
    by_cases hk1 : countWhile isWordC cs = 0
    · rw [if_pos hk1] at h
      exact absurd h (by simp)
    · rw [if_neg hk1] at h
      cases hr2 : (cs.drop (countWhile isWordC cs)).drop
          (countWhile isSpaceC (cs.drop (countWhile isWordC cs))) with
      | nil =>
        rw [hr2] at h
        exact absurd h (by simp [opSubTail])
      | cons c rest3 =>
        rw [hr2] at h
        simp only [opSubTail] at h
        by_cases hc : c = opc
        · subst hc
          rw [if_pos rfl] at h
          by_cases hk2 : countWhile isWordC (rest3.drop (countWhile isSpaceC rest3)) = 0
          · rw [if_pos hk2] at h
            exact absurd h (by simp)
          · rw [if_neg hk2] at h
            rw [Option.some.injEq, Prod.mk.injEq] at h
            obtain ⟨hn1, hrep⟩ := h
            have hW2ne : (rest3.drop (countWhile isSpaceC rest3)).take
                (countWhile isWordC (rest3.drop (countWhile isSpaceC rest3))) ≠ [] :=
              countWhile_take_ne_nil isWordC _ hk2
            have espan : cs.take n =
                cs.take (countWhile isWordC cs) ++
                  ((cs.drop (countWhile isWordC cs)).take
                      (countWhile isSpaceC (cs.drop (countWhile isWordC cs))) ++
                    (c :: (rest3.take (countWhile isSpaceC rest3) ++
                      (rest3.drop (countWhile isSpaceC rest3)).take
                        (countWhile isWordC (rest3.drop (countWhile isSpaceC rest3)))))) := by
              rw [show n = countWhile isWordC cs +
                  (countWhile isSpaceC (cs.drop (countWhile isWordC cs)) +
                    (1 + (countWhile isSpaceC rest3 +
                      countWhile isWordC (rest3.drop (countWhile isSpaceC rest3))))) from by
                omega]
              rw [List.take_add]
              congr 1
              rw [List.take_add]
              congr 1
              rw [hr2]
              rw [show 1 + (countWhile isSpaceC rest3 +
                  countWhile isWordC (rest3.drop (countWhile isSpaceC rest3))) =
                  (countWhile isSpaceC rest3 +
                    countWhile isWordC (rest3.drop (countWhile isSpaceC rest3))) + 1 from by
                omega]
              rw [List.take_succ_cons]
              congr 1
              rw [List.take_add]
            refine ⟨cs.take (countWhile isWordC cs),
              (rest3.drop (countWhile isSpaceC rest3)).take
                (countWhile isWordC (rest3.drop (countWhile isSpaceC rest3))),
              hrep.symm, countWhile_take isWordC cs, countWhile_take isWordC _, hW2ne,
              ?_, ?_⟩
            · rw [espan]
              intro x hx
              rcases List.mem_append.mp hx with h1 | h1
              · exact Or.inl (countWhile_take isWordC cs x h1)
              · rcases List.mem_append.mp h1 with h2 | h2
                · exact Or.inr (Or.inl (countWhile_take isSpaceC _ x h2))
                · rcases List.mem_cons.mp h2 with rfl | h3
                  · exact Or.inr (Or.inr rfl)
                  · rcases List.mem_append.mp h3 with h4 | h4
                    · exact Or.inr (Or.inl (countWhile_take isSpaceC _ x h4))
                    · exact Or.inl (countWhile_take isWordC _ x h4)
            · obtain ⟨d, hd⟩ := getLast?_isSome_of_ne_nil _ hW2ne
              refine ⟨d, ?_, countWhile_take isWordC _ d (getLast?_mem_list _ _ hd)⟩
              rw [espan]
              rw [List.getLast?_append_of_ne_nil _ (by simp)]
              rw [List.getLast?_append_of_ne_nil _ (by simp)]
              rw [show (c :: (rest3.take (countWhile isSpaceC rest3) ++
                  (rest3.drop (countWhile isSpaceC rest3)).take
                    (countWhile isWordC (rest3.drop (countWhile isSpaceC rest3))))) =
                  [c] ++ (rest3.take (countWhile isSpaceC rest3) ++
                    (rest3.drop (countWhile isSpaceC rest3)).take
                      (countWhile isWordC (rest3.drop (countWhile isSpaceC rest3)))) from rfl]
              rw [List.getLast?_append_of_ne_nil _ (by
                intro hcon
                exact hW2ne (List.append_eq_nil.mp hcon).2)]
              rw [List.getLast?_append_of_ne_nil _ hW2ne]
              exact hd
        · rw [if_neg hc] at h
          exact absurd h (by simp)

theorem opSubMatch_HMatchOK (opc : Char) (name : Str) (hopc : ¬ opc = '#')
    (hn1 : '#' ∉ name) (hn2 : '\n' ∉ name) : HMatchOK (opSubMatch opc name) := by
  intro pw cs n rep hm
  obtain ⟨w1, w2, hrep, hw1, hw2, hw2ne, hspan, d, hd, hdw⟩ :=
    opSubMatch_facts opc name pw cs n rep hm
  have hrepav : ∀ ch : Char, ch ∉ name → ¬ '(' = ch → ¬ ',' = ch → ¬ ')' = ch →
      (∀ x ∈ w1, ¬ x = ch) → (∀ x ∈ w2, ¬ x = ch) → ch ∉ rep := by
    intro ch hna hpa hca hra hm1 hm2
    subst hrep
    intro hmem
    rcases List.mem_append.mp hmem with h1 | h1
    · rcases List.mem_append.mp h1 with h2 | h2
      · rcases List.mem_append.mp h2 with h3 | h3
        · exact hna h3
        · rcases List.mem_cons.mp h3 with h4 | h4
          · exact hpa h4.symm
          · exact hm1 ch h4 rfl
      · rcases List.mem_cons.mp h2 with h3 | h3
        · exact hca h3.symm
        · exact hm2 ch h3 rfl
    · rcases List.mem_cons.mp h1 with h2 | h2
      · exact hra h2.symm
      · exact absurd h2 (List.not_mem_nil _)
  refine ⟨?_, ?_, ?_, ?_, d, hd, wordC_ne_nl d hdw⟩
  · subst hrep
    simp
  · exact hrepav '#' hn1 (by decide) (by decide) (by decide)
      (fun x hx => wordC_ne_hash x (hw1 x hx)) (fun x hx => wordC_ne_hash x (hw2 x hx))
  · exact hrepav '\n' hn2 (by decide) (by decide) (by decide)
      (fun x hx => wordC_ne_nl x (hw1 x hx)) (fun x hx => wordC_ne_nl x (hw2 x hx))
  · intro hx
    rcases hspan '#' hx with h1 | h1 | h1
    · exact absurd h1 (by decide)
    · exact absurd h1 (by decide)
    · exact hopc h1.symm

/-! ### The numeric replacements avoid the marker and newlines -/
theorem digitChar_mem_hexPool (d : Nat) (h : d < 16) :
    digitChar d ∈ "0123456789abcdef".data := by
  interval_cases d <;> decide

theorem numChoices_avoid (ch : Char) (hch : ch ∉ "0123456789abcdefxF()&+<".data)
    (n a : Nat) (c : Str) (hc : c ∈ numChoices n a) : ch ∉ c := by
  have hbase : ∀ (b m : Nat), 2 ≤ b → b ≤ 16 → ch ∉ natToBase b m := by
    intro b m hb hb16 hmem
    obtain ⟨d, hd, he⟩ := natToBase_digits b hb m ch hmem
    have hsub : ∀ x : Char, x ∈ "0123456789abcdef".data →
        x ∈ "0123456789abcdefxF()&+<".data := by decide
    exact hch (hsub ch (he.symm ▸ digitChar_mem_hexPool d (by omega)))
  have hfix : ∀ x : Char, x ∈ "0123456789abcdefxF()&+<".data → ¬ x = ch :=
    fun x hx he => hch (he ▸ hx)
  simp only [numChoices, List.mem_append] at hc
  rcases hc with ((((hc | hc) | hc) | hc) | hc)
  · rw [List.mem_singleton] at hc
    subst hc
    exact hbase 10 n (by norm_num) (by norm_num)
  · rw [if_pos (Nat.zero_le n), List.mem_singleton] at hc
    subst hc
    exact not_mem_cons_of _ _ _ (hfix '0' (by decide))
      (not_mem_cons_of _ _ _ (hfix 'x' (by decide)) (hbase 16 n (by norm_num) (by norm_num)))
  · by_cases hcond : 0 < n ∧ n < 256
    · rw [if_pos hcond] at hc
      rcases List.mem_cons.mp hc with rfl | hc
      · exact not_mem_cons_of _ _ _ (hfix '0' (by decide))
          (hbase 8 n (by norm_num) (by norm_num))
      · rw [List.mem_singleton] at hc
        subst hc
        refine not_mem_append_of _ _ _ (not_mem_append_of _ _ _ ?_ ?_) ?_
        · refine not_mem_cons_of _ _ _ (hfix '(' (by decide)) ?_
          intro hmem
          rcases List.mem_cons.mp hmem with h1 | h1
          · exact hfix '0' (by decide) h1.symm
          · rcases List.mem_cons.mp h1 with h2 | h2
            · exact hfix 'x' (by decide) h2.symm
            · rcases List.mem_cons.mp h2 with h3 | h3
              · exact hfix 'F' (by decide) h3.symm
              · rcases List.mem_cons.mp h3 with h4 | h4
                · exact hfix 'F' (by decide) h4.symm
                · rcases List.mem_cons.mp h4 with h5 | h5
                  · exact hfix '&' (by decide) h5.symm
                  · exact absurd h5 (List.not_mem_nil _)
        · exact not_mem_cons_of _ _ _ (hfix '0' (by decide))
            (not_mem_cons_of _ _ _ (hfix 'x' (by decide))
              (hbase 16 n (by norm_num) (by norm_num)))
        · exact not_mem_cons_of _ _ _ (hfix ')' (by decide)) (List.not_mem_nil _)
    · rw [if_neg hcond] at hc
      exact absurd hc (List.not_mem_nil c)
  · by_cases hcond : 1 < n
    · rw [if_pos hcond, List.mem_singleton] at hc
      subst hc
      refine not_mem_append_of _ _ _ (not_mem_append_of _ _ _ ?_ ?_) ?_
      · exact not_mem_cons_of _ _ _ (hfix '(' (by decide))
          (hbase 10 a (by norm_num) (by norm_num))
      · exact not_mem_cons_of _ _ _ (hfix '+' (by decide))
          (hbase 10 (n - a) (by norm_num) (by norm_num))
      · exact not_mem_cons_of _ _ _ (hfix ')' (by decide)) (List.not_mem_nil _)
    · rw [if_neg hcond] at hc
      exact absurd hc (List.not_mem_nil c)
  · by_cases hcond : 0 < n ∧ n.land (n - 1) = 0
    · rw [if_pos hcond, List.mem_singleton] at hc
      subst hc
      refine not_mem_append_of _ _ _ (not_mem_append_of _ _ _ ?_ ?_) ?_
      · refine not_mem_cons_of _ _ _ (hfix '(' (by decide)) ?_
        intro hmem
        rcases List.mem_cons.mp hmem with h1 | h1
        · exact hfix '1' (by decide) h1.symm
        · rcases List.mem_cons.mp h1 with h2 | h2
          · exact hfix '<' (by decide) h2.symm
          · rcases List.mem_cons.mp h2 with h3 | h3
            · exact hfix '<' (by decide) h3.symm
            · exact absurd h3 (List.not_mem_nil _)
      · exact hbase 10 (bitLength n - 1) (by norm_num) (by norm_num)
      · exact not_mem_cons_of _ _ _ (hfix ')' (by decide)) (List.not_mem_nil _)
    · rw [if_neg hcond] at hc
      exact absurd hc (List.not_mem_nil c)

theorem numChoices_mem_ne_nil (n a : Nat) (c : Str) (hc : c ∈ numChoices n a) : c ≠ [] := by
  simp only [numChoices, List.mem_append] at hc
  rcases hc with ((((hc | hc) | hc) | hc) | hc)
  · rw [List.mem_singleton] at hc
    subst hc
    exact natToBase_ne_nil 10 n (by norm_num)
  · rw [if_pos (Nat.zero_le n), List.mem_singleton] at hc
    subst hc
    simp [pyHex]
  · by_cases hcond : 0 < n ∧ n < 256
    · rw [if_pos hcond] at hc
      rcases List.mem_cons.mp hc with rfl | hc
      · simp [cOct]
      · rw [List.mem_singleton] at hc
        subst hc
        simp
    · rw [if_neg hcond] at hc
      exact absurd hc (List.not_mem_nil c)
  · by_cases hcond : 1 < n
    · rw [if_pos hcond, List.mem_singleton] at hc
      subst hc
      simp
    · rw [if_neg hcond] at hc
      exact absurd hc (List.not_mem_nil c)
  · by_cases hcond : 0 < n ∧ n.land (n - 1) = 0
    · rw [if_pos hcond, List.mem_singleton] at hc
      subst hc
      simp
    · rw [if_neg hcond] at hc
      exact absurd hc (List.not_mem_nil c)

/-! ### The substitution scans simulate the original text -/
theorem hrun_append_inv (s : HState) (a b : Str) (s' : HState)
    (h : hrun s (a ++ b) = some s') :
    ∃ sm, hrun s a = some sm ∧ hrun sm b = some s' := by
  rw [hrun_append] at h
  match hm : hrun s a with
  | none =>
    rw [hm] at h
    exact absurd h (by simp)
  | some sm =>
    rw [hm] at h
    exact ⟨sm, rfl, h⟩

theorem rank_le_hash (s : HState) : hrank s ≤ hrank .hash := by
  cases s <;> decide

theorem subScan_hrun (m : Bool → Str → Option (Nat × Str)) (hm : HMatchOK m) :
    ∀ (f : Nat) (s₁ s₂ : HState) (pw : Bool) (cs : Str), hrank s₂ ≤ hrank s₁ →
    ∀ s₂', hrun s₂ cs = some s₂' →
    ∃ s₁', hrun s₁ (subScan m f pw cs) = some s₁' ∧ hrank s₂' ≤ hrank s₁' := by
  intro f
  induction f with
  | zero =>
    intro s₁ s₂ pw cs hle s₂' h
    exact hrun_mono cs s₁ s₂ hle s₂' h
  | succ f ih =>
    intro s₁ s₂ pw cs hle s₂' h
    match cs with
    | [] =>
      injection h with h
      exact ⟨s₁, rfl, h ▸ hle⟩
    | c :: cs' =>
      match hmm : m pw (c :: cs') with
      | none =>
        simp only [subScan, hmm]
        match hs : hstep s₂ c with
        | none =>
          rw [hrun_cons_none _ _ _ hs] at h
          exact absurd h (by simp)
        | some s₂m =>
          rw [hrun_cons_some _ _ _ _ hs] at h
          obtain ⟨s₁m, hs1, hlem⟩ := hstep_mono s₁ s₂ hle c s₂m hs
          obtain ⟨s₁', h1, h2⟩ := ih s₁m s₂m (isWordC c) cs' hlem s₂' h
          exact ⟨s₁', by rw [hrun_cons_some _ _ _ _ hs1]; exact h1, h2⟩
      | some (n, rep) =>
        simp only [subScan, hmm]
        obtain ⟨hrne, hrhash, hrnl, hspanh, d, hd, hdn⟩ := hm pw (c :: cs') n rep hmm
        have hsplit : hrun s₂ ((c :: cs').take n ++ (c :: cs').drop n) = some s₂' := by
          rw [List.take_append_drop]
          exact h
        obtain ⟨s₂mid, hmid1, hmid2⟩ := hrun_append_inv s₂ _ _ s₂' hsplit
        have hrep : hrun s₁ rep = some (repState s₁) := hrun_rep rep hrhash hrnl hrne s₁
        have hrank2 : hrank s₂mid ≤ hrank (repState s₁) := by
          cases hs1c : s₁ with
          | hash => exact rank_le_hash s₂mid
          | start =>
            have hs2 : ¬ s₂ = .hash := by
              intro hcon
              subst hcon hs1c
              exact absurd hle (by decide)
            have hnh : ¬ s₂mid = .hash :=
              hrun_ne_hash _ s₂ s₂mid hspanh hs2 hmid1
            have hns : ¬ s₂mid = .start :=
              hrun_last_ne_start _ s₂ s₂mid d hmid1 hd hdn
            cases s₂mid
            · exact absurd rfl hns
            · decide
            · exact absurd rfl hnh
          | clean =>
            have hs2 : ¬ s₂ = .hash := by
              intro hcon
              subst hcon hs1c
              exact absurd hle (by decide)
            have hnh : ¬ s₂mid = .hash :=
              hrun_ne_hash _ s₂ s₂mid hspanh hs2 hmid1
            have hns : ¬ s₂mid = .start :=
              hrun_last_ne_start _ s₂ s₂mid d hmid1 hd hdn
            cases s₂mid
            · exact absurd rfl hns
            · decide
            · exact absurd rfl hnh
        obtain ⟨s₁', h1, h2⟩ := ih (repState s₁) s₂mid
          ((((c :: cs').take n).getLast?).elim false isWordC) ((c :: cs').drop n)
          hrank2 s₂' hmid2
        refine ⟨s₁', ?_, h2⟩
        rw [hrun_append_some s₁ (repState s₁) rep _ hrep]
        exact h1

theorem rank_mid_le_rep (s₁ s₂ s₂mid : HState) (hle : hrank s₂ ≤ hrank s₁)
    (span : Str) (hspanh : '#' ∉ span) (d : Char) (hd : span.getLast? = some d)
    (hdn : ¬ d = '\n') (hmid : hrun s₂ span = some s₂mid) :
    hrank s₂mid ≤ hrank (repState s₁) := by
  cases hs1c : s₁ with
  | hash => exact rank_le_hash s₂mid
  | start =>
    have hs2 : ¬ s₂ = .hash := by
      intro hcon
      subst hcon hs1c
      exact absurd hle (by decide)
    have hnh : ¬ s₂mid = .hash := hrun_ne_hash _ s₂ s₂mid hspanh hs2 hmid
    have hns : ¬ s₂mid = .start := hrun_last_ne_start _ s₂ s₂mid d hmid hd hdn
    cases s₂mid
    · exact absurd rfl hns
    · decide
    · exact absurd rfl hnh
  | clean =>
    have hs2 : ¬ s₂ = .hash := by
      intro hcon
      subst hcon hs1c
      exact absurd hle (by decide)
    have hnh : ¬ s₂mid = .hash := hrun_ne_hash _ s₂ s₂mid hspanh hs2 hmid
    have hns : ¬ s₂mid = .start := hrun_last_ne_start _ s₂ s₂mid d hmid hd hdn
    cases s₂mid
    · exact absurd rfl hns
    · decide
    · exact absurd rfl hnh

theorem numScan_succ_pw (aFor : Nat → Nat → Nat) (pkFor : Nat → Nat) (f idx : Nat)
    (c : Char) (cs : Str) :
    (numScan aFor pkFor (f + 1) idx true (c :: cs)).1 =
      c :: (numScan aFor pkFor f idx (isWordC c) cs).1 := by
  simp [numScan]

theorem numScan_succ_k0 (aFor : Nat → Nat → Nat) (pkFor : Nat → Nat) (f idx : Nat)
    (c : Char) (cs : Str) (hk : countWhile isDigitC (c :: cs) = 0) :
    (numScan aFor pkFor (f + 1) idx false (c :: cs)).1 =
      c :: (numScan aFor pkFor f idx (isWordC c) cs).1 := by
  simp [numScan, hk]

theorem numScan_succ_wf (aFor : Nat → Nat → Nat) (pkFor : Nat → Nat) (f idx : Nat)
    (c : Char) (cs : Str) (hk : ¬ countWhile isDigitC (c :: cs) = 0)
    (hw : (match (c :: cs).drop (countWhile isDigitC (c :: cs)) with
      | d :: _ => isWordC d
      | [] => false) = true) :
    (numScan aFor pkFor (f + 1) idx false (c :: cs)).1 =
      c :: (numScan aFor pkFor f idx (isWordC c) cs).1 := by
  simp [numScan, hk, hw]

theorem numScan_succ_rep (aFor : Nat → Nat → Nat) (pkFor : Nat → Nat) (f idx : Nat)
    (c : Char) (cs : Str) (hk : ¬ countWhile isDigitC (c :: cs) = 0)
    (hw : ¬ (match (c :: cs).drop (countWhile isDigitC (c :: cs)) with
      | d :: _ => isWordC d
      | [] => false) = true) :
    (numScan aFor pkFor (f + 1) idx false (c :: cs)).1 =
      pickFrom (numChoices (parseBase 10 ((c :: cs).take (countWhile isDigitC (c :: cs))))
          (aFor idx (parseBase 10 ((c :: cs).take (countWhile isDigitC (c :: cs))))))
        (pkFor idx) ++
      (numScan aFor pkFor f (idx + 1) true
        ((c :: cs).drop (countWhile isDigitC (c :: cs)))).1 := by
  simp [numScan, hk, hw]

theorem numScan_hrun (aFor : Nat → Nat → Nat) (pkFor : Nat → Nat) :
    ∀ (f idx : Nat) (s₁ s₂ : HState) (pw : Bool) (cs : Str), hrank s₂ ≤ hrank s₁ →
    ∀ s₂', hrun s₂ cs = some s₂' →
    ∃ s₁', hrun s₁ (numScan aFor pkFor f idx pw cs).1 = some s₁' ∧
      hrank s₂' ≤ hrank s₁' := by
  intro f
  induction f with
  | zero =>
    intro idx s₁ s₂ pw cs hle s₂' h
    exact hrun_mono cs s₁ s₂ hle s₂' h
  | succ f ih =>
    intro idx s₁ s₂ pw cs hle s₂' h
    match cs with
    | [] =>
      injection h with h
      exact ⟨s₁, rfl, h ▸ hle⟩
    | c :: cs' =>
      have hcopy : ∀ (idx2 : Nat),
          ∃ s₁', hrun s₁ (c :: (numScan aFor pkFor f idx2 (isWordC c) cs').1) = some s₁' ∧
            hrank s₂' ≤ hrank s₁' := by
        intro idx2
        match hs : hstep s₂ c with
        | none =>
          rw [hrun_cons_none _ _ _ hs] at h
          exact absurd h (by simp)
        | some s₂m =>
          rw [hrun_cons_some _ _ _ _ hs] at h
          obtain ⟨s₁m, hs1, hlem⟩ := hstep_mono s₁ s₂ hle c s₂m hs
          obtain ⟨s₁', h1, h2⟩ := ih idx2 s₁m s₂m (isWordC c) cs' hlem s₂' h
          exact ⟨s₁', by rw [hrun_cons_some _ _ _ _ hs1]; exact h1, h2⟩
      by_cases hpw : pw = true
      · subst hpw
        rw [numScan_succ_pw]
        exact hcopy idx
      · have hpwf : pw = false := by
          cases pw
          · rfl
          · exact absurd rfl hpw
        subst hpwf
        by_cases hk : countWhile isDigitC (c :: cs') = 0
        · rw [numScan_succ_k0 aFor pkFor f idx c cs' hk]
          exact hcopy idx
        · by_cases hw : (match (c :: cs').drop (countWhile isDigitC (c :: cs')) with
            | d :: _ => isWordC d
            | [] => false) = true
          · rw [numScan_succ_wf aFor pkFor f idx c cs' hk hw]
            exact hcopy idx
          · rw [numScan_succ_rep aFor pkFor f idx c cs' hk hw]
            have hspanne : (c :: cs').take (countWhile isDigitC (c :: cs')) ≠ [] :=
              countWhile_take_ne_nil isDigitC _ hk
            obtain ⟨d, hd⟩ := getLast?_isSome_of_ne_nil _ hspanne
            have hddig : isDigitC d = true :=
              countWhile_take isDigitC _ d (getLast?_mem_list _ _ hd)
            have hdn : ¬ d = '\n' := by
              intro he
              subst he
              exact absurd hddig (by decide)
            have hspanh : '#' ∉ (c :: cs').take (countWhile isDigitC (c :: cs')) := by
              intro hmem
              exact absurd (countWhile_take isDigitC _ '#' hmem) (by decide)
            have hrepmem := pickFrom_mem
              (numChoices (parseBase 10 ((c :: cs').take (countWhile isDigitC (c :: cs'))))
                (aFor idx (parseBase 10 ((c :: cs').take (countWhile isDigitC (c :: cs'))))))
              (by simp [numChoices]) (pkFor idx)
            have hrne := numChoices_mem_ne_nil _ _ _ hrepmem
            have hrh : '#' ∉ pickFrom
                (numChoices (parseBase 10 ((c :: cs').take (countWhile isDigitC (c :: cs'))))
                  (aFor idx (parseBase 10 ((c :: cs').take (countWhile isDigitC (c :: cs'))))))
                (pkFor idx) :=
              numChoices_avoid '#' (by decide) _ _ _ hrepmem
            have hrnl : '\n' ∉ pickFrom
                (numChoices (parseBase 10 ((c :: cs').take (countWhile isDigitC (c :: cs'))))
                  (aFor idx (parseBase 10 ((c :: cs').take (countWhile isDigitC (c :: cs'))))))
                (pkFor idx) :=
              numChoices_avoid '\n' (by decide) _ _ _ hrepmem
            have hsplit : hrun s₂ ((c :: cs').take (countWhile isDigitC (c :: cs')) ++
                (c :: cs').drop (countWhile isDigitC (c :: cs'))) = some s₂' := by
              rw [List.take_append_drop]
              exact h
            obtain ⟨s₂mid, hmid1, hmid2⟩ := hrun_append_inv s₂ _ _ s₂' hsplit
            have hrep2 := hrun_rep _ hrh hrnl hrne s₁
            have hrank2 := rank_mid_le_rep s₁ s₂ s₂mid hle _ hspanh d hd hdn hmid1
            obtain ⟨s₁', h1, h2⟩ := ih (idx + 1) (repState s₁) s₂mid true _ hrank2 s₂' hmid2
            refine ⟨s₁', ?_, h2⟩
            rw [hrun_append_some s₁ (repState s₁) _ _ hrep2]
            exact h1

theorem subOps_hrun (e : Str) (s₁ s₂ : HState) (hle : hrank s₂ ≤ hrank s₁) (s₂' : HState)
    (h : hrun s₂ e = some s₂') :
    ∃ s₁', hrun s₁ (subOps e) = some s₁' ∧ hrank s₂' ≤ hrank s₁' := by
  obtain ⟨sA, hA1, hA2⟩ := subScan_hrun _
    (opSubMatch_HMatchOK '+' "_OB_A".data (by decide) (by decide) (by decide))
    e.length s₁ s₂ false e hle s₂' h
  obtain ⟨sB, hB1, hB2⟩ := subScan_hrun _
    (opSubMatch_HMatchOK '-' "_OB_S".data (by decide) (by decide) (by decide))
    (subScan (opSubMatch '+' "_OB_A".data) e.length false e).length s₁ s₁ false _ le_rfl sA hA1
  obtain ⟨sC, hC1, hC2⟩ := subScan_hrun _
    (opSubMatch_HMatchOK '*' "_OB_M".data (by decide) (by decide) (by decide))
    (subScan (opSubMatch '-' "_OB_S".data)
      (subScan (opSubMatch '+' "_OB_A".data) e.length false e).length false
      (subScan (opSubMatch '+' "_OB_A".data) e.length false e)).length
    s₁ s₁ false _ le_rfl sB hB1
  exact ⟨sC, hC1, le_trans hA2 (le_trans hB2 hC2)⟩

theorem mapEvens_subOps_hrun : ∀ (N : Nat) (segs : List Str), segs.length ≤ N →
    ∀ (s₁ s₂ : HState), hrank s₂ ≤ hrank s₁ → ∀ s₂', hrun s₂ segs.flatten = some s₂' →
    ∃ s₁', hrun s₁ (mapEvens subOps segs).flatten = some s₁' ∧ hrank s₂' ≤ hrank s₁' := by
  intro N
  induction N with
  | zero =>
    intro segs hlen s₁ s₂ hle s₂' h
    have hnil : segs = [] := List.length_eq_zero.mp (Nat.le_zero.mp hlen)
    subst hnil
    injection h with h
    exact ⟨s₁, rfl, h ▸ hle⟩
  | succ N ihN =>
    intro segs hlen s₁ s₂ hle s₂' h
    match segs with
    | [] =>
      injection h with h
      exact ⟨s₁, rfl, h ▸ hle⟩
    | [e] =>
      rw [show ([e] : List Str).flatten = e from by simp] at h
      obtain ⟨s₁', h1, h2⟩ := subOps_hrun e s₁ s₂ hle s₂' h
      refine ⟨s₁', ?_, h2⟩
      rw [show (mapEvens subOps [e]).flatten = subOps e from by simp [mapEvens]]
      exact h1
    | e :: l :: rest =>
      rw [show (e :: l :: rest).flatten = e ++ (l ++ rest.flatten) from by simp] at h
      obtain ⟨sm1, hm1, hm2⟩ := hrun_append_inv s₂ e _ s₂' h
      obtain ⟨sm2, hm3, hm4⟩ := hrun_append_inv sm1 l _ s₂' hm2
      obtain ⟨t1, ht1, ht2⟩ := subOps_hrun e s₁ s₂ hle sm1 hm1
      obtain ⟨t2, ht3, ht4⟩ := hrun_mono l t1 sm1 ht2 sm2 hm3
      obtain ⟨t3, ht5, ht6⟩ := ihN rest (by simp only [List.length_cons] at hlen; omega)
        t2 sm2 ht4 s₂' hm4
      refine ⟨t3, ?_, ht6⟩
      rw [show (mapEvens subOps (e :: l :: rest)).flatten =
        subOps e ++ (l ++ (mapEvens subOps rest).flatten) from by simp [mapEvens]]
      rw [hrun_append_some s₁ t1 _ _ ht1, hrun_append_some t1 t2 _ _ ht3]
      exact ht5

theorem numSubEvens_hrun (aFor : Nat → Nat → Nat) (pkFor : Nat → Nat) :
    ∀ (N : Nat) (segs : List Str), segs.length ≤ N → ∀ (idx : Nat)
    (s₁ s₂ : HState), hrank s₂ ≤ hrank s₁ → ∀ s₂', hrun s₂ segs.flatten = some s₂' →
    ∃ s₁', hrun s₁ (numSubEvens aFor pkFor idx segs).flatten = some s₁' ∧
      hrank s₂' ≤ hrank s₁' := by
  intro N
  induction N with
  | zero =>
    intro segs hlen idx s₁ s₂ hle s₂' h
    have hnil : segs = [] := List.length_eq_zero.mp (Nat.le_zero.mp hlen)
    subst hnil
    injection h with h
    exact ⟨s₁, rfl, h ▸ hle⟩
  | succ N ihN =>
    intro segs hlen idx s₁ s₂ hle s₂' h
    match segs with
    | [] =>
      injection h with h
      exact ⟨s₁, rfl, h ▸ hle⟩
    | [e] =>
      rw [show ([e] : List Str).flatten = e from by simp] at h
      obtain ⟨s₁', h1, h2⟩ := numScan_hrun aFor pkFor e.length idx s₁ s₂ false e hle s₂' h
      refine ⟨s₁', ?_, h2⟩
      rw [show (numSubEvens aFor pkFor idx [e]).flatten =
        (numScan aFor pkFor e.length idx false e).1 from by simp [numSubEvens]]
      exact h1
    | e :: l :: rest =>
      rw [show (e :: l :: rest).flatten = e ++ (l ++ rest.flatten) from by simp] at h
      obtain ⟨sm1, hm1, hm2⟩ := hrun_append_inv s₂ e _ s₂' h
      obtain ⟨sm2, hm3, hm4⟩ := hrun_append_inv sm1 l _ s₂' hm2
      obtain ⟨t1, ht1, ht2⟩ := numScan_hrun aFor pkFor e.length idx s₁ s₂ false e hle sm1 hm1
      obtain ⟨t2, ht3, ht4⟩ := hrun_mono l t1 sm1 ht2 sm2 hm3
      obtain ⟨t3, ht5, ht6⟩ := ihN rest (by simp only [List.length_cons] at hlen; omega)
        (numScan aFor pkFor e.length idx false e).2 t2 sm2 ht4 s₂' hm4
      refine ⟨t3, ?_, ht6⟩
      rw [show (numSubEvens aFor pkFor idx (e :: l :: rest)).flatten =
        (numScan aFor pkFor e.length idx false e).1 ++
          (l ++ (numSubEvens aFor pkFor (numScan aFor pkFor e.length idx false e).2
            rest).flatten) from by simp [numSubEvens]]
      rw [hrun_append_some s₁ t1 _ _ ht1, hrun_append_some t1 t2 _ _ ht3]
      exact ht5

/-! ### Lines, the automaton, and the flattener -/
theorem splitLines_no_newline : ∀ (t : Str), ∀ l ∈ splitLines t, '\n' ∉ l := by
  intro t
  induction t with
  | nil =>
    intro l hl
    rw [show splitLines [] = [[]] from rfl] at hl
    rcases List.mem_cons.mp hl with rfl | hl
    · simp
    · exact absurd hl (List.not_mem_nil l)
  | cons c cs ih =>
    intro l hl
    by_cases hc : c = '\n'
    · subst hc
      rw [splitLines_newline] at hl
      rcases List.mem_cons.mp hl with rfl | hl
      · simp
      · exact ih l hl
    · rw [splitLines_other c cs hc] at hl
      match hsp : splitLines cs with
      | [] => exact absurd hsp (splitLines_ne_nil cs)
      | l0 :: ls =>
        rw [hsp] at hl
        rcases List.mem_cons.mp hl with rfl | hl
        · intro hmem
          rcases List.mem_cons.mp hmem with h1 | h1
          · exact hc h1.symm
          · exact ih l0 (hsp ▸ List.mem_cons_self l0 ls) h1
        · exact ih l (hsp ▸ List.mem_cons_of_mem l0 hl)

theorem splitLines_single (l : Str) (h : '\n' ∉ l) : splitLines l = [l] := by
  induction l with
  | nil => rfl
  | cons c cs ih =>
    have hc : ¬ c = '\n' := fun he => h (he ▸ List.mem_cons_self c cs)
    rw [splitLines_other c cs hc, ih (fun hx => h (List.mem_cons_of_mem c hx))]

theorem splitLines_append_newline : ∀ (x : Str), '\n' ∉ x → ∀ (t : Str),
    splitLines (x ++ '\n' :: t) = x :: splitLines t := by
  intro x
  induction x with
  | nil =>
    intro _ t
    rw [List.nil_append, splitLines_newline]
  | cons c x' ih =>
    intro hx t
    have hc : ¬ c = '\n' := fun he => hx (he ▸ List.mem_cons_self c x')
    rw [List.cons_append, splitLines_other c _ hc,
      ih (fun hm => hx (List.mem_cons_of_mem c hm)) t]

theorem splitLines_joinLines : ∀ (X : List Str), X ≠ [] → (∀ l ∈ X, '\n' ∉ l) →
    splitLines (joinLines X) = X := by
  intro X
  induction X with
  | nil =>
    intro h _
    exact absurd rfl h
  | cons x X' ih =>
    intro _ hX
    match X' with
    | [] => exact splitLines_single x (hX x (List.mem_cons_self x []))
    | y :: X2 =>
      rw [show joinLines (x :: y :: X2) = x ++ '\n' :: joinLines (y :: X2) from rfl]
      rw [splitLines_append_newline x (hX x (List.mem_cons_self x (y :: X2))) _]
      rw [ih (by simp) (fun l hl => hX l (List.mem_cons_of_mem x hl))]

theorem hstep_nl (s : HState) : hstep s '\n' = some .start := by
  cases s <;> simp [hstep]

theorem hrun_lines : ∀ (t : Str) (s : HState), (hrun s t).isSome →
    ∀ h0 hs, splitLines t = h0 :: hs →
    (∀ l ∈ hs, lineOK l) ∧ (s = .start → lineOK h0) ∧ (s = .clean → '#' ∉ h0) := by
  intro t
  induction t with
  | nil =>
    intro s _ h0 hs hsp
    rw [show splitLines [] = [[]] from rfl] at hsp
    injection hsp with hsp1 hsp2
    subst hsp1
    subst hsp2
    refine ⟨by intro l hl; exact absurd hl (List.not_mem_nil l), ?_, ?_⟩
    · intro _
      exact Or.inr (List.not_mem_nil _)
    · intro _
      exact List.not_mem_nil _
  | cons c cs ih =>
    intro s hsome h0 hs hsp
    obtain ⟨sm, hsm⟩ : ∃ sm, hstep s c = some sm := by
      match hm : hstep s c with
      | some sm => exact ⟨sm, rfl⟩
      | none =>
        rw [hrun_cons_none s c cs hm] at hsome
        exact absurd hsome (by simp)
    rw [hrun_cons_some s sm c cs hsm] at hsome
    by_cases hc : c = '\n'
    · subst hc
      rw [splitLines_newline] at hsp
      injection hsp with hsp1 hsp2
      subst hsp1
      subst hsp2
      have hsm2 : sm = .start := by
        rw [hstep_nl] at hsm
        injection hsm with hsm
        exact hsm.symm
      subst hsm2
      match hsp3 : splitLines cs with
      | [] => exact absurd hsp3 (splitLines_ne_nil cs)
      | h0' :: hs' =>
        obtain ⟨hT, hS, _⟩ := ih .start hsome h0' hs' hsp3
        refine ⟨?_, ?_, ?_⟩
        · intro l hl
          rcases List.mem_cons.mp hl with rfl | hl
          · exact hS rfl
          · exact hT l hl
        · intro _
          exact Or.inr (List.not_mem_nil _)
        · intro _
          exact List.not_mem_nil _
    · rw [splitLines_other c cs hc] at hsp
      match hsp2 : splitLines cs with
      | [] => exact absurd hsp2 (splitLines_ne_nil cs)
      | h0' :: hs' =>
        rw [hsp2] at hsp
        injection hsp with hsp1 hsp3
        subst hsp1
        subst hsp3
        obtain ⟨hT, hS, hC⟩ := ih sm hsome h0' hs' hsp2
        refine ⟨hT, ?_, ?_⟩
        · intro hss
          subst hss
          by_cases hh : c = '#'
          · subst hh
            exact Or.inl (by simp [startsWithS])
          · have hsm2 : sm = .clean := by
              rw [hstep_eq, if_neg hh, if_neg hc] at hsm
              injection hsm with hsm
              exact hsm.symm
            refine Or.inr ?_
            intro hmem
            rcases List.mem_cons.mp hmem with h1 | h1
            · exact hh h1.symm
            · exact hC hsm2 h1
        · intro hss
          subst hss
          have hh : ¬ c = '#' := by
            intro hcon
            subst hcon
            rw [hstep_eq, if_pos rfl] at hsm
            exact absurd hsm (by simp)
          have hsm2 : sm = .clean := by
            rw [hstep_eq, if_neg hh, if_neg hc] at hsm
            injection hsm with hsm
            exact hsm.symm
          intro hmem
          rcases List.mem_cons.mp hmem with h1 | h1
          · exact hh h1.symm
          · exact hC hsm2 h1

theorem accept_linesOK (t : Str) (s' : HState) (h : hrun .start t = some s') :
    ∀ l ∈ splitLines t, lineOK l := by
  match hsp : splitLines t with
  | [] => exact absurd hsp (splitLines_ne_nil t)
  | h0 :: hs =>
    obtain ⟨h1, h2, _⟩ := hrun_lines t .start (by rw [h]; rfl) h0 hs hsp
    intro l hl
    rcases List.mem_cons.mp hl with rfl | hl
    · exact h2 rfl
    · exact h1 l hl

theorem hstep_some_of_ne (s : HState) (c : Char) (hc : ¬ c = '#') :
    ∃ s2, hstep s c = some s2 := by
  rw [hstep_eq, if_neg hc]
  exact ⟨_, rfl⟩

theorem hashfree_isSome : ∀ (t : Str), '#' ∉ t → ∀ s : HState,
    ∃ s', hrun s t = some s' := by
  intro t
  induction t with
  | nil =>
    intro _ s
    exact ⟨s, rfl⟩
  | cons c cs ih =>
    intro ht s
    have hc : ¬ c = '#' := fun he => ht (he ▸ List.mem_cons_self c cs)
    obtain ⟨s2, hs2⟩ := hstep_some_of_ne s c hc
    obtain ⟨s', hs'⟩ := ih (fun hm => ht (List.mem_cons_of_mem c hm)) s2
    exact ⟨s', by rw [hrun_cons_some s s2 c cs hs2]; exact hs'⟩

theorem hash_run : ∀ (t : Str), '\n' ∉ t → hrun .hash t = some .hash := by
  intro t
  induction t with
  | nil => intro _; rfl
  | cons c cs ih =>
    intro ht
    have hc : ¬ c = '\n' := fun he => ht (he ▸ List.mem_cons_self c cs)
    have hs : hstep .hash c = some .hash := by
      simp [hstep, hc]
    rw [hrun_cons_some _ _ _ _ hs]
    exact ih (fun hm => ht (List.mem_cons_of_mem c hm))

theorem line_accept (l : Str) (hok : lineOK l) (hnl : '\n' ∉ l) :
    ∃ s', hrun .start l = some s' := by
  rcases hok with hok | hok
  · match l, hok with
    | c :: l', hok =>
      have hc : c = '#' := by
        simp only [startsWithS, Bool.and_eq_true, decide_eq_true_eq] at hok
        exact hok.1.symm
      subst hc
      have hs : hstep .start '#' = some .hash := by simp [hstep]
      rw [hrun_cons_some _ _ _ _ hs]
      exact ⟨.hash, hash_run l' (fun hm => hnl (List.mem_cons_of_mem _ hm))⟩
  · exact hashfree_isSome l hok .start

theorem joinLines_accept : ∀ (ls : List Str), (∀ l ∈ ls, lineOK l ∧ '\n' ∉ l) →
    ∃ s', hrun .start (joinLines ls) = some s' := by
  intro ls
  induction ls with
  | nil => exact fun _ => ⟨.start, rfl⟩
  | cons x ls' ih =>
    intro hall
    match ls' with
    | [] =>
      exact line_accept x (hall x (List.mem_cons_self x [])).1
        (hall x (List.mem_cons_self x [])).2
    | y :: ls2 =>
      rw [show joinLines (x :: y :: ls2) = x ++ '\n' :: joinLines (y :: ls2) from rfl]
      obtain ⟨sx, hsx⟩ := line_accept x (hall x (List.mem_cons_self x _)).1
        (hall x (List.mem_cons_self x _)).2
      obtain ⟨s', hs'⟩ := ih (fun l hl => hall l (List.mem_cons_of_mem x hl))
      refine ⟨s', ?_⟩
      rw [hrun_append_some .start sx x _ hsx,
        hrun_cons_some sx .start '\n' _ (hstep_nl sx)]
      exact hs'

/-! ### The flattener only emits directive lines and marker-free joins -/
theorem mem_stripStr (x : Char) (s : Str) (h : x ∈ stripStr s) : x ∈ s := by
  unfold stripStr at h
  rw [List.mem_reverse] at h
  have h2 := (List.dropWhile_sublist _).mem h
  rw [List.mem_reverse] at h2
  exact (List.dropWhile_sublist _).mem h2

theorem flattenLoop_lines : ∀ (lines : List Str) (buffer : Str),
    (∀ line ∈ lines, startsWithS ['#'] (stripStr line) = true ∨ '#' ∉ line) →
    '#' ∉ buffer → '\n' ∉ buffer →
    (∀ line ∈ lines, '\n' ∉ line) →
    ∀ l ∈ flattenLoop lines buffer, lineOK l ∧ '\n' ∉ l := by
  intro lines
  induction lines with
  | nil =>
    intro buffer _ hbh hbn _ l hl
    simp only [flattenLoop] at hl
    by_cases hb : buffer ≠ []
    · rw [if_pos hb] at hl
      rw [List.mem_singleton] at hl
      subst hl
      exact ⟨Or.inr (fun hm => hbh (mem_stripStr _ _ hm)),
        fun hm => hbn (mem_stripStr _ _ hm)⟩
    · rw [if_neg hb] at hl
      exact absurd hl (List.not_mem_nil l)
  | cons line rest ih =>
    intro buffer hH hbh hbn hNL l hl
    have hlineNL : '\n' ∉ line := hNL line (List.mem_cons_self line rest)
    have hrestH : ∀ x ∈ rest, startsWithS ['#'] (stripStr x) = true ∨ '#' ∉ x :=
      fun x hx => hH x (List.mem_cons_of_mem line hx)
    have hrestNL : ∀ x ∈ rest, '\n' ∉ x := fun x hx => hNL x (List.mem_cons_of_mem line hx)
    simp only [flattenLoop] at hl
    by_cases hempty : stripStr line = []
    · rw [if_pos hempty] at hl
      exact ih buffer hrestH hbh hbn hrestNL l hl
    · rw [if_neg hempty] at hl
      by_cases hdir : startsWithS ['#'] (stripStr line) = true
      · rw [if_pos hdir] at hl
        rcases List.mem_append.mp hl with h1 | h1
        · by_cases hb : buffer ≠ []
          · rw [if_pos hb] at h1
            rw [List.mem_singleton] at h1
            subst h1
            exact ⟨Or.inr (fun hm => hbh (mem_stripStr _ _ hm)),
              fun hm => hbn (mem_stripStr _ _ hm)⟩
          · rw [if_neg hb] at h1
            exact absurd h1 (List.not_mem_nil l)
        · rcases List.mem_cons.mp h1 with rfl | h1
          · exact ⟨Or.inl hdir, fun hm => hlineNL (mem_stripStr _ _ hm)⟩
          · exact ih [] hrestH (List.not_mem_nil _) (List.not_mem_nil _) hrestNL l h1
      · rw [if_neg hdir] at hl
        have hlineH : '#' ∉ line := by
          rcases hH line (List.mem_cons_self line rest) with h1 | h1
          · exact absurd h1 hdir
          · exact h1
        refine ih (buffer ++ ' ' :: stripStr line) hrestH ?_ ?_ hrestNL l hl
        · intro hm
          rcases List.mem_append.mp hm with h1 | h1
          · exact hbh h1
          · rcases List.mem_cons.mp h1 with h2 | h2
            · exact absurd h2.symm (by decide)
            · exact hlineH (mem_stripStr _ _ h2)
        · intro hm
          rcases List.mem_append.mp hm with h1 | h1
          · exact hbn h1
          · rcases List.mem_cons.mp h1 with h2 | h2
            · exact absurd h2.symm (by decide)
            · exact hlineNL (mem_stripStr _ _ h2)

theorem flatten_lines (code : Str)
    (H : ∀ line ∈ splitLines code, startsWithS ['#'] (stripStr line) = true ∨ '#' ∉ line) :
    ∀ l ∈ splitLines (flatten_code code "extreme".data), lineOK l ∧ '\n' ∉ l := by
  unfold flatten_code
  rw [if_neg (by simp)]
  have hall : ∀ l ∈ flattenLoop (splitLines code) [], lineOK l ∧ '\n' ∉ l :=
    flattenLoop_lines (splitLines code) [] H (List.not_mem_nil _) (List.not_mem_nil _)
      (splitLines_no_newline code)
  by_cases hnil : flattenLoop (splitLines code) [] = []
  · rw [hnil]
    intro l hl
    rw [show joinLines [] = ([] : Str) from rfl] at hl
    rw [show splitLines ([] : Str) = [[]] from rfl] at hl
    rcases List.mem_cons.mp hl with rfl | hl
    · exact ⟨Or.inr (List.not_mem_nil _), List.not_mem_nil _⟩
    · exact absurd hl (List.not_mem_nil l)
  · rw [splitLines_joinLines _ hnil (fun l hl => (hall l hl).2)]
    exact hall

/-! ### End-to-end: tier-3 text passes keep directive markers isolated -/
theorem obfuscate_numbers_eq_ext (code : Str) (aFor : Nat → Nat → Nat) (pkFor : Nat → Nat) :
    obfuscate_numbers code "extreme".data aFor pkFor =
      (numSubEvens aFor pkFor 0 (splitStr code)).flatten := by
  unfold obfuscate_numbers
  rw [if_neg (by simp)]

theorem macros_lines_ok : ∀ x ∈ MACROS, startsWithS ['#'] x = true ∧ '\n' ∉ x := by
  decide

theorem directive_isolation_pipeline (code : Str) (aFor : Nat → Nat → Nat)
    (pkFor : Nat → Nat)
    (H : ∀ line ∈ splitLines code, startsWithS ['#'] (stripStr line) = true ∨ '#' ∉ line) :
    ∀ l ∈ splitLines (obfuscate_numbers (inject_macros (flatten_code code "extreme".data)
        "extreme".data) "extreme".data aFor pkFor),
      l ≠ [] → (startsWithS ['#'] l = true ∨ '#' ∉ l) := by
  have h3 := flatten_lines code H
  obtain ⟨s3, hs3⟩ : ∃ s3, hrun .start (flatten_code code "extreme".data) = some s3 := by
    have hacc := joinLines_accept (splitLines (flatten_code code "extreme".data)) h3
    rw [joinLines_splitLines (flatten_code code "extreme".data)] at hacc
    exact hacc
  have hsplit3 : hrun .start (splitStr (flatten_code code "extreme".data)).flatten =
      some s3 := by
    rw [splitStr_flatten]
    exact hs3
  obtain ⟨s4, hs4, _⟩ := mapEvens_subOps_hrun
    (splitStr (flatten_code code "extreme".data)).length
    (splitStr (flatten_code code "extreme".data)) le_rfl .start .start le_rfl s3 hsplit3
  have hlines3b : ∀ l ∈ splitLines
      (mapEvens subOps (splitStr (flatten_code code "extreme".data))).flatten,
      lineOK l ∧ '\n' ∉ l := by
    intro l hl
    exact ⟨accept_linesOK _ s4 hs4 l hl, splitLines_no_newline _ l hl⟩
  have hlines4 : ∀ l ∈
      (splitLines (mapEvens subOps (splitStr (flatten_code code "extreme".data))).flatten).take
        (insertPos (splitLines
          (mapEvens subOps (splitStr (flatten_code code "extreme".data))).flatten)) ++
      MACROS ++
      (splitLines (mapEvens subOps (splitStr (flatten_code code "extreme".data))).flatten).drop
        (insertPos (splitLines
          (mapEvens subOps (splitStr (flatten_code code "extreme".data))).flatten)),
      lineOK l ∧ '\n' ∉ l := by
    intro l hl
    rcases List.mem_append.mp hl with h1 | h1
    · rcases List.mem_append.mp h1 with h2 | h2
      · exact hlines3b l (List.mem_of_mem_take h2)
      · exact ⟨Or.inl (macros_lines_ok l h2).1, (macros_lines_ok l h2).2⟩
    · exact hlines3b l (List.mem_of_mem_drop h1)
  obtain ⟨s5, hs5⟩ := joinLines_accept _ hlines4
  rw [inject_macros_eq (flatten_code code "extreme".data) "extreme".data (by decide)]
  rw [obfuscate_numbers_eq_ext]
  have hsplit4 : hrun .start (splitStr (joinLines
      ((splitLines (mapEvens subOps (splitStr (flatten_code code "extreme".data))).flatten).take
        (insertPos (splitLines
          (mapEvens subOps (splitStr (flatten_code code "extreme".data))).flatten)) ++
      MACROS ++
      (splitLines (mapEvens subOps (splitStr (flatten_code code "extreme".data))).flatten).drop
        (insertPos (splitLines
          (mapEvens subOps (splitStr (flatten_code code "extreme".data))).flatten))))).flatten =
      some s5 := by
    rw [splitStr_flatten]
    exact hs5
  obtain ⟨s6, hs6, _⟩ := numSubEvens_hrun aFor pkFor _ _ le_rfl 0 .start .start le_rfl
    s5 hsplit4
  intro l hl _
  exact accept_linesOK _ s6 hs6 l hl

set_option maxRecDepth 8000 in
/-- **C10 (counterexample)**.  A `#` inside a string literal (`char*s="#";`)
survives every tier-3 pass and lands in a final output line that neither
starts with the directive marker nor is marker-free: the original claim is
false as stated. -/
theorem directive_isolation_cx :
    ¬ ∀ l ∈ splitLines ((obfuscate "char*s=\"#\";".data "extreme".data id
        (fun _ => "O0_".data) (fun _ _ => 1) (fun _ => 0)).elim [] Prod.fst),
      l ≠ [] → (startsWithS ['#'] l = true ∨ '#' ∉ l) := by decide

/-- **C10 (amended)**.  At tier 3, provided every line of the text that
reaches the flattener either strips to a line starting with `#` or contains
no `#` at all, every non-empty line of the final output text — after
flattening, macro injection and numeric obfuscation — either starts with
`#` or contains no `#`. -/
theorem directive_line_isolation (code : Str) (aFor : Nat → Nat → Nat)
    (pkFor : Nat → Nat)
    (H : ∀ line ∈ splitLines code, startsWithS ['#'] (stripStr line) = true ∨ '#' ∉ line) :
    ∀ l ∈ splitLines (obfuscate_numbers (inject_macros (flatten_code code "extreme".data)
        "extreme".data) "extreme".data aFor pkFor),
      l ≠ [] → (startsWithS ['#'] l = true ∨ '#' ∉ l) :=
  directive_isolation_pipeline code aFor pkFor H

set_option maxRecDepth 8000 in
/-- Witness for the amended C10 on a two-line source with one include
directive, run through the three tier-3 text passes. -/
theorem directive_line_isolation_witness :
    (∀ line ∈ splitLines "#include <s>\nint a = 2;".data,
      startsWithS ['#'] (stripStr line) = true ∨ '#' ∉ line) ∧
    (∀ l ∈ splitLines (obfuscate_numbers (inject_macros
        (flatten_code "#include <s>\nint a = 2;".data "extreme".data) "extreme".data)
        "extreme".data (fun _ _ => 1) (fun _ => 0)),
      l ≠ [] → (startsWithS ['#'] l = true ∨ '#' ∉ l)) :=
  ⟨by decide, directive_line_isolation "#include <s>\nint a = 2;".data (fun _ _ => 1)
    (fun _ => 0) (by decide)⟩

end Obf
